import Mathlib

/-!
Verification of the api-extractor `Collector` engine (entity-graph construction,
metadata propagation, unique-name assignment) and of the `ApiModelGenerator`
consumer, as a shallow embedding of the TypeScript sources.

The embedding is split into:
* shared enumerations (`ReleaseTag`, reference kinds, declaration kinds);
* the metadata propagator (`Collector._calculateApiItemMetadata`,
  `Collector._calculateDeclarationMetadataForDeclarations`,
  `Collector._addAncillaryDeclaration`);
* the entity-graph builder (`Collector.analyze`,
  `Collector._createCollectorEntity`, `Collector._createEntityForIndirectReferences`)
  together with the name assigner (`Collector._makeUniqueNames`);
* the model builder (`ApiModelGenerator.buildApiPackage`,
  `ApiModelGenerator._processDeclaration`).

Machine state that the TypeScript code mutates in place (the entity list, the
memoized visited set, per-declaration metadata) is threaded explicitly; fatal
`throw` statements become `Except.error`; the unbounded recursion of the graph
traversal takes an explicit fuel argument (the driver passes enough fuel, which
is proved below).
-/

namespace ApiExtractor

/-- Embedding of the `ReleaseTag` enum of `@microsoft/api-extractor-model`:
an ordered enumeration None < Internal < Alpha < Beta < Public, with the
numeric values 0..4 used by the TypeScript enum. -/
inductive ReleaseTag where
  | None
  | Internal
  | Alpha
  | Beta
  | Public
deriving DecidableEq

/-- Numeric value of a `ReleaseTag`, matching the TypeScript enum values. -/
def ReleaseTag.toNat : ReleaseTag → Nat
  | .None => 0
  | .Internal => 1
  | .Alpha => 2
  | .Beta => 3
  | .Public => 4

/-- Embedding of `AstEntityReferenceKind`: a reference from a declaration to
another entity is either a plain reference or an inheritance reference
(extends / implements clauses). -/
inductive AstEntityReferenceKind where
  | Plain
  | Inheritance
deriving DecidableEq

/-- The subset of `ts.SyntaxKind` values that the Collector and the
ApiModelGenerator dispatch on.  `otherKind` stands for every kind that falls
into the `default` branch of those switches. -/
inductive DeclKind where
  | callSignature
  | constructorDecl
  | constructSignature
  | classDecl
  | enumDecl
  | enumMember
  | functionDecl
  | getAccessor
  | setAccessor
  | indexSignature
  | interfaceDecl
  | methodDecl
  | methodSignature
  | moduleDecl
  | propertyDecl
  | propertySignature
  | typeAlias
  | variableDecl
  | otherKind
deriving DecidableEq

/-- Embedding of the tsdoc `StandardModifierTagSet` queries that
`_calculateApiItemMetadata` performs on a parsed doc comment, plus the
`@preapproved` custom-tag query.  Each field is the boolean answer of the
corresponding tsdoc query for this comment. -/
structure ModifierTagSet where
  isPublic : Bool
  isBeta : Bool
  isAlpha : Bool
  isInternal : Bool
  isEventProperty : Bool
  isOverride : Bool
  isSealed : Bool
  isVirtual : Bool
  hasPreapprovedTag : Bool
deriving DecidableEq

/-- The non-fatal analyzer issues (`ExtractorMessageId` values) that the
modelled code can report via `messageRouter.addAnalyzerIssue`. -/
inductive Diag where
  | extraReleaseTag
  | preapprovedBadReleaseTag
  | preapprovedUnsupportedType
  | missingReleaseTag
  | missingGetter
  | setterWithDocs
deriving DecidableEq

/-- Embedding of `IApiItemMetadataOptions` / `ApiItemMetadata`: the fields that
`_calculateApiItemMetadata` fills in. -/
structure ApiItemMetadata where
  declaredReleaseTag : ReleaseTag
  effectiveReleaseTag : ReleaseTag
  isEventProperty : Bool
  isOverride : Bool
  isSealed : Bool
  isVirtual : Bool
  isPreapproved : Bool
  releaseTagSameAsParent : Bool
deriving DecidableEq

/-- Context in which one declaration has its `ApiItemMetadata` computed: the
facts about the surrounding collector state that lines 769, 786, 833-841 of
`Collector.ts` consult.  `entityFound` and `entityConsumable` describe the
result of `this._entitiesByAstEntity.get(astSymbol.rootAstSymbol)`;
`rootLocalName` is `astSymbol.rootAstSymbol.localName`; `preapprovedTagDefined`
is whether `tsdocConfiguration.tryGetTagDefinition('@preapproved')` succeeds. -/
structure MetadataContext where
  isExternal : Bool
  entityFound : Bool
  entityConsumable : Bool
  rootLocalName : String
  preapprovedTagDefined : Bool

/-- Embedding of the declared-release-tag computation of
`_calculateApiItemMetadata` (the four sequential `modifierTagSet` checks):
returns the computed `declaredReleaseTag` together with the
`extraReleaseTags` flag. -/
def computeDeclaredReleaseTag (m : ModifierTagSet) : ReleaseTag × Bool :=
  let declared : ReleaseTag := if m.isPublic then .Public else .None
  let (declared, extra) :=
    if m.isBeta then
      (if declared ≠ ReleaseTag.None then (declared, true) else (.Beta, false))
    else (declared, false)
  let (declared, extra) :=
    if m.isAlpha then
      (if declared ≠ ReleaseTag.None then (declared, extra || true) else (.Alpha, extra))
    else (declared, extra)
  let (declared, extra) :=
    if m.isInternal then
      (if declared ≠ ReleaseTag.None then (declared, extra || true) else (.Internal, extra))
    else (declared, extra)
  (declared, extra)

/-- Is this declaration kind one of the container kinds accepted by the
`@preapproved` switch (class / enum / interface / module declarations)? -/
def DeclKind.isPreapprovedContainer : DeclKind → Bool
  | .classDecl => true
  | .enumDecl => true
  | .interfaceDecl => true
  | .moduleDecl => true
  | _ => false

/-- Embedding of the doc-comment-driven part of `_calculateApiItemMetadata`
(lines 736-816 of `Collector.ts`): when a tsdoc comment was parsed, compute
the declared release tag (reporting the extra-release-tag issue for
non-external declarations), copy the standard modifiers, and process the
`@preapproved` tag, which is accepted only on class / enum / interface /
module declarations that also declare `@internal`. -/
def applyDocComment (ctx : MetadataContext) (kind : DeclKind) (options : ApiItemMetadata)
    (doc : Option ModifierTagSet) : ApiItemMetadata × List Diag :=
  match doc with
  | Option.none => (options, ([] : List Diag))
  | Option.some m =>
    let (declaredReleaseTag, extraReleaseTags) := computeDeclaredReleaseTag m
    let diags : List Diag :=
      if extraReleaseTags && !ctx.isExternal then [Diag.extraReleaseTag] else []
    let options :=
      { options with
        declaredReleaseTag := declaredReleaseTag
        isEventProperty := m.isEventProperty
        isOverride := m.isOverride
        isSealed := m.isSealed
        isVirtual := m.isVirtual }
    if ctx.preapprovedTagDefined && m.hasPreapprovedTag then
      if kind.isPreapprovedContainer then
        if declaredReleaseTag = ReleaseTag.Internal then
          ({ options with isPreapproved := true }, diags)
        else
          (options, diags ++ [Diag.preapprovedBadReleaseTag])
      else
        (options, diags ++ [Diag.preapprovedUnsupportedType])
    else (options, diags)

/-- Embedding of lines 818-830 of `Collector.ts`: the effective release tag
is the declared tag, or the parent declaration's (already final) effective
tag when no tag was declared; without a parent it is the declared tag.  This
needs to be set regardless of whether or not a doc comment exists. -/
def applyParentEffectiveReleaseTag (options : ApiItemMetadata)
    (parentEffectiveReleaseTag : Option ReleaseTag) : ApiItemMetadata :=
  match parentEffectiveReleaseTag with
  | Option.some parentEff =>
    { options with
      effectiveReleaseTag :=
        if options.declaredReleaseTag = ReleaseTag.None then parentEff
        else options.declaredReleaseTag
      releaseTagSameAsParent :=
        parentEff =
          (if options.declaredReleaseTag = ReleaseTag.None then parentEff
           else options.declaredReleaseTag) }
  | Option.none =>
    { options with effectiveReleaseTag := options.declaredReleaseTag }

/-- Embedding of lines 832-855 of `Collector.ts`: a still-unset effective
release tag is healed to `Public` when the declaration is external, or when
its root entity is in the graph and consumable - in the latter case with the
missing-release-tag issue, unless the root symbol is the entry point default
export `_default`. -/
def applyMissingReleaseTagHeal (ctx : MetadataContext) (options : ApiItemMetadata)
    (diags : List Diag) : ApiItemMetadata × List Diag :=
  if options.effectiveReleaseTag = ReleaseTag.None then
    if !ctx.isExternal then
      if ctx.entityFound && ctx.entityConsumable then
        let diags :=
          if ctx.rootLocalName ≠ "_default" then diags ++ [Diag.missingReleaseTag]
          else diags
        ({ options with effectiveReleaseTag := ReleaseTag.Public }, diags)
      else (options, diags)
    else ({ options with effectiveReleaseTag := ReleaseTag.Public }, diags)
  else (options, diags)

/-- Embedding of `Collector._calculateApiItemMetadata` for a non-ancillary
declaration (lines 725-867 of `Collector.ts`), as a pure function of the
declaration kind, parsed doc comment (`none` when the declaration has no
tsdoc comment), and the effective release tag of the parent declaration
(`none` when `astDeclaration.parent` is undefined).  The parent metadata is
already final when this runs (parents are always resolved first), so the
parent is represented by its stored `effectiveReleaseTag`.  Returns the
constructed `ApiItemMetadata` together with the analyzer issues reported
while computing it. -/
def initialApiItemMetadata : ApiItemMetadata :=
  { declaredReleaseTag := .None
    effectiveReleaseTag := .None
    isEventProperty := false
    isOverride := false
    isSealed := false
    isVirtual := false
    isPreapproved := false
    releaseTagSameAsParent := false }

def calculateApiItemMetadata (ctx : MetadataContext) (kind : DeclKind)
    (doc : Option ModifierTagSet) (parentEffectiveReleaseTag : Option ReleaseTag) :
    ApiItemMetadata × List Diag :=
  let docResult := applyDocComment ctx kind initialApiItemMetadata doc
  -- The effective tag needs to be set regardless of whether a comment exists
  applyMissingReleaseTagHeal ctx
    (applyParentEffectiveReleaseTag docResult.1 parentEffectiveReleaseTag) docResult.2

/-- Declaration tree node, as seen by the metadata propagator: the declaration
kind, the parse result of its tsdoc comment, and the child declarations
(`AstDeclaration.children`). -/
inductive MetaDecl where
  | node (kind : DeclKind) (doc : Option ModifierTagSet) (children : List MetaDecl)

/-- Effective release tag that `_calculateApiItemMetadata` stores for a single
declaration, given the parent's stored effective tag. -/
def effectiveTagOf (ctx : MetadataContext) (kind : DeclKind)
    (doc : Option ModifierTagSet) (parentEffectiveReleaseTag : Option ReleaseTag) :
    ReleaseTag :=
  (calculateApiItemMetadata ctx kind doc parentEffectiveReleaseTag).1.effectiveReleaseTag

mutual
/-- Walks a declaration tree top-down (parents before children, exactly the
order that the symbol-first resolution of `_fetchSymbolMetadata` guarantees)
and lists the effective release tag stored for every declaration, in preorder. -/
def effectiveTagsOfTree (ctx : MetadataContext)
    (parentEffectiveReleaseTag : Option ReleaseTag) : MetaDecl → List ReleaseTag
  | .node kind doc children =>
    let eff := effectiveTagOf ctx kind doc parentEffectiveReleaseTag
    eff :: effectiveTagsOfForest ctx (Option.some eff) children
/-- List version of `effectiveTagsOfTree` for the child list. -/
def effectiveTagsOfForest (ctx : MetadataContext)
    (parentEffectiveReleaseTag : Option ReleaseTag) : List MetaDecl → List ReleaseTag
  | [] => []
  | d :: ds =>
    effectiveTagsOfTree ctx parentEffectiveReleaseTag d ++
      effectiveTagsOfForest ctx parentEffectiveReleaseTag ds
end

/-- The effective-release-tag rule exactly as the specification words it
(release-inheritance without the missing-release-tag healing): the effective
tag equals the declared tag if the declared tag is not None; otherwise it
equals the parent declaration's effective tag; otherwise (no parent) None. -/
def specEffectiveReleaseTag (declared : ReleaseTag)
    (parentEffectiveReleaseTag : Option ReleaseTag) : ReleaseTag :=
  if declared ≠ ReleaseTag.None then declared
  else match parentEffectiveReleaseTag with
    | Option.some parentEff => parentEff
    | Option.none => .None

end ApiExtractor

namespace ApiExtractor

/-- One declaration of a symbol, as seen by
`_calculateDeclarationMetadataForDeclarations`: its syntax kind and the parse
result of its tsdoc comment (`tsdocParserContext`, `none` when absent). -/
structure SymDecl where
  kind : DeclKind
  doc : Option ModifierTagSet
deriving DecidableEq

/-- Embedding of `InternalDeclarationMetadata` (the mutable build-up form of
`DeclarationMetadata`): whether this declaration is ancillary to another, and
the list of declarations ancillary to it.  Declarations are identified by
their index in the symbol's declaration list. -/
structure InternalDeclarationMetadata where
  isAncillary : Bool
  ancillaryDeclarations : List Nat
deriving DecidableEq

/-- State threaded through the resolution of one symbol's declarations: the
per-declaration `DeclarationMetadata`, the per-declaration `ApiItemMetadata`
(with an allocation id so that object identity - shared versus separately
constructed metadata - is observable), the allocation counter, and the
analyzer issues reported so far. -/
structure SymbolResolutionState where
  declarationMetadata : List InternalDeclarationMetadata
  apiItemMetadata : List (Option (Nat × ApiItemMetadata))
  nextObjectId : Nat
  diags : List Diag
deriving DecidableEq

/-- Reads declaration metadata by index (total-function form of the map
lookup; indices are always in range when reached from the pipeline). -/
def declMetaOf (st : SymbolResolutionState) (i : Nat) : InternalDeclarationMetadata :=
  st.declarationMetadata.getD i ⟨false, []⟩

/-- Embedding of `Collector._addAncillaryDeclaration` (lines 661-703). The
same-symbol guard of the source always passes here because both indices refer
to declarations of the single symbol being resolved.  Each `InternalError` of
the source becomes an `Except.error` carrying the error message. -/
def addAncillaryDeclaration (st : SymbolResolutionState) (mainIdx ancillaryIdx : Nat) :
    Except String SymbolResolutionState :=
  let mainMetadata := declMetaOf st mainIdx
  let ancillaryMetadata := declMetaOf st ancillaryIdx
  if ancillaryIdx ∈ mainMetadata.ancillaryDeclarations then
    .ok st -- already added
  else if mainMetadata.isAncillary then
    .error "Invalid call to _addAncillaryDeclaration() because the target is ancillary itself"
  else if ancillaryMetadata.isAncillary then
    .error "Invalid call to _addAncillaryDeclaration() because source is already ancillary to another declaration"
  else if (st.apiItemMetadata.getD mainIdx Option.none).isSome ||
      (st.apiItemMetadata.getD ancillaryIdx Option.none).isSome then
    .error "Invalid call to _addAncillaryDeclaration() because the API item metadata has already been constructed"
  else
    .ok { st with
      declarationMetadata :=
        (st.declarationMetadata.set ancillaryIdx { ancillaryMetadata with isAncillary := true }).set
          mainIdx { mainMetadata with
            ancillaryDeclarations := mainMetadata.ancillaryDeclarations ++ [ancillaryIdx] } }

/-- Inner loop of the ancillary detection: for the setter at `setterIdx`, scan
every declaration of the symbol and associate each getter with the setter.
Returns the updated state and the `foundGetter` flag. -/
def linkSetterToGetters (setterIdx : Nat) :
    List (Nat × SymDecl) → SymbolResolutionState → Bool →
    Except String (SymbolResolutionState × Bool)
  | [], st, foundGetter => .ok (st, foundGetter)
  | (j, d) :: rest, st, foundGetter =>
    if d.kind = DeclKind.getAccessor then do
      let st ← addAncillaryDeclaration st j setterIdx
      linkSetterToGetters setterIdx rest st true
    else
      linkSetterToGetters setterIdx rest st foundGetter

/-- Outer loop of the ancillary detection of
`_calculateDeclarationMetadataForDeclarations` (lines 636-658): for every
setter declaration, link it to the getters of the same symbol; report the
missing-getter issue when the symbol has no getter. -/
def detectAncillaryDeclarations (allDecls : List (Nat × SymDecl)) :
    List (Nat × SymDecl) → SymbolResolutionState →
    Except String SymbolResolutionState
  | [], st => .ok st
  | (i, d) :: rest, st =>
    if d.kind = DeclKind.setAccessor then do
      let (st, foundGetter) ← linkSetterToGetters i allDecls st false
      let st :=
        if foundGetter then st
        else { st with diags := st.diags ++ [Diag.missingGetter] }
      detectAncillaryDeclarations allDecls rest st
    else
      detectAncillaryDeclarations allDecls rest st

/-- Embedding of the stateful part of `_calculateApiItemMetadata` for one
declaration (lines 705-867): ancillary declarations are skipped (with the
setter-with-docs diagnostic), a non-ancillary declaration gets a freshly
constructed `ApiItemMetadata` object which is then also assigned, as the same
object, to every declaration ancillary to it. -/
def calculateApiItemMetadataFor (ctx : MetadataContext)
    (parentEffectiveReleaseTag : Option ReleaseTag)
    (st : SymbolResolutionState) (i : Nat) (d : SymDecl) : SymbolResolutionState :=
  let declarationMetadata := declMetaOf st i
  if declarationMetadata.isAncillary then
    if d.kind = DeclKind.setAccessor && d.doc.isSome then
      { st with diags := st.diags ++ [Diag.setterWithDocs] }
    else st
  else
    let (apiItemMetadata, newDiags) :=
      calculateApiItemMetadata ctx d.kind d.doc parentEffectiveReleaseTag
    let objectId := st.nextObjectId
    let api := st.apiItemMetadata.set i (Option.some (objectId, apiItemMetadata))
    -- Lastly, share the result with any ancillary declarations
    let api := declarationMetadata.ancillaryDeclarations.foldl
      (fun api j => api.set j (Option.some (objectId, apiItemMetadata))) api
    { st with
      apiItemMetadata := api
      nextObjectId := objectId + 1
      diags := st.diags ++ newDiags }

/-- Folds `calculateApiItemMetadataFor` over the declarations in order
(the `for astDeclaration of astSymbol.astDeclarations` loop of
`_fetchSymbolMetadata`). -/
def calculateApiItemMetadataAll (ctx : MetadataContext)
    (parentEffectiveReleaseTag : Option ReleaseTag) :
    List (Nat × SymDecl) → SymbolResolutionState → SymbolResolutionState
  | [], st => st
  | (i, d) :: rest, st =>
    calculateApiItemMetadataAll ctx parentEffectiveReleaseTag rest
      (calculateApiItemMetadataFor ctx parentEffectiveReleaseTag st i d)

/-- Embedding of `_fetchSymbolMetadata` restricted to one symbol whose parent
symbol (if any) is already resolved: construct the `DeclarationMetadata`
records, detect ancillary declarations, then compute the `ApiItemMetadata`
for every declaration.  `parentEffectiveReleaseTag` is the stored effective
tag of the parent declaration of this symbol's declarations (`none` at the
root).  Also returns the symbol's `maxEffectiveReleaseTag`. -/
def resolveSymbolDeclarations (ctx : MetadataContext)
    (parentEffectiveReleaseTag : Option ReleaseTag) (decls : List SymDecl) :
    Except String (SymbolResolutionState × ReleaseTag) := do
  let st : SymbolResolutionState :=
    { declarationMetadata := decls.map (fun _ => ⟨false, []⟩)
      apiItemMetadata := decls.map (fun _ => Option.none)
      nextObjectId := 0
      diags := [] }
  let indexed := decls.enum
  let st ← detectAncillaryDeclarations indexed indexed st
  let st := calculateApiItemMetadataAll ctx parentEffectiveReleaseTag indexed st
  -- The most public effectiveReleaseTag for all declarations
  let maxEffectiveReleaseTag := st.apiItemMetadata.foldl
    (fun maxTag entry =>
      match entry with
      | Option.some (_, m) =>
        if maxTag.toNat < m.effectiveReleaseTag.toNat then m.effectiveReleaseTag else maxTag
      | Option.none => maxTag)
    ReleaseTag.None
  .ok (st, maxEffectiveReleaseTag)

/-- Embedding of `Collector.getNonAncillaryDeclarations`: the indices of the
declarations whose `DeclarationMetadata.isAncillary` is false, in order. -/
def getNonAncillaryDeclarations (st : SymbolResolutionState) (decls : List SymDecl) :
    List Nat :=
  (((decls.enum).map (fun p => p.1)).filter (fun i => !(declMetaOf st i).isAncillary))

end ApiExtractor

namespace ApiExtractor

instance {ε α : Type _} [DecidableEq ε] [DecidableEq α] : DecidableEq (Except ε α)
  | .ok a, .ok b => if h : a = b then .isTrue (by rw [h]) else .isFalse (by simp [h])
  | .ok _, .error _ => .isFalse (by simp)
  | .error _, .ok _ => .isFalse (by simp)
  | .error a, .error b => if h : a = b then .isTrue (by rw [h]) else .isFalse (by simp [h])

/-- One outgoing entity reference of a declaration
(`AstDeclaration.astEntityReferences` entry): the referenced entity (by id)
and the reference kind. -/
structure EntityRef where
  astEntity : Nat
  kind : AstEntityReferenceKind
deriving DecidableEq

/-- Declaration tree as seen by the graph builder: each declaration carries
its entity references and its child declarations. -/
inductive DeclTree where
  | node (astEntityReferences : List EntityRef) (children : List DeclTree)

mutual
/-- All entity references of a declaration and its children, in the preorder
that `AstSymbol.forEachDeclarationRecursive` visits them. -/
def DeclTree.allReferences : DeclTree → List EntityRef
  | .node refs children => refs ++ DeclTree.allReferencesOfForest children
/-- List version of `DeclTree.allReferences`. -/
def DeclTree.allReferencesOfForest : List DeclTree → List EntityRef
  | [] => []
  | d :: ds => d.allReferences ++ DeclTree.allReferencesOfForest ds
end

/-- The closed variants of `AstEntity` that the graph builder dispatches on:
a symbol-backed entity (with its parent symbol, if nested, and its
declarations), a namespace-import entity (with the entity ids of its module's
`exportedLocalEntities`), or any other entity (e.g. `AstImport`), which has
neither references nor an export table. -/
inductive AstEntityKind where
  | astSymbol (parentAstSymbol : Option Nat) (astDeclarations : List DeclTree)
  | astNamespaceImport (exportedLocalEntities : List Nat)
  | astImport

/-- One entity of the front end's output: its local name and its kind. -/
structure AstEntity where
  localName : String
  kind : AstEntityKind

/-- The front-end input that `Collector.analyze` consumes: the entity
universe (entities are identified by their index), the entry module's export
table (`exportedLocalEntities`, in iteration order), and the set of names
reserved by the global-variable analyzer. -/
structure GraphWorld where
  ents : List AstEntity
  exportedLocalEntities : List (String × Nat)
  globalNames : List String

/-- Number of entities in the world. -/
def GraphWorld.numEntities (w : GraphWorld) : Nat := w.ents.length

/-- Kind of the entity with the given id; ids outside the universe behave as
reference-free `astImport` entities (they never occur in well-formed runs). -/
def GraphWorld.entityKind (w : GraphWorld) (i : Nat) : AstEntityKind :=
  ((w.ents.get? i).map AstEntity.kind).getD .astImport

/-- Local name of the entity with the given id. -/
def GraphWorld.localName (w : GraphWorld) (i : Nat) : String :=
  ((w.ents.get? i).map AstEntity.localName).getD ""

/-- All entity references found on the declarations of entity `i` (empty for
non-symbol entities, which have no declarations). -/
def GraphWorld.symbolReferences (w : GraphWorld) (i : Nat) : List EntityRef :=
  match w.entityKind i with
  | .astSymbol _ decls => DeclTree.allReferencesOfForest decls
  | _ => []

/-- The export table of a namespace-import entity (empty otherwise). -/
def GraphWorld.namespaceExports (w : GraphWorld) (i : Nat) : List Nat :=
  match w.entityKind i with
  | .astNamespaceImport exports => exports
  | _ => []

/-- Modelled from the spec: `CollectorEntity` itself is not among the given
sources (only `Collector.ts`, which consumes it, is), so its record and small
accessors are modelled from the specification: one node of the output graph,
wrapping exactly one entity and owning the set of export names under which it
is reachable from the entry module, the consumable-via-inheritance flag, the
emission name assigned by the name assigner, and the namespace imports that
proxy it. -/
structure CollectorEntity where
  astEntity : Nat
  exportNames : List String
  consumableViaInheritance : Bool
  nameForEmit : Option String
  astNamespaceImports : List Nat
deriving DecidableEq

/-- Modelled from the spec: a fresh `CollectorEntity` wrapping `astEntity`,
with no export names and no flags set. -/
def CollectorEntity.new (astEntity : Nat) : CollectorEntity :=
  ⟨astEntity, [], false, Option.none, []⟩

/-- Modelled from the spec: `addExportName` records one more export name
under which the entity is reachable (the underlying container is a set, so a
repeated name is not recorded twice). -/
def CollectorEntity.addExportName (e : CollectorEntity) (exportName : String) :
    CollectorEntity :=
  if exportName ∈ e.exportNames then e
  else { e with exportNames := e.exportNames ++ [exportName] }

/-- Modelled from the spec: an entity is `exported` when it has at least one
export name (otherwise it is a "forgotten export"). -/
def CollectorEntity.exported (e : CollectorEntity) : Bool :=
  !e.exportNames.isEmpty

/-- Modelled from the spec: the entity's export name when it is exported
exactly once, and `undefined` otherwise. -/
def CollectorEntity.singleExportName (e : CollectorEntity) : Option String :=
  match e.exportNames with
  | [x] => Option.some x
  | _ => Option.none

/-- Modelled from the spec: an entity is consumable when it is exported or
reachable via inheritance. -/
def CollectorEntity.consumable (e : CollectorEntity) : Bool :=
  e.exported || e.consumableViaInheritance

/-- Modelled from the spec: `addAstNamespaceImports` records a
namespace import that proxies this entity. -/
def CollectorEntity.addAstNamespaceImports (e : CollectorEntity) (nsImport : Nat) :
    CollectorEntity :=
  { e with astNamespaceImports := e.astNamespaceImports ++ [nsImport] }

/-- The collector's graph state: the `_entities` array.  The identity map
`_entitiesByAstEntity` is represented by lookup over the array; the source
inserts into both containers together, so they always agree. -/
structure CollectorState where
  entities : List CollectorEntity
deriving DecidableEq

/-- Lookup of `_entitiesByAstEntity.get(astEntity)`. -/
def findEntity (st : CollectorState) (astEntity : Nat) : Option CollectorEntity :=
  st.entities.find? (fun ce => ce.astEntity == astEntity)

/-- Applies an in-place mutation of the `CollectorEntity` associated with
`astEntity` (a no-op when none exists). -/
def updateEntity (st : CollectorState) (astEntity : Nat)
    (f : CollectorEntity → CollectorEntity) : CollectorState :=
  { entities := st.entities.map (fun ce => if ce.astEntity == astEntity then f ce else ce) }

/-- Embedding of `Collector._createCollectorEntity` (lines 417-441): fetch or
create the node for `astEntity`, then record the export name (the source
guards with JS truthiness on a `string | undefined`; export names are
non-empty, so the guard is `Option` presence here) and the
consumable-via-inheritance flag. -/
def createCollectorEntity (st : CollectorState) (astEntity : Nat)
    (exportedName : Option String) (consumableViaInheritance : Bool := false) :
    CollectorState :=
  let st :=
    if (findEntity st astEntity).isSome then st
    else { entities := st.entities ++ [CollectorEntity.new astEntity] }
  let st :=
    match exportedName with
    | Option.some nm => updateEntity st astEntity (fun ce => ce.addExportName nm)
    | Option.none => st
  if consumableViaInheritance then
    updateEntity st astEntity (fun ce => { ce with consumableViaInheritance := true })
  else st

/-- Errors with which the modelled `analyze` can abort: `outOfFuel` marks
exhaustion of the explicit recursion bound of the embedding (proved
unreachable below), `thrown msg` models a thrown JS error carrying the
message `msg` (`throw new Error()` of line 462 carries the empty message;
`InternalError` messages are kept verbatim). -/
inductive AnalyzeError where
  | outOfFuel
  | thrown (message : String)
deriving DecidableEq

/-- Body of the per-reference loop of `_createEntityForIndirectReferences`
for a symbol entity, parameterized by the recursive call `recur` (the
traversal one fuel step down). -/
def processReferences (w : GraphWorld)
    (recur : Nat → CollectorState → List Nat → Except AnalyzeError (CollectorState × List Nat))
    (astEntity : Nat) :
    List EntityRef → CollectorState → List Nat →
    Except AnalyzeError (CollectorState × List Nat)
  | [], st, seen => .ok (st, seen)
  | r :: rs, st, seen =>
    match findEntity st astEntity with
    | Option.none =>
      -- This should never happen.
      .error (.thrown "")
    | Option.some entity =>
      let consumableViaInheritance :=
        entity.consumable && r.kind == AstEntityReferenceKind.Inheritance
      let st :=
        match w.entityKind r.astEntity with
        | .astSymbol parentAstSymbol _ =>
          -- We only create collector entities for root-level symbols.
          if parentAstSymbol = Option.none then
            createCollectorEntity st r.astEntity Option.none consumableViaInheritance
          else st
        | _ => createCollectorEntity st r.astEntity Option.none consumableViaInheritance
      do
        let (st, seen) ← recur r.astEntity st seen
        processReferences w recur astEntity rs st seen

/-- Body of the namespace-import branch of
`_createEntityForIndirectReferences`: create a node for each top-level export
of the imported module, record the proxying namespace import, and recurse. -/
def processNamespaceExports (w : GraphWorld)
    (recur : Nat → CollectorState → List Nat → Except AnalyzeError (CollectorState × List Nat))
    (nsImportEntity : Nat) :
    List Nat → CollectorState → List Nat →
    Except AnalyzeError (CollectorState × List Nat)
  | [], st, seen => .ok (st, seen)
  | e :: rest, st, seen =>
    let st := createCollectorEntity st e Option.none
    let st := updateEntity st e (fun ce => ce.addAstNamespaceImports nsImportEntity)
    do
      let (st, seen) ← recur e st seen
      processNamespaceExports w recur nsImportEntity rest st seen

/-- Embedding of `Collector._createEntityForIndirectReferences`
(lines 443-494).  The memoized `alreadySeenAstEntities` set is a list; the
unbounded recursion of the source is driven by `fuel`, decremented once per
entity expansion (the driver passes enough fuel for any input, proved below).
For each reference of each declaration of a symbol entity, the referencing
entity's own node is looked up (aborting with the source's bare
`throw new Error()` when absent), the consumable-via-inheritance flag for the
target is derived, the target gets a node unless it is a nested symbol, and
the traversal recurses into the target.  A namespace-import entity instead
expands its module's export table. -/
def createEntityForIndirectReferences (w : GraphWorld) :
    Nat → Nat → CollectorState → List Nat →
    Except AnalyzeError (CollectorState × List Nat)
  | 0, _, _, _ => .error .outOfFuel
  | fuel + 1, astEntity, st, alreadySeenAstEntities =>
    if astEntity ∈ alreadySeenAstEntities then .ok (st, alreadySeenAstEntities)
    else
      let alreadySeenAstEntities := astEntity :: alreadySeenAstEntities
      match w.entityKind astEntity with
      | .astSymbol _ decls =>
        processReferences w (createEntityForIndirectReferences w fuel) astEntity
          (DeclTree.allReferencesOfForest decls) st alreadySeenAstEntities
      | .astNamespaceImport exports =>
        processNamespaceExports w (createEntityForIndirectReferences w fuel) astEntity
          exports st alreadySeenAstEntities
      | .astImport => .ok (st, alreadySeenAstEntities)

/-- The loop of `analyze` that runs `_createEntityForIndirectReferences` over
every exported entity, threading one shared visited set.  (The
`fetchSymbolMetadata` call of the same loop only touches the metadata state,
which is modelled separately above.) -/
def traverseExportedEntities (w : GraphWorld) (fuel : Nat) :
    List (String × Nat) → CollectorState → List Nat →
    Except AnalyzeError (CollectorState × List Nat)
  | [], st, seen => .ok (st, seen)
  | (_, astEntity) :: rest, st, seen => do
    let (st, seen) ← createEntityForIndirectReferences w fuel astEntity st seen
    traverseExportedEntities w fuel rest st seen

/-- The graph-building part of `Collector.analyze`: create a `CollectorEntity`
for each top-level export, then one for each indirectly referenced export.
Each top-level traversal gets fuel `numEntities + 1`, which is enough (see
`buildGraphState_not_outOfFuel`). -/
def buildGraphState (w : GraphWorld) :
    Except AnalyzeError (CollectorState × List Nat) :=
  let st := w.exportedLocalEntities.foldl
    (fun st p => createCollectorEntity st p.2 (Option.some p.1)) ⟨[]⟩
  traverseExportedEntities w (w.numEntities + 1) w.exportedLocalEntities st []

end ApiExtractor

namespace ApiExtractor

/-- Embedding of the first pass of `Collector._makeUniqueNames`
(lines 521-530): collect the export names of all entities into the used-name
set, aborting with the source's `InternalError` when a package has two
exports with the same name.  `usedNames` is kept as a list in insertion
order; the source container is a set, and the duplicate check keeps the list
duplicate-free. -/
def addExportNamesToUsed : List String → List String → Except AnalyzeError (List String)
  | [], usedNames => .ok usedNames
  | exportName :: rest, usedNames =>
    if exportName ∈ usedNames then
      -- This should be impossible
      .error (.thrown ("A package cannot have two exports with the name \"" ++ exportName ++ "\""))
    else addExportNamesToUsed rest (usedNames ++ [exportName])

/-- Folds `addExportNamesToUsed` over all entities (the outer loop of the
first pass of `_makeUniqueNames`). -/
def collectUsedNames : List CollectorEntity → List String → Except AnalyzeError (List String)
  | [], usedNames => .ok usedNames
  | entity :: rest, usedNames => do
    let usedNames ← addExportNamesToUsed entity.exportNames usedNames
    collectUsedNames rest usedNames

/-- Embedding of the suffix-generation `while` loop of `_makeUniqueNames`
(lines 566-576): starting from the ideal name (counter 1), try
`ideal`, `ideal_2`, `ideal_3`, ... until the candidate is neither the literal
`default`, nor already used, nor a reserved global name.  The loop of the
source is unbounded; here it carries fuel (the caller passes more fuel than
there are used and global names, so a fresh candidate is always reached). -/
def chooseNameForEmit (usedNames globalNames : List String) (idealNameForEmit : String) :
    Nat → Nat → Option String
  | 0, _ => Option.none
  | fuel + 1, counter =>
    let nameForEmit :=
      if counter ≤ 1 then idealNameForEmit
      else idealNameForEmit ++ "_" ++ String.mk (Nat.toDigits 10 counter)
    if nameForEmit == "default" || usedNames.contains nameForEmit ||
        globalNames.contains nameForEmit then
      chooseNameForEmit usedNames globalNames idealNameForEmit fuel (counter + 1)
    else Option.some nameForEmit

/-- The ideal emission name of an entity (lines 534-551): the single export
name when the entity is exported exactly once under a name other than the
default sentinel, otherwise the entity's local name; a qualified name is
truncated to its outermost component. -/
def idealNameForEmitOf (w : GraphWorld) (entity : CollectorEntity) : String :=
  let idealNameForEmit :=
    match entity.singleExportName with
    | Option.some nm => if nm = "default" then w.localName entity.astEntity else nm
    | Option.none => w.localName entity.astEntity
  if idealNameForEmit.data.contains '.' then
    -- split('.')[0]: the prefix before the first dot
    String.mk (idealNameForEmit.data.takeWhile (fun c => c ≠ '.'))
  else idealNameForEmit

/-- Embedding of the second pass of `_makeUniqueNames` (lines 532-579):
assign each entity its `nameForEmit`.  The ideal name is accepted as-is when
it is one of the entity's own export names, does not collide with a global
name, and is not the literal `default`; otherwise a unique suffixed name is
generated and recorded in the used set. -/
def assignNamesForEmit (w : GraphWorld) :
    List CollectorEntity → List String →
    Except AnalyzeError (List CollectorEntity × List String)
  | [], usedNames => .ok ([], usedNames)
  | entity :: rest, usedNames =>
    let idealNameForEmit := idealNameForEmitOf w entity
    if entity.exportNames.contains idealNameForEmit &&
        !w.globalNames.contains idealNameForEmit &&
        idealNameForEmit != "default" then do
      let (restOut, usedNames) ← assignNamesForEmit w rest usedNames
      .ok ({ entity with nameForEmit := Option.some idealNameForEmit } :: restOut, usedNames)
    else
      match chooseNameForEmit usedNames w.globalNames idealNameForEmit
          (usedNames.length + w.globalNames.length + 2) 1 with
      | Option.none => .error .outOfFuel
      | Option.some nameForEmit => do
        let (restOut, usedNames) ←
          assignNamesForEmit w rest (usedNames ++ [nameForEmit])
        .ok ({ entity with nameForEmit := Option.some nameForEmit } :: restOut, usedNames)

/-- Embedding of `Collector._makeUniqueNames`. -/
def makeUniqueNames (w : GraphWorld) (st : CollectorState) :
    Except AnalyzeError CollectorState := do
  let usedNames ← collectUsedNames st.entities []
  let (entities, _) ← assignNamesForEmit w st.entities usedNames
  .ok ⟨entities⟩

/-- ASCII lower-casing of one character (the identifiers the collector sorts
are ASCII identifiers; `toLowerCase` of the source is restricted to them). -/
def charToLower (c : Char) : Char :=
  if c.isUpper then Char.ofNat (c.toNat + 32) else c

/-- ASCII lower-casing of a string, character by character. -/
def toLowerAscii (s : String) : String := String.mk (s.data.map charToLower)

/-- Embedding of `Collector.getSortKeyIgnoringUnderscore` (lines 368-381):
an empty or missing identifier gives the empty key; a leading underscore is
stripped and sorted as if absent while still being distinguishable. -/
def getSortKeyIgnoringUnderscore (identifier : String) : String :=
  match identifier.data with
  | [] => ""
  | c :: rest =>
    if c = '_' then
      let withoutUnderscore := String.mk rest
      toLowerAscii withoutUnderscore ++ "*" ++ withoutUnderscore ++ "*" ++ "_"
    else
      toLowerAscii identifier ++ "*" ++ identifier

/-- Modelled from the spec: `CollectorEntity.getSortKey` is not among the
given sources; per the spec the canonical order of `entities()` is by the
underscore-normalizing case-insensitive-then-case-sensitive key of the name
the entity is emitted under (its emission name once assigned, its local name
otherwise). -/
def CollectorEntity.getSortKey (w : GraphWorld) (e : CollectorEntity) : String :=
  getSortKeyIgnoringUnderscore (e.nameForEmit.getD (w.localName e.astEntity))

/-- Lexicographic comparison of character lists by code point, a total order
on the sort-key strings. -/
def charListLe : List Char → List Char → Bool
  | [], _ => true
  | _ :: _, [] => false
  | a :: as, b :: bs =>
    if a.toNat < b.toNat then true
    else if b.toNat < a.toNat then false
    else charListLe as bs

/-- Sort-key order on collector entities. -/
def sortKeyLe (w : GraphWorld) (a b : CollectorEntity) : Prop :=
  charListLe (CollectorEntity.getSortKey w a).data (CollectorEntity.getSortKey w b).data = true

instance (w : GraphWorld) : DecidableRel (sortKeyLe w) := fun a b =>
  instDecidableEqBool _ true

/-- The final `Sort.sortBy(this._entities, (x) => x.getSortKey())` of
`analyze`: sort the entity array by sort key. -/
def sortEntities (w : GraphWorld) (entities : List CollectorEntity) :
    List CollectorEntity :=
  entities.insertionSort (sortKeyLe w)

/-- Embedding of the graph/naming part of `Collector.analyze` (lines 249-286):
create a `CollectorEntity` for each top-level export, then for each
indirectly referenced export, then make names unique, then sort the entity
array into its canonical order. -/
def analyze (w : GraphWorld) : Except AnalyzeError CollectorState := do
  let (st, _) ← buildGraphState w
  let st ← makeUniqueNames w st
  .ok ⟨sortEntities w st.entities⟩

/-- Executable well-formedness of a front-end world: every entity id that the
input mentions (entry exports, reference targets, namespace export tables)
lies inside the entity universe. -/
def GraphWorld.checkWf (w : GraphWorld) : Bool :=
  w.exportedLocalEntities.all (fun p => p.2 < w.numEntities) &&
  (List.range w.numEntities).all (fun i =>
    (w.symbolReferences i).all (fun r => r.astEntity < w.numEntities) &&
    (w.namespaceExports i).all (fun e => e < w.numEntities))

/-- Well-formedness of a front-end world. -/
def GraphWorld.Wf (w : GraphWorld) : Prop := w.checkWf = true

/-- Executable check that every symbol entity of the world is root-level
(`parentAstSymbol` undefined). -/
def GraphWorld.checkAllRootSymbols (w : GraphWorld) : Bool :=
  w.ents.all (fun ge =>
    match ge.kind with
    | .astSymbol parentAstSymbol _ => parentAstSymbol.isNone
    | _ => true)

/-- Every symbol entity of the world is root-level. -/
def GraphWorld.AllRootSymbols (w : GraphWorld) : Prop := w.checkAllRootSymbols = true

/-- The entities reachable from the entry module's exports through chains of
entity references (of either kind). -/
inductive Reachable (w : GraphWorld) : Nat → Prop where
  | exported {exportName : String} {astEntity : Nat}
      (h : (exportName, astEntity) ∈ w.exportedLocalEntities) : Reachable w astEntity
  | ref {astEntity : Nat} {r : EntityRef}
      (hsrc : Reachable w astEntity) (hr : r ∈ w.symbolReferences astEntity) :
      Reachable w r.astEntity

end ApiExtractor

namespace ApiExtractor

/-- Declaration tree as seen by the model builder
(`ApiModelGenerator._processDeclaration`): each node carries its syntax kind,
whether its modifier flags include `private`, the effective release tag that
`collector.fetchApiItemMetadata` returns for it (the metadata computation is
modelled separately above; the generator only reads the stored value), an
identifying id, and its child declarations. -/
inductive GenDecl where
  | node (kind : DeclKind) (isPrivateModifier : Bool) (effectiveReleaseTag : ReleaseTag)
      (declId : Nat) (children : List GenDecl)

/-- Kind dispatched by the `_processDeclaration` switch whose handler calls
`_processChildDeclarations` (classes, enums, interfaces and namespaces
process their member declarations; the other handled kinds are leaves). -/
def DeclKind.processesChildren : DeclKind → Bool
  | .classDecl => true
  | .enumDecl => true
  | .interfaceDecl => true
  | .moduleDecl => true
  | _ => false

/-- Kind handled by some `case` of the `_processDeclaration` switch (the
`default` branch ignores the declaration). -/
def DeclKind.isHandledByGenerator : DeclKind → Bool
  | .otherKind => false
  | _ => true

mutual
/-- Embedding of `ApiModelGenerator._processDeclaration` (lines 157-255):
returns the `declId`s of the API items added for this declaration and its
descendants.  A declaration with the `private` modifier is trimmed out, as is
one whose effective release tag is `@internal` or `@alpha` - in both cases
together with its whole subtree, since children are only processed from
within their parent's handler. -/
def processDeclaration : GenDecl → List Nat
  | .node kind isPrivateModifier effectiveReleaseTag declId children =>
    if isPrivateModifier then [] -- trim out private declarations
    else if effectiveReleaseTag = ReleaseTag.Internal ||
        effectiveReleaseTag = ReleaseTag.Alpha then
      [] -- trim out items marked as internal or alpha
    else if kind.processesChildren then
      declId :: processChildDeclarations children
    else if kind.isHandledByGenerator then [declId]
    else [] -- ignore unknown types
/-- Embedding of `ApiModelGenerator._processChildDeclarations`. -/
def processChildDeclarations : List GenDecl → List Nat
  | [] => []
  | d :: ds => processDeclaration d ++ processChildDeclarations ds
end

/-- A top-level `CollectorEntity` as the model builder sees it: its export
names and the non-ancillary declarations of its entity
(`getNonAncillaryDeclarations`). -/
structure GenEntity where
  exportNames : List String
  declarations : List GenDecl

/-- Modelled from the spec: `entity.exported` (the `CollectorEntity` source
is not among the given files) - an entity is exported when it has at least
one export name. -/
def GenEntity.exported (e : GenEntity) : Bool := !e.exportNames.isEmpty

/-- The input of `ApiModelGenerator.buildApiPackage`: the collector's sorted
entity sequence and the `includeForgottenExports` configuration option. -/
structure GenWorld where
  entities : List GenEntity
  includeForgottenExports : Bool

/-- The top-level entities that `buildApiPackage` processes (lines 81-86):
an entity is processed when it is exported or when `includeForgottenExports`
is enabled. -/
def processedEntities (w : GenWorld) : List GenEntity :=
  w.entities.filter (fun entity => entity.exported || w.includeForgottenExports)

/-- Embedding of `ApiModelGenerator.buildApiPackage` restricted to
symbol-backed entities: process each non-ancillary declaration of each
processed top-level entity, collecting the ids of the added API items. -/
def buildApiPackage (w : GenWorld) : List Nat :=
  (processedEntities w).flatMap (fun entity => processChildDeclarations entity.declarations)

mutual
/-- Subtree node list of a generator declaration (the node and its
descendants, preorder). -/
def GenDecl.subtree : GenDecl → List GenDecl
  | .node kind isPrivateModifier effectiveReleaseTag declId children =>
    .node kind isPrivateModifier effectiveReleaseTag declId children ::
      GenDecl.subtreeOfForest children
/-- List version of `GenDecl.subtree`. -/
def GenDecl.subtreeOfForest : List GenDecl → List GenDecl
  | [] => []
  | d :: ds => d.subtree ++ GenDecl.subtreeOfForest ds
end

/-- Id carried by a generator declaration node. -/
def GenDecl.declId : GenDecl → Nat
  | .node _ _ _ declId _ => declId

/-- Whether `_processDeclaration` trims this node out (private modifier, or
effective release tag internal/alpha). -/
def GenDecl.isTrimmed : GenDecl → Bool
  | .node _ isPrivateModifier effectiveReleaseTag _ _ =>
    isPrivateModifier || effectiveReleaseTag = ReleaseTag.Internal ||
      effectiveReleaseTag = ReleaseTag.Alpha

end ApiExtractor

namespace ApiExtractor

/-- Ordering on collector entities capturing that the graph build only ever
grows an entity's data: the wrapped entity is fixed, and the exported and
consumable-via-inheritance flags can only go from false to true. -/
def EntityLe (a b : CollectorEntity) : Prop :=
  a.astEntity = b.astEntity ∧
  (a.exported = true → b.exported = true) ∧
  (a.consumableViaInheritance = true → b.consumableViaInheritance = true)

theorem entityLe_refl (a : CollectorEntity) : EntityLe a a :=
  ⟨rfl, id, id⟩

theorem entityLe_trans {a b c : CollectorEntity} (h1 : EntityLe a b) (h2 : EntityLe b c) :
    EntityLe a c :=
  ⟨h1.1.trans h2.1, fun h => h2.2.1 (h1.2.1 h), fun h => h2.2.2 (h1.2.2 h)⟩

/-- State evolution: every installed entity stays installed and only grows. -/
def StateLe (st st' : CollectorState) : Prop :=
  ∀ x ce, findEntity st x = Option.some ce →
    ∃ ce', findEntity st' x = Option.some ce' ∧ EntityLe ce ce'

theorem stateLe_refl (st : CollectorState) : StateLe st st :=
  fun _ ce h => ⟨ce, h, entityLe_refl ce⟩

theorem stateLe_trans {s1 s2 s3 : CollectorState} (h1 : StateLe s1 s2) (h2 : StateLe s2 s3) :
    StateLe s1 s3 := by
  intro x ce h
  obtain ⟨ce2, h2', hle⟩ := h1 x ce h
  obtain ⟨ce3, h3', hle'⟩ := h2 x ce2 h2'
  exact ⟨ce3, h3', entityLe_trans hle hle'⟩

/-- The keys (wrapped entity ids) of the entity array. -/
def entityKeys (st : CollectorState) : List Nat :=
  st.entities.map CollectorEntity.astEntity

/-- The entity array never holds two nodes for the same entity. -/
def NodupKeys (st : CollectorState) : Prop := (entityKeys st).Nodup

theorem findEntity_eq_none_iff {st : CollectorState} {x : Nat} :
    findEntity st x = Option.none ↔ ∀ ce ∈ st.entities, ce.astEntity ≠ x := by
  simp [findEntity, List.find?_eq_none]

theorem findEntity_isSome_iff {st : CollectorState} {x : Nat} :
    (findEntity st x).isSome = true ↔ ∃ ce ∈ st.entities, ce.astEntity = x := by
  rw [Option.isSome_iff_exists]
  constructor
  · rintro ⟨ce, h⟩
    have hmem := List.mem_of_find?_eq_some h
    have hkey := List.find?_some h
    exact ⟨ce, hmem, by simpa using hkey⟩
  · rintro ⟨ce, hmem, hkey⟩
    rcases h : findEntity st x with _ | ce'
    · exact absurd hkey (findEntity_eq_none_iff.mp h ce hmem)
    · exact ⟨ce', rfl⟩

theorem findEntity_mem {st : CollectorState} {x : Nat} {ce : CollectorEntity}
    (h : findEntity st x = Option.some ce) : ce ∈ st.entities :=
  List.mem_of_find?_eq_some h

theorem findEntity_key {st : CollectorState} {x : Nat} {ce : CollectorEntity}
    (h : findEntity st x = Option.some ce) : ce.astEntity = x := by
  have := List.find?_some h
  simpa using this

/-- Membership with the right key makes lookup succeed (not necessarily with
that very element). -/
theorem findEntity_isSome_of_mem {st : CollectorState} {ce : CollectorEntity}
    (hmem : ce ∈ st.entities) : (findEntity st ce.astEntity).isSome = true :=
  findEntity_isSome_iff.mpr ⟨ce, hmem, rfl⟩

end ApiExtractor

namespace ApiExtractor

theorem findEntity_updateEntity {st : CollectorState} {x y : Nat}
    {f : CollectorEntity → CollectorEntity} (hf : ∀ ce, (f ce).astEntity = ce.astEntity) :
    findEntity (updateEntity st x f) y =
      (findEntity st y).map (fun ce => if ce.astEntity == x then f ce else ce) := by
  unfold findEntity updateEntity
  rw [List.find?_map]
  have hcomp : ((fun ce : CollectorEntity => ce.astEntity == y) ∘
      (fun ce => if ce.astEntity == x then f ce else ce)) =
      (fun ce : CollectorEntity => ce.astEntity == y) := by
    funext ce
    by_cases h : (ce.astEntity == x) = true
    · simp only [Function.comp, h, if_true, hf]
    · simp only [Function.comp, h, if_false, Bool.false_eq_true]
  rw [hcomp]

theorem entityKeys_updateEntity {st : CollectorState} {x : Nat}
    {f : CollectorEntity → CollectorEntity} (hf : ∀ ce, (f ce).astEntity = ce.astEntity) :
    entityKeys (updateEntity st x f) = entityKeys st := by
  unfold entityKeys updateEntity
  rw [List.map_map]
  have hcomp : (CollectorEntity.astEntity ∘ (fun ce => if ce.astEntity == x then f ce else ce)) =
      CollectorEntity.astEntity := by
    funext ce
    by_cases h : (ce.astEntity == x) = true
    · simp only [Function.comp, h, if_true, hf]
    · simp only [Function.comp, h, if_false, Bool.false_eq_true]
  rw [hcomp]

theorem addExportName_astEntity (ce : CollectorEntity) (nm : String) :
    (ce.addExportName nm).astEntity = ce.astEntity := by
  unfold CollectorEntity.addExportName
  split <;> rfl

theorem addExportName_entityLe (ce : CollectorEntity) (nm : String) :
    EntityLe ce (ce.addExportName nm) := by
  unfold CollectorEntity.addExportName
  split
  · exact entityLe_refl ce
  · refine ⟨rfl, ?_, id⟩
    intro h
    simp only [CollectorEntity.exported, Bool.not_eq_true', List.isEmpty_eq_false] at h ⊢
    simp [h]

theorem addExportName_exported (ce : CollectorEntity) (nm : String) :
    (ce.addExportName nm).exported = true := by
  unfold CollectorEntity.addExportName CollectorEntity.exported
  split
  · rename_i h
    rcases hl : ce.exportNames with _ | ⟨a, l⟩
    · rw [hl] at h; simp at h
    · simp [hl]
  · simp

theorem setCvi_entityLe (ce : CollectorEntity) :
    EntityLe ce { ce with consumableViaInheritance := true } :=
  ⟨rfl, fun h => h, fun _ => rfl⟩

theorem addAstNamespaceImports_entityLe (ce : CollectorEntity) (ns : Nat) :
    EntityLe ce (ce.addAstNamespaceImports ns) :=
  ⟨rfl, fun h => h, fun h => h⟩

theorem updateEntity_stateLe {st : CollectorState} {x : Nat}
    {f : CollectorEntity → CollectorEntity} (hf : ∀ ce, (f ce).astEntity = ce.astEntity)
    (hle : ∀ ce, EntityLe ce (f ce)) : StateLe st (updateEntity st x f) := by
  intro y ce h
  rw [findEntity_updateEntity hf, h]
  refine ⟨if ce.astEntity == x then f ce else ce, rfl, ?_⟩
  by_cases hx : (ce.astEntity == x) = true
  · rw [if_pos hx]; exact hle ce
  · rw [if_neg hx]; exact entityLe_refl ce

theorem findEntity_append_new {st : CollectorState} {x y : Nat}
    (hnone : findEntity st x = Option.none) :
    findEntity ⟨st.entities ++ [CollectorEntity.new x]⟩ y =
      if y = x then Option.some (CollectorEntity.new x) else findEntity st y := by
  unfold findEntity at *
  rw [List.find?_append]
  by_cases hyx : y = x
  · subst hyx
    rw [hnone]
    simp [CollectorEntity.new]
  · rcases h : st.entities.find? (fun ce => ce.astEntity == y) with _ | ce
    · simp [CollectorEntity.new, Ne.symm hyx, hyx]
    · simp [hyx, h]

theorem ensureEntity_stateLe (st : CollectorState) (x : Nat) :
    StateLe st (if (findEntity st x).isSome then st
                else { entities := st.entities ++ [CollectorEntity.new x] }) := by
  split
  · exact stateLe_refl st
  · rename_i hnone
    rw [Option.not_isSome_iff_eq_none] at hnone
    intro y ce h
    refine ⟨ce, ?_, entityLe_refl ce⟩
    rw [findEntity_append_new hnone]
    have hyx : y ≠ x := by
      intro hyx; subst hyx; rw [h] at hnone; cases hnone
    simp [hyx, h]

theorem ensureEntity_isSome (st : CollectorState) (x : Nat) :
    (findEntity (if (findEntity st x).isSome then st
                 else { entities := st.entities ++ [CollectorEntity.new x] }) x).isSome = true := by
  split
  · rename_i h; exact h
  · rename_i hnone
    rw [Option.not_isSome_iff_eq_none] at hnone
    rw [findEntity_append_new hnone]
    simp

theorem exportStep_stateLe (st : CollectorState) (x : Nat) (nm : Option String) :
    StateLe st (match nm with
      | Option.some nm => updateEntity st x (fun ce => ce.addExportName nm)
      | Option.none => st) := by
  rcases nm with _ | nm
  · exact stateLe_refl st
  · exact updateEntity_stateLe (fun ce => addExportName_astEntity ce nm)
      (fun ce => addExportName_entityLe ce nm)

theorem cviStep_stateLe (st : CollectorState) (x : Nat) (cvi : Bool) :
    StateLe st (if cvi then
      updateEntity st x (fun ce => { ce with consumableViaInheritance := true }) else st) := by
  split
  · exact updateEntity_stateLe (fun ce => rfl) setCvi_entityLe
  · exact stateLe_refl st

theorem StateLe.isSome_mono {st st' : CollectorState} (h : StateLe st st') {x : Nat}
    (hx : (findEntity st x).isSome = true) : (findEntity st' x).isSome = true := by
  rcases hsome : findEntity st x with _ | ce
  · rw [hsome] at hx; cases hx
  · obtain ⟨ce', hce', _⟩ := h x ce hsome
    rw [hce']; rfl

theorem createCollectorEntity_eq (st : CollectorState) (x : Nat) (nm : Option String)
    (cvi : Bool) :
    createCollectorEntity st x nm cvi =
      (let st1 := if (findEntity st x).isSome then st
        else { entities := st.entities ++ [CollectorEntity.new x] }
      let st2 := match nm with
        | Option.some nm => updateEntity st1 x (fun ce => ce.addExportName nm)
        | Option.none => st1
      if cvi then updateEntity st2 x (fun ce => { ce with consumableViaInheritance := true })
      else st2) := rfl

theorem createCollectorEntity_stateLe (st : CollectorState) (x : Nat)
    (nm : Option String) (cvi : Bool) : StateLe st (createCollectorEntity st x nm cvi) := by
  rw [createCollectorEntity_eq]
  exact stateLe_trans (ensureEntity_stateLe st x)
    (stateLe_trans (exportStep_stateLe _ x nm) (cviStep_stateLe _ x cvi))

theorem createCollectorEntity_isSome (st : CollectorState) (x : Nat)
    (nm : Option String) (cvi : Bool) :
    (findEntity (createCollectorEntity st x nm cvi) x).isSome = true := by
  rw [createCollectorEntity_eq]
  exact StateLe.isSome_mono
    (stateLe_trans (exportStep_stateLe _ x nm) (cviStep_stateLe _ x cvi))
    (ensureEntity_isSome st x)

end ApiExtractor

namespace ApiExtractor

theorem notMem_entityKeys_of_findEntity_none {st : CollectorState} {x : Nat}
    (h : findEntity st x = Option.none) : x ∉ entityKeys st := by
  intro hmem
  obtain ⟨ce, hce, hkey⟩ := List.mem_map.mp hmem
  exact absurd hkey (findEntity_eq_none_iff.mp h ce hce)

theorem entityKeys_createCollectorEntity (st : CollectorState) (x : Nat)
    (nm : Option String) (cvi : Bool) :
    entityKeys (createCollectorEntity st x nm cvi) =
      if (findEntity st x).isSome then entityKeys st else entityKeys st ++ [x] := by
  rw [createCollectorEntity_eq]
  have h2 : ∀ st2 : CollectorState,
      entityKeys (match nm with
        | Option.some nm => updateEntity st2 x (fun ce => ce.addExportName nm)
        | Option.none => st2) = entityKeys st2 := by
    intro st2
    rcases nm with _ | nm
    · rfl
    · exact entityKeys_updateEntity (fun ce => addExportName_astEntity ce nm)
  have h3 : ∀ st3 : CollectorState,
      entityKeys (if cvi then
        updateEntity st3 x (fun ce => { ce with consumableViaInheritance := true })
        else st3) = entityKeys st3 := by
    intro st3
    split
    · exact entityKeys_updateEntity (fun ce => rfl)
    · rfl
  rw [h3, h2]
  split
  · rfl
  · simp [entityKeys, CollectorEntity.new]

theorem nodupKeys_createCollectorEntity {st : CollectorState} (x : Nat)
    (nm : Option String) (cvi : Bool) (h : NodupKeys st) :
    NodupKeys (createCollectorEntity st x nm cvi) := by
  unfold NodupKeys
  rw [entityKeys_createCollectorEntity]
  split
  · exact h
  · rename_i hnone
    rw [Option.not_isSome_iff_eq_none] at hnone
    simpa using List.Nodup.append h (List.nodup_singleton x)
      (by simpa [List.disjoint_singleton] using notMem_entityKeys_of_findEntity_none hnone)

/-- Setting the consumable-via-inheritance flag on a present entity indeed
sets it. -/
theorem cviUpdate_cvi {st2 : CollectorState} {x : Nat}
    (hsome : (findEntity st2 x).isSome = true) :
    ∃ ce, findEntity (updateEntity st2 x
        (fun ce => { ce with consumableViaInheritance := true })) x = Option.some ce ∧
      ce.consumableViaInheritance = true := by
  rcases h2 : findEntity st2 x with _ | ce2
  · rw [h2] at hsome; cases hsome
  · have hkey := findEntity_key h2
    rw [@findEntity_updateEntity st2 x x
      (fun ce => { ce with consumableViaInheritance := true }) (fun ce => rfl), h2]
    refine ⟨_, rfl, ?_⟩
    simp [hkey]

/-- After `_createCollectorEntity` with the consumable-via-inheritance flag
set, the target's node has the flag set. -/
theorem createCollectorEntity_cvi (st : CollectorState) (x : Nat) (nm : Option String) :
    ∃ ce, findEntity (createCollectorEntity st x nm true) x = Option.some ce ∧
      ce.consumableViaInheritance = true := by
  rw [createCollectorEntity_eq]
  simp only []
  rw [if_pos trivial]
  exact cviUpdate_cvi (StateLe.isSome_mono (exportStep_stateLe _ x nm) (ensureEntity_isSome st x))

/-- After `_createCollectorEntity` with an export name, the target's node is
exported. -/
theorem createCollectorEntity_exported (st : CollectorState) (x : Nat) (n : String)
    (cvi : Bool) :
    ∃ ce, findEntity (createCollectorEntity st x (Option.some n) cvi) x = Option.some ce ∧
      ce.exported = true := by
  rw [createCollectorEntity_eq]
  simp only []
  have hsome1 := ensureEntity_isSome st x
  rcases h1 : findEntity (if (findEntity st x).isSome then st
      else { entities := st.entities ++ [CollectorEntity.new x] }) x with _ | ce1
  · rw [h1] at hsome1; cases hsome1
  · have hkey := findEntity_key h1
    have h2 : findEntity (updateEntity
        (if (findEntity st x).isSome then st
         else { entities := st.entities ++ [CollectorEntity.new x] }) x
        (fun ce => ce.addExportName n)) x = Option.some (ce1.addExportName n) := by
      rw [findEntity_updateEntity (fun ce => addExportName_astEntity ce n), h1]
      simp [hkey]
    obtain ⟨ce3, hce3, hle⟩ := cviStep_stateLe _ x cvi x (ce1.addExportName n) h2
    exact ⟨ce3, hce3, hle.2.1 (addExportName_exported ce1 n)⟩

/-- An entity id is among the entry module's exports. -/
def ExportedEnt (w : GraphWorld) (x : Nat) : Prop :=
  ∃ nm, (nm, x) ∈ w.exportedLocalEntities

/-- Invariant established by the first loop of `analyze`: every entry export
already has a node, and that node is exported. -/
def ExpInv (w : GraphWorld) (st : CollectorState) : Prop :=
  ∀ x, ExportedEnt w x →
    ∃ ce, findEntity st x = Option.some ce ∧ ce.exported = true

theorem expInv_mono {w : GraphWorld} {st st' : CollectorState} (h : ExpInv w st)
    (hle : StateLe st st') : ExpInv w st' := by
  intro x hx
  obtain ⟨ce, hce, hexp⟩ := h x hx
  obtain ⟨ce', hce', hle'⟩ := hle x ce hce
  exact ⟨ce', hce', hle'.2.1 hexp⟩

/-- The first loop of `analyze` (`_createCollectorEntity` per entry export). -/
def registerExports (exps : List (String × Nat)) (st : CollectorState) : CollectorState :=
  exps.foldl (fun st p => createCollectorEntity st p.2 (Option.some p.1)) st

theorem registerExports_stateLe (exps : List (String × Nat)) (st : CollectorState) :
    StateLe st (registerExports exps st) := by
  induction exps generalizing st with
  | nil => exact stateLe_refl st
  | cons p rest ih =>
    exact stateLe_trans (createCollectorEntity_stateLe st p.2 (Option.some p.1) false)
      (ih (createCollectorEntity st p.2 (Option.some p.1)))

theorem registerExports_nodupKeys {exps : List (String × Nat)} {st : CollectorState}
    (h : NodupKeys st) : NodupKeys (registerExports exps st) := by
  induction exps generalizing st with
  | nil => exact h
  | cons p rest ih =>
    exact ih (nodupKeys_createCollectorEntity p.2 (Option.some p.1) false h)

theorem registerExports_exported {exps : List (String × Nat)} {st : CollectorState} :
    ∀ p ∈ exps, ∃ ce,
      findEntity (registerExports exps st) p.2 = Option.some ce ∧ ce.exported = true := by
  induction exps generalizing st with
  | nil => intro p hp; cases hp
  | cons q rest ih =>
    intro p hp
    rcases List.mem_cons.mp hp with hq | hrest
    · subst hq
      obtain ⟨ce, hce, hexp⟩ := createCollectorEntity_exported st p.2 p.1 false
      obtain ⟨ce', hce', hle⟩ :=
        registerExports_stateLe rest (createCollectorEntity st p.2 (Option.some p.1)) p.2 ce hce
      exact ⟨ce', hce', hle.2.1 hexp⟩
    · exact ih p hrest

theorem registerExports_expInv (w : GraphWorld) :
    ExpInv w (registerExports w.exportedLocalEntities ⟨[]⟩) := by
  intro x hx
  obtain ⟨nm, hmem⟩ := hx
  exact registerExports_exported (nm, x) hmem

end ApiExtractor

namespace ApiExtractor

theorem wf_export_lt {w : GraphWorld} (hwf : w.Wf) {nm : String} {x : Nat}
    (h : (nm, x) ∈ w.exportedLocalEntities) : x < w.numEntities := by
  unfold GraphWorld.Wf GraphWorld.checkWf at hwf
  rw [Bool.and_eq_true, List.all_eq_true] at hwf
  have := hwf.1 (nm, x) h
  simpa using this

theorem symbolReferences_of_ge {w : GraphWorld} {i : Nat} (h : w.numEntities ≤ i) :
    w.symbolReferences i = [] := by
  unfold GraphWorld.symbolReferences GraphWorld.entityKind
  have : w.ents.get? i = Option.none := by
    rw [List.get?_eq_none]
    exact h
  rw [this]
  rfl

theorem namespaceExports_of_ge {w : GraphWorld} {i : Nat} (h : w.numEntities ≤ i) :
    w.namespaceExports i = [] := by
  unfold GraphWorld.namespaceExports GraphWorld.entityKind
  have : w.ents.get? i = Option.none := by
    rw [List.get?_eq_none]
    exact h
  rw [this]
  rfl

theorem wf_ref_lt {w : GraphWorld} (hwf : w.Wf) {i : Nat} {r : EntityRef}
    (h : r ∈ w.symbolReferences i) : r.astEntity < w.numEntities := by
  by_cases hi : i < w.numEntities
  · unfold GraphWorld.Wf GraphWorld.checkWf at hwf
    rw [Bool.and_eq_true, List.all_eq_true] at hwf
    have h2all := hwf.2
    rw [List.all_eq_true] at h2all
    have h2 := h2all i (List.mem_range.mpr hi)
    rw [Bool.and_eq_true] at h2
    have h2a := h2.1
    rw [List.all_eq_true] at h2a
    have := h2a r h
    simpa using this
  · rw [symbolReferences_of_ge (Nat.le_of_not_lt hi)] at h
    cases h

theorem wf_nsExport_lt {w : GraphWorld} (hwf : w.Wf) {i : Nat} {e : Nat}
    (h : e ∈ w.namespaceExports i) : e < w.numEntities := by
  by_cases hi : i < w.numEntities
  · unfold GraphWorld.Wf GraphWorld.checkWf at hwf
    rw [Bool.and_eq_true, List.all_eq_true] at hwf
    have h2all := hwf.2
    rw [List.all_eq_true] at h2all
    have h2 := h2all i (List.mem_range.mpr hi)
    rw [Bool.and_eq_true] at h2
    have h2b := h2.2
    rw [List.all_eq_true] at h2b
    have := h2b e h
    simpa using this
  · rw [namespaceExports_of_ge (Nat.le_of_not_lt hi)] at h
    cases h

/-- The visited set only grows by pushing newly expanded entities on top. -/
def SeenExt (seen seen' : List Nat) : Prop := ∃ l, seen' = l ++ seen

theorem seenExt_refl (seen : List Nat) : SeenExt seen seen := ⟨[], rfl⟩

theorem seenExt_trans {s1 s2 s3 : List Nat} (h1 : SeenExt s1 s2) (h2 : SeenExt s2 s3) :
    SeenExt s1 s3 := by
  obtain ⟨l1, rfl⟩ := h1
  obtain ⟨l2, rfl⟩ := h2
  exact ⟨l2 ++ l1, by simp⟩

theorem SeenExt.subset {s1 s2 : List Nat} (h : SeenExt s1 s2) : s1 ⊆ s2 := by
  obtain ⟨l, rfl⟩ := h
  exact List.subset_append_right l s1

theorem seenExt_length_le {s1 s2 : List Nat} (h : SeenExt s1 s2) : s1.length ≤ s2.length := by
  obtain ⟨l, rfl⟩ := h
  simp

theorem seenExt_cons (x : Nat) (s : List Nat) : SeenExt s (x :: s) := ⟨[x], rfl⟩

/-- Visited-set sanity: no duplicates, and every member inside the entity
universe. -/
def SeenOk (w : GraphWorld) (seen : List Nat) : Prop :=
  seen.Nodup ∧ ∀ x ∈ seen, x < w.numEntities

theorem SeenOk.nil (w : GraphWorld) : SeenOk w [] := ⟨List.nodup_nil, by intro x h; cases h⟩

theorem seenOk_cons {w : GraphWorld} {seen : List Nat} {x : Nat} (h : SeenOk w seen)
    (hx : x ∉ seen) (hlt : x < w.numEntities) : SeenOk w (x :: seen) := by
  refine ⟨List.nodup_cons.mpr ⟨hx, h.1⟩, ?_⟩
  intro y hy
  rcases List.mem_cons.mp hy with rfl | hy
  · exact hlt
  · exact h.2 y hy

theorem seenOk_length_le {w : GraphWorld} {seen : List Nat} (h : SeenOk w seen) :
    seen.length ≤ w.numEntities := by
  classical
  have hsub : seen.toFinset ⊆ Finset.range w.numEntities := by
    intro x hx
    rw [Finset.mem_range]
    exact h.2 x (List.mem_toFinset.mp hx)
  have hcard := Finset.card_le_card hsub
  rw [Finset.card_range] at hcard
  rwa [List.toFinset_card_of_nodup h.1] at hcard

end ApiExtractor

namespace ApiExtractor

/-- Basic postconditions of one traversal call: the visited set only grows on
top, installed entities persist and grow, key uniqueness is preserved, the
expanded entity ends up visited, and visited-set sanity is preserved. -/
def TraverseBasic (w : GraphWorld) (fuel : Nat) : Prop :=
  ∀ e st seen st' seen',
    createEntityForIndirectReferences w fuel e st seen = .ok (st', seen') →
    SeenExt seen seen' ∧ StateLe st st' ∧ (NodupKeys st → NodupKeys st') ∧ e ∈ seen' ∧
    (SeenOk w seen → e < w.numEntities → SeenOk w seen')

theorem processReferences_basic (w : GraphWorld) (fuel : Nat)
    (hT : TraverseBasic w fuel) :
    ∀ (e : Nat) (rs : List EntityRef) (st : CollectorState) (seen : List Nat)
      (st' : CollectorState) (seen' : List Nat),
      (∀ r ∈ rs, r.astEntity < w.numEntities) →
      processReferences w (createEntityForIndirectReferences w fuel) e rs st seen =
        .ok (st', seen') →
      SeenExt seen seen' ∧ StateLe st st' ∧ (NodupKeys st → NodupKeys st') ∧
        (SeenOk w seen → SeenOk w seen') := by
  intro e rs
  induction rs with
  | nil =>
    intro st seen st' seen' _ h
    rw [processReferences] at h
    injection h with h
    injection h with h1 h2
    subst h1; subst h2
    exact ⟨seenExt_refl _, stateLe_refl _, id, id⟩
  | cons r rs ih =>
    intro st seen st' seen' hlt h
    rw [processReferences] at h
    rcases hfind : findEntity st e with _ | entity
    · rw [hfind] at h; cases h
    · rw [hfind] at h
      simp only [bind, Except.bind] at h
      rcases hrec : createEntityForIndirectReferences w fuel r.astEntity
          (match w.entityKind r.astEntity with
           | .astSymbol parentAstSymbol _ =>
             if parentAstSymbol = Option.none then
               createCollectorEntity st r.astEntity Option.none
                 (entity.consumable && r.kind == AstEntityReferenceKind.Inheritance)
             else st
           | _ => createCollectorEntity st r.astEntity Option.none
               (entity.consumable && r.kind == AstEntityReferenceKind.Inheritance)) seen
        with err | ok2
      · rw [hrec] at h; cases h
      · rw [hrec] at h
        obtain ⟨st2, seen2⟩ := ok2
        dsimp only at h
        obtain ⟨hext2, hle2, hnd2, hmem2, hok2⟩ := hT r.astEntity _ seen st2 seen2 hrec
        obtain ⟨hext3, hle3, hnd3, hok3⟩ := ih st2 seen2 st' seen'
          (fun r hr => hlt r (List.mem_cons_of_mem _ hr)) h
        have hstep : StateLe st (match w.entityKind r.astEntity with
            | .astSymbol parentAstSymbol _ =>
              if parentAstSymbol = Option.none then
                createCollectorEntity st r.astEntity Option.none
                  (entity.consumable && r.kind == AstEntityReferenceKind.Inheritance)
              else st
            | _ => createCollectorEntity st r.astEntity Option.none
                (entity.consumable && r.kind == AstEntityReferenceKind.Inheritance)) := by
          cases hkind : w.entityKind r.astEntity with
          | astSymbol p decls =>
            dsimp only
            split
            · exact createCollectorEntity_stateLe _ _ _ _
            · exact stateLe_refl st
          | astNamespaceImport exps => exact createCollectorEntity_stateLe _ _ _ _
          | astImport => exact createCollectorEntity_stateLe _ _ _ _
        have hstepnd : NodupKeys st → NodupKeys (match w.entityKind r.astEntity with
            | .astSymbol parentAstSymbol _ =>
              if parentAstSymbol = Option.none then
                createCollectorEntity st r.astEntity Option.none
                  (entity.consumable && r.kind == AstEntityReferenceKind.Inheritance)
              else st
            | _ => createCollectorEntity st r.astEntity Option.none
                (entity.consumable && r.kind == AstEntityReferenceKind.Inheritance)) := by
          intro hnd
          cases hkind : w.entityKind r.astEntity with
          | astSymbol p decls =>
            dsimp only
            split
            · exact nodupKeys_createCollectorEntity _ _ _ hnd
            · exact hnd
          | astNamespaceImport exps => exact nodupKeys_createCollectorEntity _ _ _ hnd
          | astImport => exact nodupKeys_createCollectorEntity _ _ _ hnd
        refine ⟨seenExt_trans hext2 hext3, stateLe_trans hstep (stateLe_trans hle2 hle3),
          fun hnd => hnd3 (hnd2 (hstepnd hnd)), ?_⟩
        intro hok
        exact hok3 (hok2 hok (hlt r (List.mem_cons_self r rs)))

end ApiExtractor

namespace ApiExtractor

theorem processNamespaceExports_basic (w : GraphWorld) (fuel : Nat)
    (hT : TraverseBasic w fuel) :
    ∀ (nsE : Nat) (es : List Nat) (st : CollectorState) (seen : List Nat)
      (st' : CollectorState) (seen' : List Nat),
      (∀ x ∈ es, x < w.numEntities) →
      processNamespaceExports w (createEntityForIndirectReferences w fuel) nsE es st seen =
        .ok (st', seen') →
      SeenExt seen seen' ∧ StateLe st st' ∧ (NodupKeys st → NodupKeys st') ∧
        (SeenOk w seen → SeenOk w seen') := by
  intro nsE es
  induction es with
  | nil =>
    intro st seen st' seen' _ h
    rw [processNamespaceExports] at h
    injection h with h
    injection h with h1 h2
    subst h1; subst h2
    exact ⟨seenExt_refl _, stateLe_refl _, id, id⟩
  | cons x es ih =>
    intro st seen st' seen' hlt h
    rw [processNamespaceExports] at h
    simp only [bind, Except.bind] at h
    rcases hrec : createEntityForIndirectReferences w fuel x
        (updateEntity (createCollectorEntity st x Option.none)
          x (fun ce => ce.addAstNamespaceImports nsE)) seen with err | ok2
    · rw [hrec] at h; cases h
    · rw [hrec] at h
      obtain ⟨st2, seen2⟩ := ok2
      dsimp only at h
      obtain ⟨hext2, hle2, hnd2, hmem2, hok2⟩ := hT x _ seen st2 seen2 hrec
      obtain ⟨hext3, hle3, hnd3, hok3⟩ := ih st2 seen2 st' seen'
        (fun y hy => hlt y (List.mem_cons_of_mem _ hy)) h
      have hstep : StateLe st (updateEntity (createCollectorEntity st x Option.none)
          x (fun ce => ce.addAstNamespaceImports nsE)) :=
        stateLe_trans (createCollectorEntity_stateLe st x Option.none false)
          (updateEntity_stateLe (fun ce => rfl)
            (fun ce => addAstNamespaceImports_entityLe ce nsE))
      have hstepnd : NodupKeys st → NodupKeys (updateEntity (createCollectorEntity st x Option.none)
          x (fun ce => ce.addAstNamespaceImports nsE)) := by
        intro hnd
        unfold NodupKeys
        rw [@entityKeys_updateEntity (createCollectorEntity st x Option.none) x
          (fun ce => ce.addAstNamespaceImports nsE) (fun ce => rfl)]
        exact nodupKeys_createCollectorEntity _ _ _ hnd
      refine ⟨seenExt_trans hext2 hext3, stateLe_trans hstep (stateLe_trans hle2 hle3),
        fun hnd => hnd3 (hnd2 (hstepnd hnd)), ?_⟩
      intro hok
      exact hok3 (hok2 hok (hlt x (List.mem_cons_self x es)))

theorem entityKind_namespaceExports {w : GraphWorld} {i : Nat} {exps : List Nat}
    (h : w.entityKind i = .astNamespaceImport exps) : w.namespaceExports i = exps := by
  unfold GraphWorld.namespaceExports
  rw [h]

theorem entityKind_symbolReferences {w : GraphWorld} {i : Nat} {p : Option Nat}
    {decls : List DeclTree} (h : w.entityKind i = .astSymbol p decls) :
    w.symbolReferences i = DeclTree.allReferencesOfForest decls := by
  unfold GraphWorld.symbolReferences
  rw [h]

theorem traverseBasic (w : GraphWorld) (hwf : w.Wf) : ∀ fuel, TraverseBasic w fuel := by
  intro fuel
  induction fuel with
  | zero =>
    intro e st seen st' seen' h
    rw [createEntityForIndirectReferences] at h
    cases h
  | succ fuel ih =>
    intro e st seen st' seen' h
    rw [createEntityForIndirectReferences] at h
    by_cases hmem : e ∈ seen
    · rw [if_pos hmem] at h
      injection h with h
      injection h with h1 h2
      subst h1; subst h2
      exact ⟨seenExt_refl _, stateLe_refl _, id, hmem, fun hok _ => hok⟩
    · rw [if_neg hmem] at h
      cases hkind : w.entityKind e with
      | astSymbol p decls =>
        rw [hkind] at h
        obtain ⟨hext, hle, hnd, hok⟩ := processReferences_basic w fuel ih e
          (DeclTree.allReferencesOfForest decls) st (e :: seen) st' seen'
          (fun r hr => wf_ref_lt hwf (by rw [entityKind_symbolReferences hkind]; exact hr)) h
        refine ⟨seenExt_trans (seenExt_cons e seen) hext, hle, hnd,
          hext.subset (List.mem_cons_self e seen), ?_⟩
        intro hsok hlt
        exact hok (seenOk_cons hsok hmem hlt)
      | astNamespaceImport exps =>
        rw [hkind] at h
        obtain ⟨hext, hle, hnd, hok⟩ := processNamespaceExports_basic w fuel ih e
          exps st (e :: seen) st' seen'
          (fun x hx => wf_nsExport_lt hwf (by rw [entityKind_namespaceExports hkind]; exact hx)) h
        refine ⟨seenExt_trans (seenExt_cons e seen) hext, hle, hnd,
          hext.subset (List.mem_cons_self e seen), ?_⟩
        intro hsok hlt
        exact hok (seenOk_cons hsok hmem hlt)
      | astImport =>
        rw [hkind] at h
        injection h with h
        injection h with h1 h2
        subst h1; subst h2
        refine ⟨seenExt_cons e seen, stateLe_refl _, id, List.mem_cons_self e seen, ?_⟩
        intro hsok hlt
        exact seenOk_cons hsok hmem hlt

theorem traverseExported_basic (w : GraphWorld) (hwf : w.Wf) (fuel : Nat) :
    ∀ (exps : List (String × Nat)) (st : CollectorState) (seen : List Nat)
      (st' : CollectorState) (seen' : List Nat),
      (∀ p ∈ exps, p.2 < w.numEntities) →
      traverseExportedEntities w fuel exps st seen = .ok (st', seen') →
      SeenExt seen seen' ∧ StateLe st st' ∧ (NodupKeys st → NodupKeys st') ∧
        (SeenOk w seen → SeenOk w seen') ∧ (∀ p ∈ exps, p.2 ∈ seen') := by
  intro exps
  induction exps with
  | nil =>
    intro st seen st' seen' _ h
    rw [traverseExportedEntities] at h
    injection h with h
    injection h with h1 h2
    subst h1; subst h2
    exact ⟨seenExt_refl _, stateLe_refl _, id, id, by intro p hp; cases hp⟩
  | cons q exps ih =>
    intro st seen st' seen' hlt h
    rw [traverseExportedEntities] at h
    simp only [bind, Except.bind] at h
    rcases hrec : createEntityForIndirectReferences w fuel q.2 st seen with err | ok2
    · rw [hrec] at h; cases h
    · rw [hrec] at h
      obtain ⟨st2, seen2⟩ := ok2
      dsimp only at h
      obtain ⟨hext2, hle2, hnd2, hmem2, hok2⟩ := traverseBasic w hwf fuel q.2 st seen st2 seen2 hrec
      obtain ⟨hext3, hle3, hnd3, hok3, hmem3⟩ := ih st2 seen2 st' seen'
        (fun p hp => hlt p (List.mem_cons_of_mem _ hp)) h
      refine ⟨seenExt_trans hext2 hext3, stateLe_trans hle2 hle3, fun hnd => hnd3 (hnd2 hnd),
        fun hok => hok3 (hok2 hok (hlt q (List.mem_cons_self q exps))), ?_⟩
      intro p hp
      rcases List.mem_cons.mp hp with rfl | hp
      · exact hext3.subset hmem2
      · exact hmem3 p hp

end ApiExtractor

namespace ApiExtractor

/-- Fuel adequacy: with fuel at least the number of not-yet-visited entities
plus one, the traversal never exhausts its fuel. -/
def TraverseNoFuelErr (w : GraphWorld) (fuel : Nat) : Prop :=
  ∀ e st seen, e < w.numEntities → SeenOk w seen →
    w.numEntities + 1 ≤ fuel + seen.length →
    createEntityForIndirectReferences w fuel e st seen ≠ .error .outOfFuel

theorem processReferences_noFuel (w : GraphWorld) (hwf : w.Wf) (fuel : Nat)
    (hT : TraverseBasic w fuel) (hF : TraverseNoFuelErr w fuel) :
    ∀ (e : Nat) (rs : List EntityRef) (st : CollectorState) (seen : List Nat),
      (∀ r ∈ rs, r.astEntity < w.numEntities) → SeenOk w seen →
      w.numEntities + 1 ≤ fuel + seen.length →
      processReferences w (createEntityForIndirectReferences w fuel) e rs st seen ≠
        .error .outOfFuel := by
  intro e rs
  induction rs with
  | nil =>
    intro st seen _ _ _ h
    rw [processReferences] at h
    cases h
  | cons r rs ih =>
    intro st seen hlt hok hfuel h
    rw [processReferences] at h
    rcases hfind : findEntity st e with _ | entity
    · rw [hfind] at h; cases h
    · rw [hfind] at h
      simp only [bind, Except.bind] at h
      rcases hrec : createEntityForIndirectReferences w fuel r.astEntity
          (match w.entityKind r.astEntity with
           | .astSymbol parentAstSymbol _ =>
             if parentAstSymbol = Option.none then
               createCollectorEntity st r.astEntity Option.none
                 (entity.consumable && r.kind == AstEntityReferenceKind.Inheritance)
             else st
           | _ => createCollectorEntity st r.astEntity Option.none
               (entity.consumable && r.kind == AstEntityReferenceKind.Inheritance)) seen
        with err | ok2
      · rw [hrec] at h
        dsimp only at h
        injection h with h
        exact hF r.astEntity _ seen (hlt r (List.mem_cons_self r rs)) hok hfuel
          (by rw [hrec, h])
      · rw [hrec] at h
        obtain ⟨st2, seen2⟩ := ok2
        dsimp only at h
        obtain ⟨hext2, _, _, _, hok2⟩ := hT r.astEntity _ seen st2 seen2 hrec
        exact ih st2 seen2 (fun r hr => hlt r (List.mem_cons_of_mem _ hr))
          (hok2 hok (hlt r (List.mem_cons_self r rs)))
          (Nat.le_trans hfuel (Nat.add_le_add_left (seenExt_length_le hext2) fuel)) h

theorem processNamespaceExports_noFuel (w : GraphWorld) (hwf : w.Wf) (fuel : Nat)
    (hT : TraverseBasic w fuel) (hF : TraverseNoFuelErr w fuel) :
    ∀ (nsE : Nat) (es : List Nat) (st : CollectorState) (seen : List Nat),
      (∀ x ∈ es, x < w.numEntities) → SeenOk w seen →
      w.numEntities + 1 ≤ fuel + seen.length →
      processNamespaceExports w (createEntityForIndirectReferences w fuel) nsE es st seen ≠
        .error .outOfFuel := by
  intro nsE es
  induction es with
  | nil =>
    intro st seen _ _ _ h
    rw [processNamespaceExports] at h
    cases h
  | cons x es ih =>
    intro st seen hlt hok hfuel h
    rw [processNamespaceExports] at h
    simp only [bind, Except.bind] at h
    rcases hrec : createEntityForIndirectReferences w fuel x
        (updateEntity (createCollectorEntity st x Option.none)
          x (fun ce => ce.addAstNamespaceImports nsE)) seen with err | ok2
    · rw [hrec] at h
      dsimp only at h
      injection h with h
      exact hF x _ seen (hlt x (List.mem_cons_self x es)) hok hfuel (by rw [hrec, h])
    · rw [hrec] at h
      obtain ⟨st2, seen2⟩ := ok2
      dsimp only at h
      obtain ⟨hext2, _, _, _, hok2⟩ := hT x _ seen st2 seen2 hrec
      exact ih st2 seen2 (fun y hy => hlt y (List.mem_cons_of_mem _ hy))
        (hok2 hok (hlt x (List.mem_cons_self x es)))
        (Nat.le_trans hfuel (Nat.add_le_add_left (seenExt_length_le hext2) fuel)) h

theorem traverseNoFuel (w : GraphWorld) (hwf : w.Wf) : ∀ fuel, TraverseNoFuelErr w fuel := by
  intro fuel
  induction fuel with
  | zero =>
    intro e st seen _ hok hfuel _
    have := seenOk_length_le hok
    omega
  | succ fuel ih =>
    intro e st seen hlt hok hfuel h
    rw [createEntityForIndirectReferences] at h
    by_cases hmem : e ∈ seen
    · rw [if_pos hmem] at h; cases h
    · rw [if_neg hmem] at h
      have hok1 : SeenOk w (e :: seen) := seenOk_cons hok hmem hlt
      have hfuel1 : w.numEntities + 1 ≤ fuel + (e :: seen).length := by
        simp only [List.length_cons]
        omega
      cases hkind : w.entityKind e with
      | astSymbol p decls =>
        rw [hkind] at h
        exact processReferences_noFuel w hwf fuel (traverseBasic w hwf fuel) ih e
          (DeclTree.allReferencesOfForest decls) st (e :: seen)
          (fun r hr => wf_ref_lt hwf (by rw [entityKind_symbolReferences hkind]; exact hr))
          hok1 hfuel1 h
      | astNamespaceImport exps =>
        rw [hkind] at h
        exact processNamespaceExports_noFuel w hwf fuel (traverseBasic w hwf fuel) ih e
          exps st (e :: seen)
          (fun x hx => wf_nsExport_lt hwf (by rw [entityKind_namespaceExports hkind]; exact hx))
          hok1 hfuel1 h
      | astImport =>
        rw [hkind] at h
        cases h

theorem traverseExported_noFuel (w : GraphWorld) (hwf : w.Wf) :
    ∀ (exps : List (String × Nat)) (st : CollectorState) (seen : List Nat),
      (∀ p ∈ exps, p.2 < w.numEntities) → SeenOk w seen →
      traverseExportedEntities w (w.numEntities + 1) exps st seen ≠ .error .outOfFuel := by
  intro exps
  induction exps with
  | nil =>
    intro st seen _ _ h
    rw [traverseExportedEntities] at h
    cases h
  | cons q exps ih =>
    intro st seen hlt hok h
    rw [traverseExportedEntities] at h
    simp only [bind, Except.bind] at h
    rcases hrec : createEntityForIndirectReferences w (w.numEntities + 1) q.2 st seen
      with err | ok2
    · rw [hrec] at h
      dsimp only at h
      injection h with h
      exact traverseNoFuel w hwf (w.numEntities + 1) q.2 st seen
        (hlt q (List.mem_cons_self q exps)) hok (by omega) (by rw [hrec, h])
    · rw [hrec] at h
      obtain ⟨st2, seen2⟩ := ok2
      dsimp only at h
      obtain ⟨_, _, _, _, hok2⟩ :=
        traverseBasic w hwf (w.numEntities + 1) q.2 st seen st2 seen2 hrec
      exact ih st2 seen2 (fun p hp => hlt p (List.mem_cons_of_mem _ hp))
        (hok2 hok (hlt q (List.mem_cons_self q exps))) h

end ApiExtractor

namespace ApiExtractor

theorem buildGraphState_eq (w : GraphWorld) :
    buildGraphState w = traverseExportedEntities w (w.numEntities + 1)
      w.exportedLocalEntities (registerExports w.exportedLocalEntities ⟨[]⟩) [] := rfl

/-- Cyclic scenario for the termination witness: `A` and `B` extend each
other through inheritance references, and `A` is exported. -/
def cyclicWorld : GraphWorld :=
  { ents := [⟨"A", .astSymbol Option.none [.node [⟨1, .Inheritance⟩] []]⟩,
             ⟨"B", .astSymbol Option.none [.node [⟨0, .Inheritance⟩] []]⟩],
    exportedLocalEntities := [("A", 0)],
    globalNames := [] }

/-- C9: the indirect-reference traversal terminates on every well-formed
input reference graph, cyclic ones included: the memoized visited set bounds
the recursion, so the traversal driver, whose fuel is the number of entities
plus one, never exhausts its fuel. -/
theorem indirect_reference_traversal_terminates (w : GraphWorld) (hwf : w.Wf) :
    buildGraphState w ≠ .error .outOfFuel := by
  rw [buildGraphState_eq]
  exact traverseExported_noFuel w hwf w.exportedLocalEntities
    (registerExports w.exportedLocalEntities ⟨[]⟩) []
    (fun p hp => wf_export_lt hwf hp) (SeenOk.nil w)

/-- Witness for C9 on the cyclic world: a class extending itself indirectly
is expanded without exhausting the traversal bound. -/
theorem indirect_reference_traversal_terminates_witness :
    cyclicWorld.Wf ∧ buildGraphState cyclicWorld ≠ .error .outOfFuel :=
  ⟨by unfold GraphWorld.Wf; decide,
    indirect_reference_traversal_terminates cyclicWorld (by unfold GraphWorld.Wf; decide)⟩

end ApiExtractor

namespace ApiExtractor

/-- Failing input for C8: the entry module exports `E`, whose declaration
plainly references the nested symbol `T` (a member of the root symbol `S`,
e.g. referenced as `S.T`); `T`'s own declaration carries a further reference.
When the traversal expands `T`, no `CollectorEntity` was installed for it
(nested symbols get none), so the lookup of line 459 fails. -/
def nestedLookupFailureWorld : GraphWorld :=
  { ents := [⟨"E", .astSymbol Option.none [.node [⟨2, .Plain⟩] []]⟩,
             ⟨"S", .astSymbol Option.none []⟩,
             ⟨"T", .astSymbol (Option.some 1) [.node [⟨1, .Plain⟩] []]⟩],
    exportedLocalEntities := [("E", 0)],
    globalNames := [] }

/-- C8: the fatal abort of `_createEntityForIndirectReferences` when the
lookup of the referencing entity's `CollectorEntity` fails is a bare
`throw new Error()` - the raised error carries the empty message, naming
neither the declaration nor the symbol involved, contrary to the stated
requirement that every fatal internal error include that context. -/
theorem indirect_reference_lookup_error_is_contextless :
    analyze nestedLookupFailureWorld = .error (.thrown "") ∧ "" ≠ "T" ∧ "" ≠ "S" := by
  refine ⟨by decide, by decide, by decide⟩

end ApiExtractor

namespace ApiExtractor

/-- A reference target is one that `_createEntityForIndirectReferences`
installs a node for: every entity except a nested symbol. -/
def checkRootEligible (w : GraphWorld) (x : Nat) : Bool :=
  match w.entityKind x with
  | .astSymbol parentAstSymbol _ => parentAstSymbol.isNone
  | _ => true

/-- Propositional form of `checkRootEligible`. -/
def RootEligible (w : GraphWorld) (x : Nat) : Prop := checkRootEligible w x = true

/-- One reference of `x` has been fully processed: its target is visited,
and (unless the target is a nested symbol) installed - with the
consumable-via-inheritance flag set whenever `x` is an entry export and the
reference is an inheritance reference. -/
def RefDone (w : GraphWorld) (st : CollectorState) (seen : List Nat) (x : Nat)
    (r : EntityRef) : Prop :=
  r.astEntity ∈ seen ∧
  (RootEligible w r.astEntity → ∃ ce, findEntity st r.astEntity = Option.some ce ∧
    (ExportedEnt w x → r.kind = AstEntityReferenceKind.Inheritance →
      ce.consumableViaInheritance = true))

theorem refDone_mono {w : GraphWorld} {st st' : CollectorState} {seen seen' : List Nat}
    {x : Nat} {r : EntityRef} (hle : StateLe st st') (hsub : seen ⊆ seen')
    (h : RefDone w st seen x r) : RefDone w st' seen' x r := by
  obtain ⟨hmem, hpres⟩ := h
  refine ⟨hsub hmem, ?_⟩
  intro helig
  obtain ⟨ce, hce, hcvi⟩ := hpres helig
  obtain ⟨ce', hce', hle'⟩ := hle r.astEntity ce hce
  exact ⟨ce', hce', fun hx hk => hle'.2.2 (hcvi hx hk)⟩

/-- Every entity visited on top of `base` has all of its references fully
processed. -/
def ObligationsDone (w : GraphWorld) (st : CollectorState) (seen base : List Nat) : Prop :=
  ∀ x ∈ seen, x ∉ base → ∀ r ∈ w.symbolReferences x, RefDone w st seen x r

/-- Closure postcondition of one traversal call. -/
def TraverseClosure (w : GraphWorld) (fuel : Nat) : Prop :=
  ∀ e st seen st' seen', ExpInv w st →
    createEntityForIndirectReferences w fuel e st seen = .ok (st', seen') →
    ObligationsDone w st' seen' seen

theorem processReferences_closure (w : GraphWorld) (fuel : Nat)
    (hT : TraverseBasic w fuel) (hC : TraverseClosure w fuel) :
    ∀ (e : Nat) (rs : List EntityRef) (st : CollectorState) (seen : List Nat)
      (st' : CollectorState) (seen' : List Nat) (base : List Nat),
      ExpInv w st → e ∈ seen →
      (∀ x ∈ seen, x ∉ base → x ≠ e → ∀ r ∈ w.symbolReferences x, RefDone w st seen x r) →
      (∃ done, w.symbolReferences e = done ++ rs ∧ ∀ r ∈ done, RefDone w st seen e r) →
      processReferences w (createEntityForIndirectReferences w fuel) e rs st seen =
        .ok (st', seen') →
      ObligationsDone w st' seen' base := by
  intro e rs
  induction rs with
  | nil =>
    intro st seen st' seen' base hinv hmem halmost hdone h
    rw [processReferences] at h
    injection h with h
    injection h with h1 h2
    subst h1; subst h2
    intro x hx hxb r hr
    by_cases hxe : x = e
    · subst hxe
      obtain ⟨done, hdeq, hdall⟩ := hdone
      rw [List.append_nil] at hdeq
      exact hdall r (by rw [hdeq] at hr; exact hr)
    · exact halmost x hx hxb hxe r hr
  | cons r rs ih =>
    intro st seen st' seen' base hinv hmem halmost hdone h
    rw [processReferences] at h
    rcases hfind : findEntity st e with _ | entity
    · rw [hfind] at h; cases h
    · rw [hfind] at h
      simp only [bind, Except.bind] at h
      rcases hrec : createEntityForIndirectReferences w fuel r.astEntity
          (match w.entityKind r.astEntity with
           | .astSymbol parentAstSymbol _ =>
             if parentAstSymbol = Option.none then
               createCollectorEntity st r.astEntity Option.none
                 (entity.consumable && r.kind == AstEntityReferenceKind.Inheritance)
             else st
           | _ => createCollectorEntity st r.astEntity Option.none
               (entity.consumable && r.kind == AstEntityReferenceKind.Inheritance)) seen
        with err | ok2
      · rw [hrec] at h; cases h
      · rw [hrec] at h
        obtain ⟨st2, seen2⟩ := ok2
        dsimp only at h
        obtain ⟨hext2, hle2, _, hmem2, _⟩ := hT r.astEntity _ seen st2 seen2 hrec
        have hstep : StateLe st (match w.entityKind r.astEntity with
            | .astSymbol parentAstSymbol _ =>
              if parentAstSymbol = Option.none then
                createCollectorEntity st r.astEntity Option.none
                  (entity.consumable && r.kind == AstEntityReferenceKind.Inheritance)
              else st
            | _ => createCollectorEntity st r.astEntity Option.none
                (entity.consumable && r.kind == AstEntityReferenceKind.Inheritance)) := by
          cases hkind : w.entityKind r.astEntity with
          | astSymbol p decls =>
            dsimp only
            split
            · exact createCollectorEntity_stateLe _ _ _ _
            · exact stateLe_refl st
          | astNamespaceImport exps => exact createCollectorEntity_stateLe _ _ _ _
          | astImport => exact createCollectorEntity_stateLe _ _ _ _
        -- the reference r is done after the create/recur step
        have hrdone : RefDone w st2 seen2 e r := by
          refine ⟨hmem2, ?_⟩
          intro helig
          -- the create step installs the target with the right flag
          have hcreated : ∃ ce, findEntity (match w.entityKind r.astEntity with
              | .astSymbol parentAstSymbol _ =>
                if parentAstSymbol = Option.none then
                  createCollectorEntity st r.astEntity Option.none
                    (entity.consumable && r.kind == AstEntityReferenceKind.Inheritance)
                else st
              | _ => createCollectorEntity st r.astEntity Option.none
                  (entity.consumable && r.kind == AstEntityReferenceKind.Inheritance))
              r.astEntity = Option.some ce ∧
              (ExportedEnt w e → r.kind = AstEntityReferenceKind.Inheritance →
                ce.consumableViaInheritance = true) := by
            have hflag : ∀ (hx : ExportedEnt w e)
                (hk : r.kind = AstEntityReferenceKind.Inheritance),
                (entity.consumable && r.kind == AstEntityReferenceKind.Inheritance) = true := by
              intro hx hk
              obtain ⟨ce0, hce0, hexp0⟩ := hinv e hx
              rw [hfind] at hce0
              injection hce0 with hce0
              subst hce0
              have hcons : entity.consumable = true := by
                unfold CollectorEntity.consumable
                rw [hexp0]
                rfl
              rw [hcons, hk]
              rfl
            cases hkind : w.entityKind r.astEntity with
            | astSymbol p decls =>
              dsimp only
              have helig' : p = Option.none := by
                unfold RootEligible checkRootEligible at helig
                rw [hkind] at helig
                exact Option.isNone_iff_eq_none.mp helig
              rw [if_pos helig']
              by_cases hflagval : (entity.consumable &&
                  r.kind == AstEntityReferenceKind.Inheritance) = true
              · rw [hflagval]
                obtain ⟨ce, hce, hcvi⟩ := createCollectorEntity_cvi st r.astEntity Option.none
                exact ⟨ce, hce, fun _ _ => hcvi⟩
              · rcases hsome : findEntity (createCollectorEntity st r.astEntity Option.none
                    (entity.consumable && r.kind == AstEntityReferenceKind.Inheritance))
                    r.astEntity with _ | ce
                · have := createCollectorEntity_isSome st r.astEntity Option.none
                    (entity.consumable && r.kind == AstEntityReferenceKind.Inheritance)
                  rw [hsome] at this; cases this
                · exact ⟨ce, rfl, fun hx hk => absurd (hflag hx hk) hflagval⟩
            | astNamespaceImport exps =>
              by_cases hflagval : (entity.consumable &&
                  r.kind == AstEntityReferenceKind.Inheritance) = true
              · rw [hflagval]
                obtain ⟨ce, hce, hcvi⟩ := createCollectorEntity_cvi st r.astEntity Option.none
                exact ⟨ce, hce, fun _ _ => hcvi⟩
              · rcases hsome : findEntity (createCollectorEntity st r.astEntity Option.none
                    (entity.consumable && r.kind == AstEntityReferenceKind.Inheritance))
                    r.astEntity with _ | ce
                · have := createCollectorEntity_isSome st r.astEntity Option.none
                    (entity.consumable && r.kind == AstEntityReferenceKind.Inheritance)
                  rw [hsome] at this; cases this
                · exact ⟨ce, rfl, fun hx hk => absurd (hflag hx hk) hflagval⟩
            | astImport =>
              by_cases hflagval : (entity.consumable &&
                  r.kind == AstEntityReferenceKind.Inheritance) = true
              · rw [hflagval]
                obtain ⟨ce, hce, hcvi⟩ := createCollectorEntity_cvi st r.astEntity Option.none
                exact ⟨ce, hce, fun _ _ => hcvi⟩
              · rcases hsome : findEntity (createCollectorEntity st r.astEntity Option.none
                    (entity.consumable && r.kind == AstEntityReferenceKind.Inheritance))
                    r.astEntity with _ | ce
                · have := createCollectorEntity_isSome st r.astEntity Option.none
                    (entity.consumable && r.kind == AstEntityReferenceKind.Inheritance)
                  rw [hsome] at this; cases this
                · exact ⟨ce, rfl, fun hx hk => absurd (hflag hx hk) hflagval⟩
          obtain ⟨ce, hce, hcvi⟩ := hcreated
          obtain ⟨ce', hce', hle'⟩ := hle2 r.astEntity ce hce
          exact ⟨ce', hce', fun hx hk => hle'.2.2 (hcvi hx hk)⟩
        -- recursion closed the obligations of entities it visited
        have hnewobl : ObligationsDone w st2 seen2 seen :=
          hC r.astEntity _ seen st2 seen2 (expInv_mono hinv hstep) hrec
        -- assemble the invariants for the remaining references
        obtain ⟨done, hdeq, hdall⟩ := hdone
        refine ih st2 seen2 st' seen' base (expInv_mono hinv (stateLe_trans hstep hle2))
          (hext2.subset hmem) ?_ ⟨done ++ [r], ?_, ?_⟩ h
        · intro x hx hxb hxe r' hr'
          by_cases hxseen : x ∈ seen
          · exact refDone_mono (stateLe_trans hstep hle2) hext2.subset (halmost x hxseen hxb hxe r' hr')
          · exact hnewobl x hx hxseen r' hr'
        · rw [hdeq, List.append_assoc]
          rfl
        · intro r' hr'
          rcases List.mem_append.mp hr' with hd | hlast
          · exact refDone_mono (stateLe_trans hstep hle2) hext2.subset (hdall r' hd)
          · rw [List.mem_singleton] at hlast
            subst hlast
            exact hrdone

end ApiExtractor

namespace ApiExtractor

theorem processNamespaceExports_closure (w : GraphWorld) (fuel : Nat)
    (hT : TraverseBasic w fuel) (hC : TraverseClosure w fuel) :
    ∀ (nsE : Nat) (es : List Nat) (st : CollectorState) (seen : List Nat)
      (st' : CollectorState) (seen' : List Nat) (base : List Nat),
      ExpInv w st →
      (∀ x ∈ seen, x ∉ base → ∀ r ∈ w.symbolReferences x, RefDone w st seen x r) →
      processNamespaceExports w (createEntityForIndirectReferences w fuel) nsE es st seen =
        .ok (st', seen') →
      ObligationsDone w st' seen' base := by
  intro nsE es
  induction es with
  | nil =>
    intro st seen st' seen' base _ hdone h
    rw [processNamespaceExports] at h
    injection h with h
    injection h with h1 h2
    subst h1; subst h2
    exact hdone
  | cons x es ih =>
    intro st seen st' seen' base hinv hdone h
    rw [processNamespaceExports] at h
    simp only [bind, Except.bind] at h
    rcases hrec : createEntityForIndirectReferences w fuel x
        (updateEntity (createCollectorEntity st x Option.none)
          x (fun ce => ce.addAstNamespaceImports nsE)) seen with err | ok2
    · rw [hrec] at h; cases h
    · rw [hrec] at h
      obtain ⟨st2, seen2⟩ := ok2
      dsimp only at h
      obtain ⟨hext2, hle2, _, _, _⟩ := hT x _ seen st2 seen2 hrec
      have hstep : StateLe st (updateEntity (createCollectorEntity st x Option.none)
          x (fun ce => ce.addAstNamespaceImports nsE)) :=
        stateLe_trans (createCollectorEntity_stateLe st x Option.none false)
          (updateEntity_stateLe (fun ce => rfl)
            (fun ce => addAstNamespaceImports_entityLe ce nsE))
      have hnewobl : ObligationsDone w st2 seen2 seen :=
        hC x _ seen st2 seen2 (expInv_mono hinv hstep) hrec
      refine ih st2 seen2 st' seen' base (expInv_mono hinv (stateLe_trans hstep hle2)) ?_ h
      intro y hy hyb r hr
      by_cases hyseen : y ∈ seen
      · exact refDone_mono (stateLe_trans hstep hle2) hext2.subset (hdone y hyseen hyb r hr)
      · exact hnewobl y hy hyseen r hr

theorem traverseClosure (w : GraphWorld) (hwf : w.Wf) : ∀ fuel, TraverseClosure w fuel := by
  intro fuel
  induction fuel with
  | zero =>
    intro e st seen st' seen' _ h
    rw [createEntityForIndirectReferences] at h
    cases h
  | succ fuel ih =>
    intro e st seen st' seen' hinv h
    rw [createEntityForIndirectReferences] at h
    by_cases hmem : e ∈ seen
    · rw [if_pos hmem] at h
      injection h with h
      injection h with h1 h2
      subst h1; subst h2
      intro x hx hxb
      exact absurd hx hxb
    · rw [if_neg hmem] at h
      cases hkind : w.entityKind e with
      | astSymbol p decls =>
        rw [hkind] at h
        have hrefs : w.symbolReferences e = DeclTree.allReferencesOfForest decls :=
          entityKind_symbolReferences hkind
        have hres := processReferences_closure w fuel (traverseBasic w hwf fuel) ih e
          (DeclTree.allReferencesOfForest decls) st (e :: seen) st' seen' seen hinv
          (List.mem_cons_self e seen) ?_ ⟨[], by rw [hrefs]; rfl, by intro r hr; cases hr⟩ h
        · exact hres
        · intro x hx hxb hxe r hr
          rcases List.mem_cons.mp hx with rfl | hx2
          · exact absurd rfl hxe
          · exact absurd hx2 hxb
      | astNamespaceImport exps =>
        rw [hkind] at h
        have hres := processNamespaceExports_closure w fuel (traverseBasic w hwf fuel) ih e
          exps st (e :: seen) st' seen' seen hinv ?_ h
        · exact hres
        · intro x hx hxb r hr
          rcases List.mem_cons.mp hx with rfl | hx2
          · rw [show w.symbolReferences x = [] from by
              unfold GraphWorld.symbolReferences; rw [hkind]] at hr
            cases hr
          · exact absurd hx2 hxb
      | astImport =>
        rw [hkind] at h
        injection h with h
        injection h with h1 h2
        subst h1; subst h2
        intro x hx hxb r hr
        rcases List.mem_cons.mp hx with rfl | hx2
        · rw [show w.symbolReferences x = [] from by
            unfold GraphWorld.symbolReferences; rw [hkind]] at hr
          cases hr
        · exact absurd hx2 hxb

theorem traverseExported_closure (w : GraphWorld) (hwf : w.Wf) (fuel : Nat) :
    ∀ (exps : List (String × Nat)) (st : CollectorState) (seen : List Nat)
      (st' : CollectorState) (seen' : List Nat) (base : List Nat),
      ExpInv w st →
      (∀ x ∈ seen, x ∉ base → ∀ r ∈ w.symbolReferences x, RefDone w st seen x r) →
      traverseExportedEntities w fuel exps st seen = .ok (st', seen') →
      ObligationsDone w st' seen' base := by
  intro exps
  induction exps with
  | nil =>
    intro st seen st' seen' base _ hdone h
    rw [traverseExportedEntities] at h
    injection h with h
    injection h with h1 h2
    subst h1; subst h2
    exact hdone
  | cons q exps ih =>
    intro st seen st' seen' base hinv hdone h
    rw [traverseExportedEntities] at h
    simp only [bind, Except.bind] at h
    rcases hrec : createEntityForIndirectReferences w fuel q.2 st seen with err | ok2
    · rw [hrec] at h; cases h
    · rw [hrec] at h
      obtain ⟨st2, seen2⟩ := ok2
      dsimp only at h
      obtain ⟨hext2, hle2, _, _, _⟩ := traverseBasic w hwf fuel q.2 st seen st2 seen2 hrec
      have hnewobl : ObligationsDone w st2 seen2 seen :=
        traverseClosure w hwf fuel q.2 st seen st2 seen2 hinv hrec
      refine ih st2 seen2 st' seen' base (expInv_mono hinv hle2) ?_ h
      intro y hy hyb r hr
      by_cases hyseen : y ∈ seen
      · exact refDone_mono hle2 hext2.subset (hdone y hyseen hyb r hr)
      · exact hnewobl y hy hyseen r hr

end ApiExtractor

namespace ApiExtractor

theorem nodupKeys_empty : NodupKeys ⟨[]⟩ := List.nodup_nil

theorem buildGraphState_facts {w : GraphWorld} {st1 : CollectorState} {seen1 : List Nat}
    (hwf : w.Wf) (h : buildGraphState w = .ok (st1, seen1)) :
    NodupKeys st1 ∧ ExpInv w st1 ∧ (∀ p ∈ w.exportedLocalEntities, p.2 ∈ seen1) ∧
      ObligationsDone w st1 seen1 [] := by
  rw [buildGraphState_eq] at h
  obtain ⟨_, hle, hnd, _, hmem⟩ := traverseExported_basic w hwf (w.numEntities + 1)
    w.exportedLocalEntities (registerExports w.exportedLocalEntities ⟨[]⟩) [] st1 seen1
    (fun p hp => wf_export_lt hwf hp) h
  refine ⟨hnd (registerExports_nodupKeys nodupKeys_empty),
    expInv_mono (registerExports_expInv w) hle, hmem, ?_⟩
  exact traverseExported_closure w hwf (w.numEntities + 1) w.exportedLocalEntities
    (registerExports w.exportedLocalEntities ⟨[]⟩) [] st1 seen1 []
    (registerExports_expInv w) (by intro x hx; cases hx) h

theorem reachable_visited_and_installed {w : GraphWorld} {st1 : CollectorState}
    {seen1 : List Nat} (hwf : w.Wf) (h : buildGraphState w = .ok (st1, seen1)) :
    ∀ e, Reachable w e →
      e ∈ seen1 ∧ (RootEligible w e → (findEntity st1 e).isSome = true) := by
  obtain ⟨hnd, hinv, hmem, hobl⟩ := buildGraphState_facts hwf h
  intro e hreach
  induction hreach with
  | exported hexp =>
    rename_i nm e
    refine ⟨hmem (nm, e) hexp, ?_⟩
    intro _
    obtain ⟨ce, hce, _⟩ := hinv e ⟨nm, hexp⟩
    rw [hce]; rfl
  | ref hsrc hr ih =>
    rename_i x r
    obtain ⟨hxseen, _⟩ := ih
    obtain ⟨htseen, hpres⟩ := hobl x hxseen (by intro hc; cases hc) r hr
    refine ⟨htseen, ?_⟩
    intro helig
    obtain ⟨ce, hce, _⟩ := hpres helig
    rw [hce]; rfl

theorem countP_key_eq_one {st : CollectorState} {e : Nat} (hnd : NodupKeys st)
    (hsome : (findEntity st e).isSome = true) :
    st.entities.countP (fun ce => ce.astEntity == e) = 1 := by
  obtain ⟨ce, hmem, hkey⟩ := findEntity_isSome_iff.mp hsome
  have hmemkey : e ∈ entityKeys st := by
    unfold entityKeys
    exact List.mem_map.mpr ⟨ce, hmem, hkey⟩
  have h1 : (entityKeys st).count e = 1 := List.count_eq_one_of_mem hnd hmemkey
  calc st.entities.countP (fun ce => ce.astEntity == e)
      = (entityKeys st).countP (fun k => k == e) := by
        unfold entityKeys
        rw [List.countP_map]
        rfl
    _ = (entityKeys st).count e := rfl
    _ = 1 := h1

theorem countP_key_congr {l1 l2 : List CollectorEntity}
    (h : l1.map CollectorEntity.astEntity = l2.map CollectorEntity.astEntity) (e : Nat) :
    l1.countP (fun ce => ce.astEntity == e) = l2.countP (fun ce => ce.astEntity == e) := by
  have h1 : l1.countP (fun ce => ce.astEntity == e) =
      (l1.map CollectorEntity.astEntity).countP (fun k => k == e) := by
    rw [List.countP_map]; rfl
  have h2 : l2.countP (fun ce => ce.astEntity == e) =
      (l2.map CollectorEntity.astEntity).countP (fun k => k == e) := by
    rw [List.countP_map]; rfl
  rw [h1, h2, h]

/-- The second pass of `_makeUniqueNames` only fills in `nameForEmit`: the
entity identity, export names, flags and namespace-import list of every node
are untouched. -/
theorem assignNamesForEmit_core {w : GraphWorld} :
    ∀ {ents : List CollectorEntity} {used : List String} {outs : List CollectorEntity}
      {used' : List String},
      assignNamesForEmit w ents used = .ok (outs, used') →
      outs.map (fun ce => (ce.astEntity, ce.exportNames, ce.consumableViaInheritance,
        ce.astNamespaceImports)) =
      ents.map (fun ce => (ce.astEntity, ce.exportNames, ce.consumableViaInheritance,
        ce.astNamespaceImports)) := by
  intro ents
  induction ents with
  | nil =>
    intro used outs used' h
    rw [assignNamesForEmit] at h
    injection h with h
    injection h with h1 h2
    subst h1
    rfl
  | cons entity rest ih =>
    intro used outs used' h
    rw [assignNamesForEmit] at h
    split at h
    · simp only [bind, Except.bind] at h
      rcases hrec : assignNamesForEmit w rest used with err | ok2
      · rw [hrec] at h; cases h
      · rw [hrec] at h
        obtain ⟨restOut, used2⟩ := ok2
        dsimp only at h
        injection h with h
        injection h with h1 h2
        subst h1
        simp only [List.map_cons]
        rw [ih hrec]
    · split at h
      · cases h
      · simp only [bind, Except.bind] at h
        rcases hrec : assignNamesForEmit w rest (used ++ [_]) with err | ok2
        · rw [hrec] at h; cases h
        · rw [hrec] at h
          obtain ⟨restOut, used2⟩ := ok2
          dsimp only at h
          injection h with h
          injection h with h1 h2
          subst h1
          simp only [List.map_cons]
          rw [ih hrec]

theorem analyze_ok_inv {w : GraphWorld} {st : CollectorState} (h : analyze w = .ok st) :
    ∃ st1 seen1 used ents2 used2,
      buildGraphState w = .ok (st1, seen1) ∧
      collectUsedNames st1.entities [] = .ok used ∧
      assignNamesForEmit w st1.entities used = .ok (ents2, used2) ∧
      st = ⟨sortEntities w ents2⟩ := by
  unfold analyze at h
  simp only [bind, Except.bind] at h
  rcases hb : buildGraphState w with err | ok1
  · rw [hb] at h; cases h
  · rw [hb] at h
    obtain ⟨st1, seen1⟩ := ok1
    dsimp only at h
    unfold makeUniqueNames at h
    simp only [bind, Except.bind] at h
    rcases hc : collectUsedNames st1.entities [] with err | used
    · rw [hc] at h; cases h
    · rw [hc] at h
      dsimp only at h
      rcases ha : assignNamesForEmit w st1.entities used with err | ok2
      · rw [ha] at h; cases h
      · rw [ha] at h
        obtain ⟨ents2, used2⟩ := ok2
        dsimp only at h
        injection h with h
        exact ⟨st1, seen1, used, ents2, used2, rfl, hc, ha, h.symm⟩

theorem sortEntities_perm (w : GraphWorld) (l : List CollectorEntity) :
    (sortEntities w l).Perm l := List.perm_insertionSort (sortKeyLe w) l

end ApiExtractor

namespace ApiExtractor

theorem map_astEntity_of_core {l1 l2 : List CollectorEntity}
    (h : l1.map (fun ce => (ce.astEntity, ce.exportNames, ce.consumableViaInheritance,
        ce.astNamespaceImports)) =
      l2.map (fun ce => (ce.astEntity, ce.exportNames, ce.consumableViaInheritance,
        ce.astNamespaceImports))) :
    l1.map CollectorEntity.astEntity = l2.map CollectorEntity.astEntity := by
  have := congrArg (List.map Prod.fst) h
  simpa [List.map_map, Function.comp] using this

/-- C1 (amended): every entity reachable from the entry module's exports via
a chain of Plain or Inheritance entity references that is a root-level symbol
or a non-symbol entity appears exactly once in the final entity sequence;
revisiting an already-visited entity creates no second node. -/
theorem reachable_entity_installed_exactly_once (w : GraphWorld) (hwf : w.Wf)
    (st : CollectorState) (hok : analyze w = .ok st) (e : Nat) (hreach : Reachable w e)
    (helig : RootEligible w e) :
    st.entities.countP (fun ce => ce.astEntity == e) = 1 := by
  obtain ⟨st1, seen1, used, ents2, used2, hb, hc, ha, hst⟩ := analyze_ok_inv hok
  obtain ⟨hnd, _, _, _⟩ := buildGraphState_facts hwf hb
  obtain ⟨_, hpres⟩ := reachable_visited_and_installed hwf hb e hreach
  have h1 : st1.entities.countP (fun ce => ce.astEntity == e) = 1 :=
    countP_key_eq_one hnd (hpres helig)
  have hkeys := map_astEntity_of_core (assignNamesForEmit_core ha)
  rw [hst]
  show (sortEntities w ents2).countP (fun ce => ce.astEntity == e) = 1
  rw [List.Perm.countP_eq _ (sortEntities_perm w ents2), countP_key_congr hkeys e]
  exact h1

/-- Counterexample world for C1 as stated: the entry export `E` plainly
references the nested symbol `T` (a member of root symbol `S`); `T` is
reachable yet gets no `CollectorEntity`. -/
def nestedReferenceWorld : GraphWorld :=
  { ents := [⟨"E", .astSymbol Option.none [.node [⟨2, .Plain⟩] []]⟩,
             ⟨"S", .astSymbol Option.none []⟩,
             ⟨"T", .astSymbol (Option.some 1) []⟩],
    exportedLocalEntities := [("E", 0)],
    globalNames := [] }

/-- C1 counterexample: entity 2 is reachable from the entry exports via a
Plain reference, yet the finished graph contains no `CollectorEntity` for it
(it appears zero times, not exactly once), because only root-level symbols
receive nodes. -/
theorem reachable_entity_not_installed_counterexample :
    Reachable nestedReferenceWorld 2 ∧
      (analyze nestedReferenceWorld).map
        (fun st => st.entities.countP (fun ce => ce.astEntity == 2)) = .ok 0 := by
  constructor
  · exact @Reachable.ref nestedReferenceWorld 0 ⟨2, .Plain⟩
      (@Reachable.exported nestedReferenceWorld "E" 0 (by decide)) (by decide)
  · decide

/-- Scenario world for the C1 witness: exported `B` extends the undeclared
`A` (the spec's own inheritance scenario). -/
def inheritanceScenarioWorld : GraphWorld :=
  { ents := [⟨"B", .astSymbol Option.none [.node [⟨1, .Inheritance⟩] []]⟩,
             ⟨"A", .astSymbol Option.none []⟩],
    exportedLocalEntities := [("B", 0)],
    globalNames := [] }

/-- Witness for the amended C1 on the inheritance scenario. -/
theorem reachable_entity_installed_exactly_once_witness :
    (analyze inheritanceScenarioWorld).map
      (fun st => st.entities.countP (fun ce => ce.astEntity == 1)) = .ok 1 := by
  have h := reachable_entity_installed_exactly_once inheritanceScenarioWorld
    (by unfold GraphWorld.Wf; decide)
    ⟨[⟨1, [], true, Option.some "A", []⟩, ⟨0, ["B"], false, Option.some "B", []⟩]⟩
    (by decide) 1
    (@Reachable.ref inheritanceScenarioWorld 0 ⟨1, .Inheritance⟩
      (@Reachable.exported inheritanceScenarioWorld "B" 0 (by decide)) (by decide))
    (by unfold RootEligible; decide)
  rw [show analyze inheritanceScenarioWorld = .ok
    ⟨[⟨1, [], true, Option.some "A", []⟩, ⟨0, ["B"], false, Option.some "B", []⟩]⟩ from by decide]
  rw [Except.map]
  rw [h]

end ApiExtractor

namespace ApiExtractor

theorem mem_key_eq_of_nodup {st : CollectorState} (hnd : NodupKeys st) {x : Nat}
    {ce : CollectorEntity} (hfind : findEntity st x = Option.some ce) :
    ∀ ce1 ∈ st.entities, ce1.astEntity = x → ce1 = ce := by
  intro ce1 hmem1 hkey1
  have hmem := findEntity_mem hfind
  have hkey := findEntity_key hfind
  exact List.inj_on_of_nodup_map hnd hmem1 hmem (by rw [hkey1, hkey])

/-- Every entity of the final (renamed and sorted) array corresponds to an
entity of the graph-build state with the same identity, export names,
consumable-via-inheritance flag and namespace imports. -/
theorem final_entity_core {w : GraphWorld} {st : CollectorState}
    (hok : analyze w = .ok st) :
    ∃ st1 seen1, buildGraphState w = .ok (st1, seen1) ∧
      ∀ ce ∈ st.entities, ∃ ce1 ∈ st1.entities,
        ce1.astEntity = ce.astEntity ∧ ce1.exportNames = ce.exportNames ∧
        ce1.consumableViaInheritance = ce.consumableViaInheritance ∧
        ce1.astNamespaceImports = ce.astNamespaceImports := by
  obtain ⟨st1, seen1, used, ents2, used2, hb, hc, ha, hst⟩ := analyze_ok_inv hok
  refine ⟨st1, seen1, hb, ?_⟩
  intro ce hmem
  rw [hst] at hmem
  have hmem2 : ce ∈ ents2 := (sortEntities_perm w ents2).mem_iff.mp hmem
  have hquad : (ce.astEntity, ce.exportNames, ce.consumableViaInheritance,
      ce.astNamespaceImports) ∈ ents2.map (fun ce => (ce.astEntity, ce.exportNames,
        ce.consumableViaInheritance, ce.astNamespaceImports)) :=
    List.mem_map.mpr ⟨ce, hmem2, rfl⟩
  rw [assignNamesForEmit_core ha] at hquad
  obtain ⟨ce1, hmem1, heq⟩ := List.mem_map.mp hquad
  injection heq with h1 heq
  injection heq with h2 heq
  injection heq with h3 h4
  exact ⟨ce1, hmem1, h1, h2, h3, h4⟩

/-- First half of the amended C2: a root-eligible target of an inheritance
reference on an entry-exported symbol ends up flagged consumable via
inheritance. -/
theorem inheritance_ref_from_export_flags_cvi (w : GraphWorld) (hwf : w.Wf)
    (st : CollectorState) (hok : analyze w = .ok st) (a x : Nat) (nm : String)
    (hexp : (nm, a) ∈ w.exportedLocalEntities)
    (href : (⟨x, .Inheritance⟩ : EntityRef) ∈ w.symbolReferences a)
    (helig : RootEligible w x) :
    ∀ ce ∈ st.entities, ce.astEntity = x → ce.consumableViaInheritance = true := by
  obtain ⟨st1, seen1, hb, hcore⟩ := final_entity_core hok
  obtain ⟨hnd, hinv, hmemexp, hobl⟩ := buildGraphState_facts hwf hb
  have haseen : a ∈ seen1 := hmemexp (nm, a) hexp
  obtain ⟨_, hpres⟩ := hobl a haseen (by intro hc; cases hc) ⟨x, .Inheritance⟩ href
  obtain ⟨ce0, hce0, hcvi0⟩ := hpres helig
  have hcvi : ce0.consumableViaInheritance = true := hcvi0 ⟨nm, hexp⟩ rfl
  intro ce hmem hkey
  obtain ⟨ce1, hmem1, h1, _, h3, _⟩ := hcore ce hmem
  have : ce1 = ce0 := mem_key_eq_of_nodup hnd hce0 ce1 hmem1 (by rw [h1, hkey])
  rw [← h3, this, hcvi]

/-- An entity never targeted by any inheritance reference keeps the
consumable-via-inheritance flag unset. -/
def CviFalse (x : Nat) (st : CollectorState) : Prop :=
  ∀ ce ∈ st.entities, ce.astEntity = x → ce.consumableViaInheritance = false

theorem cviFalse_updateEntity_preserve {x y : Nat} {st : CollectorState}
    {f : CollectorEntity → CollectorEntity} (hf : ∀ ce, (f ce).astEntity = ce.astEntity)
    (hcvi : ∀ ce, (f ce).consumableViaInheritance = ce.consumableViaInheritance)
    (h : CviFalse x st) : CviFalse x (updateEntity st y f) := by
  intro ce hmem hkey
  obtain ⟨ce0, hmem0, heq⟩ := List.mem_map.mp hmem
  by_cases h0 : (ce0.astEntity == y) = true
  · rw [if_pos h0] at heq
    subst heq
    rw [hcvi ce0]
    exact h ce0 hmem0 (by rw [← hf ce0]; exact hkey)
  · rw [if_neg h0] at heq
    subst heq
    exact h ce0 hmem0 hkey

theorem cviFalse_updateEntity_ne {x y : Nat} {st : CollectorState}
    {f : CollectorEntity → CollectorEntity} (hf : ∀ ce, (f ce).astEntity = ce.astEntity)
    (hne : y ≠ x) (h : CviFalse x st) : CviFalse x (updateEntity st y f) := by
  intro ce hmem hkey
  obtain ⟨ce0, hmem0, heq⟩ := List.mem_map.mp hmem
  by_cases h0 : (ce0.astEntity == y) = true
  · exfalso
    rw [if_pos h0] at heq
    have hy : ce.astEntity = y := by
      rw [← heq, hf ce0]
      simpa using h0
    exact hne (hy.symm.trans hkey)
  · rw [if_neg h0] at heq
    subst heq
    exact h ce0 hmem0 hkey

theorem cviFalse_createCollectorEntity {x y : Nat} {st : CollectorState}
    (nm : Option String) (cvi : Bool) (hguard : cvi = true → y ≠ x)
    (h : CviFalse x st) : CviFalse x (createCollectorEntity st y nm cvi) := by
  rw [createCollectorEntity_eq]
  have h1 : CviFalse x (if (findEntity st y).isSome then st
      else { entities := st.entities ++ [CollectorEntity.new y] }) := by
    split
    · exact h
    · intro ce hmem hkey
      rcases List.mem_append.mp hmem with hold | hnew
      · exact h ce hold hkey
      · rw [List.mem_singleton] at hnew
        subst hnew
        rfl
  have h2 : CviFalse x (match nm with
      | Option.some n => updateEntity (if (findEntity st y).isSome then st
          else { entities := st.entities ++ [CollectorEntity.new y] }) y
          (fun ce => ce.addExportName n)
      | Option.none => (if (findEntity st y).isSome then st
          else { entities := st.entities ++ [CollectorEntity.new y] })) := by
    rcases nm with _ | n
    · exact h1
    · exact cviFalse_updateEntity_preserve (fun ce => addExportName_astEntity ce n)
        (fun ce => by unfold CollectorEntity.addExportName; split <;> rfl) h1
  rcases hcvi : cvi with _ | _
  · exact h2
  · dsimp only
    rw [if_pos rfl]
    exact cviFalse_updateEntity_ne (fun ce => rfl) (hguard hcvi) h2

end ApiExtractor

namespace ApiExtractor

/-- Preservation of `CviFalse` through one traversal call, for a target `x`
that no reference in the world reaches through an inheritance reference. -/
def TraverseCviFalse (w : GraphWorld) (x : Nat) (fuel : Nat) : Prop :=
  ∀ e st seen st' seen',
    createEntityForIndirectReferences w fuel e st seen = .ok (st', seen') →
    CviFalse x st → CviFalse x st'

theorem processReferences_cviFalse (w : GraphWorld) (x : Nat) (fuel : Nat)
    (hT : TraverseCviFalse w x fuel) :
    ∀ (e : Nat) (rs : List EntityRef) (st : CollectorState) (seen : List Nat)
      (st' : CollectorState) (seen' : List Nat),
      (∀ r ∈ rs, r.astEntity = x → r.kind = AstEntityReferenceKind.Plain) →
      processReferences w (createEntityForIndirectReferences w fuel) e rs st seen =
        .ok (st', seen') →
      CviFalse x st → CviFalse x st' := by
  intro e rs
  induction rs with
  | nil =>
    intro st seen st' seen' _ h hcf
    rw [processReferences] at h
    injection h with h
    injection h with h1 h2
    subst h1
    exact hcf
  | cons r rs ih =>
    intro st seen st' seen' hplain h hcf
    rw [processReferences] at h
    rcases hfind : findEntity st e with _ | entity
    · rw [hfind] at h; cases h
    · rw [hfind] at h
      simp only [bind, Except.bind] at h
      rcases hrec : createEntityForIndirectReferences w fuel r.astEntity
          (match w.entityKind r.astEntity with
           | .astSymbol parentAstSymbol _ =>
             if parentAstSymbol = Option.none then
               createCollectorEntity st r.astEntity Option.none
                 (entity.consumable && r.kind == AstEntityReferenceKind.Inheritance)
             else st
           | _ => createCollectorEntity st r.astEntity Option.none
               (entity.consumable && r.kind == AstEntityReferenceKind.Inheritance)) seen
        with err | ok2
      · rw [hrec] at h; cases h
      · rw [hrec] at h
        obtain ⟨st2, seen2⟩ := ok2
        dsimp only at h
        have hguard : (entity.consumable && r.kind == AstEntityReferenceKind.Inheritance) = true →
            r.astEntity ≠ x := by
          intro hflag hx
          have hk := hplain r (List.mem_cons_self r rs) hx
          rw [hk] at hflag
          simp at hflag
        have hcf1 : CviFalse x (match w.entityKind r.astEntity with
            | .astSymbol parentAstSymbol _ =>
              if parentAstSymbol = Option.none then
                createCollectorEntity st r.astEntity Option.none
                  (entity.consumable && r.kind == AstEntityReferenceKind.Inheritance)
              else st
            | _ => createCollectorEntity st r.astEntity Option.none
                (entity.consumable && r.kind == AstEntityReferenceKind.Inheritance)) := by
          cases hkind : w.entityKind r.astEntity with
          | astSymbol p decls =>
            dsimp only
            split
            · exact cviFalse_createCollectorEntity Option.none _ hguard hcf
            · exact hcf
          | astNamespaceImport exps =>
            exact cviFalse_createCollectorEntity Option.none _ hguard hcf
          | astImport =>
            exact cviFalse_createCollectorEntity Option.none _ hguard hcf
        exact ih st2 seen2 st' seen'
          (fun r' hr' => hplain r' (List.mem_cons_of_mem _ hr')) h (hT r.astEntity _ seen st2 seen2 hrec hcf1)

theorem processNamespaceExports_cviFalse (w : GraphWorld) (x : Nat) (fuel : Nat)
    (hT : TraverseCviFalse w x fuel) :
    ∀ (nsE : Nat) (es : List Nat) (st : CollectorState) (seen : List Nat)
      (st' : CollectorState) (seen' : List Nat),
      processNamespaceExports w (createEntityForIndirectReferences w fuel) nsE es st seen =
        .ok (st', seen') →
      CviFalse x st → CviFalse x st' := by
  intro nsE es
  induction es with
  | nil =>
    intro st seen st' seen' h hcf
    rw [processNamespaceExports] at h
    injection h with h
    injection h with h1 h2
    subst h1
    exact hcf
  | cons y es ih =>
    intro st seen st' seen' h hcf
    rw [processNamespaceExports] at h
    simp only [bind, Except.bind] at h
    rcases hrec : createEntityForIndirectReferences w fuel y
        (updateEntity (createCollectorEntity st y Option.none)
          y (fun ce => ce.addAstNamespaceImports nsE)) seen with err | ok2
    · rw [hrec] at h; cases h
    · rw [hrec] at h
      obtain ⟨st2, seen2⟩ := ok2
      dsimp only at h
      have hcf1 : CviFalse x (updateEntity (createCollectorEntity st y Option.none)
          y (fun ce => ce.addAstNamespaceImports nsE)) :=
        cviFalse_updateEntity_preserve (fun ce => rfl) (fun ce => rfl)
          (cviFalse_createCollectorEntity Option.none false (by intro hc; cases hc) hcf)
      exact ih st2 seen2 st' seen' h (hT y _ seen st2 seen2 hrec hcf1)

theorem traverseCviFalse (w : GraphWorld) (x : Nat)
    (hplain : ∀ (i : Nat), ∀ r ∈ w.symbolReferences i, r.astEntity = x →
      r.kind = AstEntityReferenceKind.Plain) :
    ∀ fuel, TraverseCviFalse w x fuel := by
  intro fuel
  induction fuel with
  | zero =>
    intro e st seen st' seen' h _
    rw [createEntityForIndirectReferences] at h
    cases h
  | succ fuel ih =>
    intro e st seen st' seen' h hcf
    rw [createEntityForIndirectReferences] at h
    by_cases hmem : e ∈ seen
    · rw [if_pos hmem] at h
      injection h with h
      injection h with h1 h2
      subst h1
      exact hcf
    · rw [if_neg hmem] at h
      cases hkind : w.entityKind e with
      | astSymbol p decls =>
        rw [hkind] at h
        exact processReferences_cviFalse w x fuel ih e
          (DeclTree.allReferencesOfForest decls) st (e :: seen) st' seen'
          (fun r hr => hplain e r (by rw [entityKind_symbolReferences hkind]; exact hr)) h hcf
      | astNamespaceImport exps =>
        rw [hkind] at h
        exact processNamespaceExports_cviFalse w x fuel ih e exps st (e :: seen) st' seen' h hcf
      | astImport =>
        rw [hkind] at h
        injection h with h
        injection h with h1 h2
        subst h1
        exact hcf

theorem registerExports_cviFalse {x : Nat} {exps : List (String × Nat)} {st : CollectorState}
    (h : CviFalse x st) : CviFalse x (registerExports exps st) := by
  induction exps generalizing st with
  | nil => exact h
  | cons p rest ih =>
    exact ih (cviFalse_createCollectorEntity (Option.some p.1) false (by intro hc; cases hc) h)

theorem traverseExported_cviFalse (w : GraphWorld) (x : Nat)
    (hplain : ∀ (i : Nat), ∀ r ∈ w.symbolReferences i, r.astEntity = x →
      r.kind = AstEntityReferenceKind.Plain) (fuel : Nat) :
    ∀ (exps : List (String × Nat)) (st : CollectorState) (seen : List Nat)
      (st' : CollectorState) (seen' : List Nat),
      traverseExportedEntities w fuel exps st seen = .ok (st', seen') →
      CviFalse x st → CviFalse x st' := by
  intro exps
  induction exps with
  | nil =>
    intro st seen st' seen' h hcf
    rw [traverseExportedEntities] at h
    injection h with h
    injection h with h1 h2
    subst h1
    exact hcf
  | cons q exps ih =>
    intro st seen st' seen' h hcf
    rw [traverseExportedEntities] at h
    simp only [bind, Except.bind] at h
    rcases hrec : createEntityForIndirectReferences w fuel q.2 st seen with err | ok2
    · rw [hrec] at h; cases h
    · rw [hrec] at h
      obtain ⟨st2, seen2⟩ := ok2
      dsimp only at h
      exact ih st2 seen2 st' seen' h
        (traverseCviFalse w x hplain fuel q.2 st seen st2 seen2 hrec hcf)

/-- Second half of the amended C2: an entity only ever referenced through
Plain references keeps `consumableViaInheritance = false`. -/
theorem plain_only_target_not_cvi (w : GraphWorld) (st : CollectorState)
    (hok : analyze w = .ok st) (x : Nat)
    (hplain : ∀ (i : Nat), ∀ r ∈ w.symbolReferences i, r.astEntity = x →
      r.kind = AstEntityReferenceKind.Plain) :
    ∀ ce ∈ st.entities, ce.astEntity = x → ce.consumableViaInheritance = false := by
  obtain ⟨st1, seen1, hb, hcore⟩ := final_entity_core hok
  have hcf1 : CviFalse x st1 := by
    rw [buildGraphState_eq] at hb
    exact traverseExported_cviFalse w x hplain (w.numEntities + 1)
      w.exportedLocalEntities (registerExports w.exportedLocalEntities ⟨[]⟩) [] st1 seen1 hb
      (registerExports_cviFalse (by intro ce hmem; cases hmem))
  intro ce hmem hkey
  obtain ⟨ce1, hmem1, h1, _, h3, _⟩ := hcore ce hmem
  rw [← h3]
  exact hcf1 ce1 hmem1 (by rw [h1, hkey])

end ApiExtractor

namespace ApiExtractor

/-- C2 (amended): after the graph build, (1) a root-eligible entity targeted
by an Inheritance reference of an entry-exported symbol ends up with
`consumableViaInheritance = true`, and (2) an entity only ever referenced
through Plain references ends up with `consumableViaInheritance = false`.
(The flag reflects consumability of the referencing entity at the moment its
reference is expanded; see the counterexample for the difference with the
original claim.) -/
theorem consumable_via_inheritance_flagging :
    (∀ (w : GraphWorld), w.Wf → ∀ (st : CollectorState), analyze w = .ok st →
      ∀ (a x : Nat) (nm : String), (nm, a) ∈ w.exportedLocalEntities →
        (⟨x, .Inheritance⟩ : EntityRef) ∈ w.symbolReferences a → RootEligible w x →
        ∀ ce ∈ st.entities, ce.astEntity = x → ce.consumableViaInheritance = true) ∧
    (∀ (w : GraphWorld) (st : CollectorState), analyze w = .ok st → ∀ (x : Nat),
      (∀ (i : Nat), ∀ r ∈ w.symbolReferences i, r.astEntity = x →
        r.kind = AstEntityReferenceKind.Plain) →
      ∀ ce ∈ st.entities, ce.astEntity = x → ce.consumableViaInheritance = false) :=
  ⟨inheritance_ref_from_export_flags_cvi, plain_only_target_not_cvi⟩

/-- World showing the order-dependence of the consumable check: `E1` and `E2`
are exported; `E1` plainly references `A` (entity 2), which is expanded first
while not yet consumable; `A` inheritance-references `X` (entity 3); later
`E2` inheritance-references `A`, making `A` consumable - but `X` is never
re-expanded. -/
def delayedConsumableWorld : GraphWorld :=
  { ents := [⟨"E1", .astSymbol Option.none [.node [⟨2, .Plain⟩] []]⟩,
             ⟨"E2", .astSymbol Option.none [.node [⟨2, .Inheritance⟩] []]⟩,
             ⟨"A", .astSymbol Option.none [.node [⟨3, .Inheritance⟩] []]⟩,
             ⟨"X", .astSymbol Option.none []⟩],
    exportedLocalEntities := [("E1", 0), ("E2", 1)],
    globalNames := [] }

/-- C2 counterexample: in `delayedConsumableWorld`, entity 3 (`X`) has zero
export names and is reached only via the one Inheritance reference from
entity 2 (`A`), and after the build `A` is consumable
(`consumableViaInheritance = true`, so `exported || consumableViaInheritance`
holds) - yet `X.consumableViaInheritance` is `false`, because `A` was not yet
consumable when its references were expanded. -/
theorem consumable_via_inheritance_flagging_counterexample :
    delayedConsumableWorld.symbolReferences 0 = [⟨2, .Plain⟩] ∧
    delayedConsumableWorld.symbolReferences 1 = [⟨2, .Inheritance⟩] ∧
    delayedConsumableWorld.symbolReferences 2 = [⟨3, .Inheritance⟩] ∧
    delayedConsumableWorld.symbolReferences 3 = [] ∧
    (analyze delayedConsumableWorld).map (fun st => st.entities.map
      (fun ce => (ce.astEntity, ce.exportNames, ce.consumableViaInheritance))) =
      .ok [(2, [], true), (0, ["E1"], false), (1, ["E2"], false), (3, [], false)] := by
  refine ⟨by decide, by decide, by decide, by decide, by decide⟩

/-- World with a single Plain reference, for the second half of the C2
witness. -/
def plainRefWorld : GraphWorld :=
  { ents := [⟨"E", .astSymbol Option.none [.node [⟨1, .Plain⟩] []]⟩,
             ⟨"A", .astSymbol Option.none []⟩],
    exportedLocalEntities := [("E", 0)],
    globalNames := [] }

/-- Witness for the amended C2 on the two concrete scenarios. -/
theorem consumable_via_inheritance_flagging_witness :
    CollectorEntity.consumableViaInheritance ⟨1, [], true, Option.some "A", []⟩ = true ∧
    CollectorEntity.consumableViaInheritance ⟨1, [], false, Option.some "A", []⟩ = false :=
  ⟨consumable_via_inheritance_flagging.1 inheritanceScenarioWorld
      (by unfold GraphWorld.Wf; decide)
      ⟨[⟨1, [], true, Option.some "A", []⟩, ⟨0, ["B"], false, Option.some "B", []⟩]⟩
      (by decide) 0 1 "B" (by decide) (by decide) (by unfold RootEligible; decide)
      ⟨1, [], true, Option.some "A", []⟩ (by decide) rfl,
   consumable_via_inheritance_flagging.2 plainRefWorld
      ⟨[⟨1, [], false, Option.some "A", []⟩, ⟨0, ["E"], false, Option.some "E", []⟩]⟩
      (by decide) 1
      (by
        intro i r hr htgt
        match i with
        | 0 =>
          rw [show plainRefWorld.symbolReferences 0 = [⟨1, .Plain⟩] from by decide] at hr
          rw [List.mem_singleton] at hr
          subst hr
          rfl
        | 1 =>
          rw [show plainRefWorld.symbolReferences 1 = [] from by decide] at hr
          cases hr
        | (n + 2) =>
          rw [symbolReferences_of_ge (by
            show plainRefWorld.numEntities ≤ n + 2
            unfold GraphWorld.numEntities plainRefWorld
            simp)] at hr
          cases hr)
      ⟨1, [], false, Option.some "A", []⟩ (by decide) rfl⟩

end ApiExtractor

namespace ApiExtractor

theorem chooseNameForEmit_spec {usedNames globalNames : List String} {ideal : String} :
    ∀ {fuel counter : Nat} {nm : String},
      chooseNameForEmit usedNames globalNames ideal fuel counter = Option.some nm →
      nm ≠ "default" ∧ nm ∉ usedNames ∧ nm ∉ globalNames := by
  intro fuel
  induction fuel with
  | zero =>
    intro counter nm h
    rw [chooseNameForEmit] at h
    cases h
  | succ fuel ih =>
    intro counter nm h
    rw [chooseNameForEmit] at h
    generalize hc : (if counter ≤ 1 then ideal
      else ideal ++ "_" ++ String.mk (Nat.toDigits 10 counter)) = cand at h
    split at h
    · exact ih h
    · rename_i hcond
      injection h with h
      subst h
      rw [Bool.or_eq_true, Bool.or_eq_true] at hcond
      push_neg at hcond
      refine ⟨?_, ?_, ?_⟩
      · intro hd
        exact hcond.1.1 (by rw [hd]; rfl)
      · intro hmem
        exact hcond.1.2 (by
          rw [List.contains_eq_any_beq, List.any_eq_true]
          exact ⟨_, hmem, by simp⟩)
      · intro hmem
        exact hcond.2 (by
          rw [List.contains_eq_any_beq, List.any_eq_true]
          exact ⟨_, hmem, by simp⟩)

theorem addExportNamesToUsed_spec :
    ∀ {nms usedNames usedNames' : List String},
      addExportNamesToUsed nms usedNames = .ok usedNames' →
      usedNames' = usedNames ++ nms ∧ (usedNames.Nodup → usedNames'.Nodup) := by
  intro nms
  induction nms with
  | nil =>
    intro used used' h
    rw [addExportNamesToUsed] at h
    injection h with h
    subst h
    exact ⟨by simp, id⟩
  | cons nm nms ih =>
    intro used used' h
    rw [addExportNamesToUsed] at h
    split at h
    · cases h
    · rename_i hnotmem
      obtain ⟨heq, hnd⟩ := ih h
      refine ⟨by rw [heq]; simp, ?_⟩
      intro hu
      apply hnd
      simp only [List.nodup_append, List.nodup_singleton]
      exact ⟨hu, by simp, by simpa using hnotmem⟩

/-- Concatenated export names of a list of entities, in order. -/
def flatExportNames : List CollectorEntity → List String
  | [] => []
  | e :: rest => e.exportNames ++ flatExportNames rest

theorem collectUsedNames_spec :
    ∀ {ents : List CollectorEntity} {usedNames usedNames' : List String},
      collectUsedNames ents usedNames = .ok usedNames' →
      usedNames' = usedNames ++ flatExportNames ents ∧
        (usedNames.Nodup → usedNames'.Nodup) := by
  intro ents
  induction ents with
  | nil =>
    intro used used' h
    rw [collectUsedNames] at h
    injection h with h
    subst h
    exact ⟨by simp [flatExportNames], id⟩
  | cons e rest ih =>
    intro used used' h
    rw [collectUsedNames] at h
    simp only [bind, Except.bind] at h
    rcases hadd : addExportNamesToUsed e.exportNames used with err | used2
    · rw [hadd] at h; cases h
    · rw [hadd] at h
      dsimp only at h
      obtain ⟨heq2, hnd2⟩ := addExportNamesToUsed_spec hadd
      obtain ⟨heq3, hnd3⟩ := ih h
      refine ⟨?_, fun hu => hnd3 (hnd2 hu)⟩
      rw [heq3, heq2, flatExportNames, List.append_assoc]

end ApiExtractor

namespace ApiExtractor

theorem string_mem_of_contains {l : List String} {s : String} (h : l.contains s = true) :
    s ∈ l := by
  rw [List.contains_eq_any_beq, List.any_eq_true] at h
  obtain ⟨x, hx, hbeq⟩ := h
  rw [beq_iff_eq] at hbeq
  subst hbeq
  exact hx

theorem mem_flatExportNames {ents : List CollectorEntity} {e : CollectorEntity}
    (hmem : e ∈ ents) {nm : String} (hnm : nm ∈ e.exportNames) :
    nm ∈ flatExportNames ents := by
  induction ents with
  | nil => cases hmem
  | cons a rest ih =>
    rw [flatExportNames, List.mem_append]
    rcases List.mem_cons.mp hmem with rfl | hmem2
    · exact Or.inl hnm
    · exact Or.inr (ih hmem2)

theorem assignNames_exportNames_sub {w : GraphWorld} {ents : List CollectorEntity}
    {used : List String} {outs : List CollectorEntity} {used' : List String}
    (h : assignNamesForEmit w ents used = .ok (outs, used')) :
    ∀ o ∈ outs, ∀ nm ∈ o.exportNames, nm ∈ flatExportNames ents := by
  intro o hmem nm hnm
  have hquad : (o.astEntity, o.exportNames, o.consumableViaInheritance,
      o.astNamespaceImports) ∈ outs.map (fun ce => (ce.astEntity, ce.exportNames,
        ce.consumableViaInheritance, ce.astNamespaceImports)) :=
    List.mem_map.mpr ⟨o, hmem, rfl⟩
  rw [assignNamesForEmit_core h] at hquad
  obtain ⟨e, hmem2, heq⟩ := List.mem_map.mp hquad
  injection heq with h1 heq
  injection heq with h2 heq
  exact mem_flatExportNames hmem2 (by rw [h2]; exact hnm)

theorem assignNamesForEmit_names {w : GraphWorld} :
    ∀ {ents : List CollectorEntity} {used : List String} {outs : List CollectorEntity}
      {used' : List String},
      (∀ nm ∈ flatExportNames ents, nm ∈ used) →
      (flatExportNames ents).Nodup →
      assignNamesForEmit w ents used = .ok (outs, used') →
      (∀ o ∈ outs, ∃ nm, o.nameForEmit = Option.some nm ∧ nm ∈ used' ∧
        (nm ∈ o.exportNames ∨ nm ∉ used)) ∧
      List.Pairwise (fun a b => a.nameForEmit ≠ b.nameForEmit) outs ∧
      (∀ nm ∈ used, nm ∈ used') := by
  intro ents
  induction ents with
  | nil =>
    intro used outs used' _ _ h
    rw [assignNamesForEmit] at h
    injection h with h
    injection h with h1 h2
    subst h1; subst h2
    exact ⟨(by intro o ho; cases ho), List.Pairwise.nil, fun nm hm => hm⟩
  | cons entity rest ih =>
    intro used outs used' hsub hnd h
    have hsubrest : ∀ nm ∈ flatExportNames rest, nm ∈ used := by
      intro nm hnm
      exact hsub nm (by rw [flatExportNames, List.mem_append]; exact Or.inr hnm)
    have hndrest : (flatExportNames rest).Nodup := by
      rw [flatExportNames] at hnd
      exact (List.nodup_append.mp hnd).2.1
    have hdisj : ∀ nm ∈ entity.exportNames, nm ∉ flatExportNames rest := by
      rw [flatExportNames] at hnd
      intro nm hnm hnm2
      exact (List.nodup_append.mp hnd).2.2 hnm hnm2
    rw [assignNamesForEmit] at h
    split at h
    · -- ideal name accepted as-is
      rename_i hcond
      rw [Bool.and_eq_true, Bool.and_eq_true] at hcond
      have hin : idealNameForEmitOf w entity ∈ entity.exportNames :=
        string_mem_of_contains hcond.1.1
      simp only [bind, Except.bind] at h
      rcases hrec : assignNamesForEmit w rest used with err | ok2
      · rw [hrec] at h; cases h
      · rw [hrec] at h
        obtain ⟨restOut, used2⟩ := ok2
        dsimp only at h
        injection h with h
        injection h with h1 h2
        subst h1; subst h2
        obtain ⟨hall, hpw, husub⟩ := ih hsubrest hndrest hrec
        have hheadused : idealNameForEmitOf w entity ∈ used2 :=
          husub _ (hsub _ (by
            rw [flatExportNames, List.mem_append]
            exact Or.inl hin))
        refine ⟨?_, ?_, husub⟩
        · intro o ho
          rcases List.mem_cons.mp ho with rfl | ho2
          · exact ⟨idealNameForEmitOf w entity, rfl, hheadused, Or.inl hin⟩
          · exact hall o ho2
        · rw [List.pairwise_cons]
          refine ⟨?_, hpw⟩
          intro o ho
          obtain ⟨nmo, hnmo, _, hcase⟩ := hall o ho
          simp only [hnmo]
          intro hcontra
          injection hcontra with hcontra
          rcases hcase with hexp | hnotused
          · have hmemflat : nmo ∈ flatExportNames rest :=
              assignNames_exportNames_sub hrec o ho nmo hexp
            rw [← hcontra] at hmemflat
            exact hdisj _ hin hmemflat
          · exact hnotused (by
              rw [← hcontra]
              exact hsub _ (by
                rw [flatExportNames, List.mem_append]
                exact Or.inl hin))
    · -- generate a fresh suffixed name
      rcases hchoose : chooseNameForEmit used w.globalNames (idealNameForEmitOf w entity)
          (used.length + w.globalNames.length + 2) 1 with _ | nm
      · rw [hchoose] at h; cases h
      · rw [hchoose] at h
        obtain ⟨hnmdef, hnmused, hnmglob⟩ := chooseNameForEmit_spec hchoose
        simp only [bind, Except.bind] at h
        rcases hrec : assignNamesForEmit w rest (used ++ [nm]) with err | ok2
        · rw [hrec] at h; cases h
        · rw [hrec] at h
          obtain ⟨restOut, used2⟩ := ok2
          dsimp only at h
          injection h with h
          injection h with h1 h2
          subst h1; subst h2
          have hsubrest2 : ∀ x ∈ flatExportNames rest, x ∈ used ++ [nm] := by
            intro x hx
            rw [List.mem_append]
            exact Or.inl (hsubrest x hx)
          obtain ⟨hall, hpw, husub⟩ := ih hsubrest2 hndrest hrec
          refine ⟨?_, ?_, ?_⟩
          · intro o ho
            rcases List.mem_cons.mp ho with rfl | ho2
            · exact ⟨nm, rfl, husub nm (by rw [List.mem_append]; exact Or.inr (by simp)),
                Or.inr hnmused⟩
            · obtain ⟨nmo, hnmo, hmemo, hcase⟩ := hall o ho2
              refine ⟨nmo, hnmo, hmemo, ?_⟩
              rcases hcase with hexp | hnot
              · exact Or.inl hexp
              · exact Or.inr (fun hu => hnot (by rw [List.mem_append]; exact Or.inl hu))
          · rw [List.pairwise_cons]
            refine ⟨?_, hpw⟩
            intro o ho
            obtain ⟨nmo, hnmo, _, hcase⟩ := hall o ho
            simp only [hnmo]
            intro hcontra
            injection hcontra with hcontra
            rcases hcase with hexp | hnotused
            · have : nmo ∈ used := hsubrest nmo (assignNames_exportNames_sub hrec o ho nmo hexp)
              rw [← hcontra] at this
              exact hnmused this
            · exact hnotused (by
                rw [← hcontra, List.mem_append]
                exact Or.inr (by simp))
          · intro x hx
            exact husub x (by rw [List.mem_append]; exact Or.inl hx)

end ApiExtractor

namespace ApiExtractor

theorem idealNameForEmitOf_single {w : GraphWorld} {entity : CollectorEntity} {s : String}
    (hexp : entity.exportNames = [s]) (hdef : s ≠ "default")
    (hdot : s.data.contains '.' = false) : idealNameForEmitOf w entity = s := by
  unfold idealNameForEmitOf CollectorEntity.singleExportName
  rw [hexp]
  dsimp only
  rw [if_neg hdef, if_neg (by rw [hdot]; exact Bool.false_ne_true)]

theorem assignNamesForEmit_singleExport {w : GraphWorld} :
    ∀ {ents : List CollectorEntity} {used : List String} {outs : List CollectorEntity}
      {used' : List String},
      assignNamesForEmit w ents used = .ok (outs, used') →
      ∀ o ∈ outs, ∀ s : String, o.exportNames = [s] → s ∉ w.globalNames →
        s ≠ "default" → s.data.contains '.' = false → o.nameForEmit = Option.some s := by
  intro ents
  induction ents with
  | nil =>
    intro used outs used' h o ho
    rw [assignNamesForEmit] at h
    injection h with h
    injection h with h1 h2
    subst h1
    cases ho
  | cons entity rest ih =>
    intro used outs used' h o ho s hexp hglob hdef hdot
    rw [assignNamesForEmit] at h
    split at h
    · rename_i hcond
      simp only [bind, Except.bind] at h
      rcases hrec : assignNamesForEmit w rest used with err | ok2
      · rw [hrec] at h; cases h
      · rw [hrec] at h
        obtain ⟨restOut, used2⟩ := ok2
        dsimp only at h
        injection h with h
        injection h with h1 h2
        subst h1
        rcases List.mem_cons.mp ho with rfl | ho2
        · show Option.some (idealNameForEmitOf w entity) = Option.some s
          rw [idealNameForEmitOf_single (show entity.exportNames = [s] from hexp) hdef hdot]
        · exact ih hrec o ho2 s hexp hglob hdef hdot
    · rename_i hcond
      -- with a sole well-behaved export name the as-is branch must have fired
      rcases hchoose : chooseNameForEmit used w.globalNames (idealNameForEmitOf w entity)
          (used.length + w.globalNames.length + 2) 1 with _ | nm
      · rw [hchoose] at h; cases h
      · rw [hchoose] at h
        simp only [bind, Except.bind] at h
        rcases hrec : assignNamesForEmit w rest (used ++ [nm]) with err | ok2
        · rw [hrec] at h; cases h
        · rw [hrec] at h
          obtain ⟨restOut, used2⟩ := ok2
          dsimp only at h
          injection h with h
          injection h with h1 h2
          subst h1
          rcases List.mem_cons.mp ho with rfl | ho2
          · exfalso
            apply hcond
            have hexp2 : entity.exportNames = [s] := hexp
            rw [idealNameForEmitOf_single hexp2 hdef hdot]
            rw [Bool.and_eq_true, Bool.and_eq_true]
            refine ⟨⟨?_, ?_⟩, ?_⟩
            · rw [hexp2]
              simp [List.contains_eq_any_beq]
            · rcases hc : w.globalNames.contains s with _ | _
              · rfl
              · exact absurd (string_mem_of_contains hc) hglob
            · rw [bne_iff_ne]
              exact hdef
          · exact ih hrec o ho2 s hexp hglob hdef hdot

/-- The two-alias scenario: `class X` exported as both `P` and `Q`. -/
def twoAliasWorld : GraphWorld :=
  { ents := [⟨"X", .astSymbol Option.none []⟩],
    exportedLocalEntities := [("P", 0), ("Q", 0)],
    globalNames := [] }

/-- C3: after `_makeUniqueNames` (1) all entities carry pairwise distinct
emission names, (2) an entity whose sole export name avoids the reserved
names (the globals, the literal `default`, and qualified dotted names, which
the front end never produces as export names) is emitted under that export
name, and (3) in the two-alias scenario `export { X as P, X as Q }` the one
collector entity has export names `P, Q` and is emitted as `X`. -/
theorem unique_emission_names :
    (∀ (w : GraphWorld) (st : CollectorState), analyze w = .ok st →
      List.Pairwise (fun a b => a.nameForEmit ≠ b.nameForEmit) st.entities) ∧
    (∀ (w : GraphWorld) (st : CollectorState), analyze w = .ok st →
      ∀ ce ∈ st.entities, ∀ s : String, ce.exportNames = [s] → s ∉ w.globalNames →
        s ≠ "default" → s.data.contains '.' = false → ce.nameForEmit = Option.some s) ∧
    (analyze twoAliasWorld).map (fun st => st.entities.map
      (fun ce => (ce.exportNames, ce.nameForEmit))) = .ok [(["P", "Q"], Option.some "X")] := by
  refine ⟨?_, ?_, by decide⟩
  · intro w st hok
    obtain ⟨st1, seen1, used, ents2, used2, hb, hc, ha, hst⟩ := analyze_ok_inv hok
    obtain ⟨hused, hnodup⟩ := collectUsedNames_spec hc
    rw [List.nil_append] at hused
    subst hused
    obtain ⟨_, hpw, _⟩ := assignNamesForEmit_names (fun nm hm => hm)
      (hnodup List.nodup_nil) ha
    rw [hst]
    exact ((sortEntities_perm w ents2).pairwise_iff
      (fun h => fun e => h e.symm)).mpr hpw
  · intro w st hok ce hmem s hexp hglob hdef hdot
    obtain ⟨st1, seen1, used, ents2, used2, hb, hc, ha, hst⟩ := analyze_ok_inv hok
    rw [hst] at hmem
    exact assignNamesForEmit_singleExport ha ce
      ((sortEntities_perm w ents2).mem_iff.mp hmem) s hexp hglob hdef hdot

/-- Witness for C3 at the inheritance scenario: the two final entities have
distinct emission names, and the sole-export entity `B` is emitted as `B`. -/
theorem unique_emission_names_witness :
    List.Pairwise (fun a b : CollectorEntity => a.nameForEmit ≠ b.nameForEmit)
      [⟨1, [], true, Option.some "A", []⟩, ⟨0, ["B"], false, Option.some "B", []⟩] ∧
    CollectorEntity.nameForEmit ⟨0, ["B"], false, Option.some "B", []⟩ = Option.some "B" :=
  ⟨unique_emission_names.1 inheritanceScenarioWorld
      ⟨[⟨1, [], true, Option.some "A", []⟩, ⟨0, ["B"], false, Option.some "B", []⟩]⟩ (by decide),
   unique_emission_names.2.1 inheritanceScenarioWorld
      ⟨[⟨1, [], true, Option.some "A", []⟩, ⟨0, ["B"], false, Option.some "B", []⟩]⟩ (by decide)
      ⟨0, ["B"], false, Option.some "B", []⟩ (by decide) "B" rfl (by decide) (by decide)
      (by decide)⟩

end ApiExtractor

namespace ApiExtractor

theorem applyDocComment_declared (ctx : MetadataContext) (kind : DeclKind)
    (options : ApiItemMetadata) (m : ModifierTagSet) :
    (applyDocComment ctx kind options (Option.some m)).1.declaredReleaseTag =
      (computeDeclaredReleaseTag m).1 := by
  unfold applyDocComment
  dsimp only
  repeat' split
  all_goals rfl

theorem applyDocComment_eff (ctx : MetadataContext) (kind : DeclKind)
    (options : ApiItemMetadata) (doc : Option ModifierTagSet) :
    (applyDocComment ctx kind options doc).1.effectiveReleaseTag =
      options.effectiveReleaseTag := by
  unfold applyDocComment
  rcases doc with _ | m
  · rfl
  · dsimp only
    repeat' split
    all_goals rfl

theorem applyDocComment_mem_extra (ctx : MetadataContext) (kind : DeclKind)
    (options : ApiItemMetadata) (m : ModifierTagSet) :
    (Diag.extraReleaseTag ∈ (applyDocComment ctx kind options (Option.some m)).2 ↔
      ((computeDeclaredReleaseTag m).2 && !ctx.isExternal) = true) := by
  unfold applyDocComment
  dsimp only
  repeat' split
  all_goals simp_all

theorem applyDocComment_missing_notMem (ctx : MetadataContext) (kind : DeclKind)
    (options : ApiItemMetadata) (doc : Option ModifierTagSet) :
    Diag.missingReleaseTag ∉ (applyDocComment ctx kind options doc).2 := by
  unfold applyDocComment
  rcases doc with _ | m
  · simp
  · dsimp only
    repeat' split
    all_goals simp_all

theorem applyParent_eff (options : ApiItemMetadata) (pe : Option ReleaseTag) :
    (applyParentEffectiveReleaseTag options pe).effectiveReleaseTag =
      specEffectiveReleaseTag options.declaredReleaseTag pe := by
  unfold applyParentEffectiveReleaseTag specEffectiveReleaseTag
  rcases pe with _ | parentEff <;>
    by_cases h : options.declaredReleaseTag = ReleaseTag.None <;>
      simp [h]

theorem applyParent_declared (options : ApiItemMetadata) (pe : Option ReleaseTag) :
    (applyParentEffectiveReleaseTag options pe).declaredReleaseTag =
      options.declaredReleaseTag := by
  unfold applyParentEffectiveReleaseTag
  rcases pe with _ | parentEff <;> rfl

theorem applyHeal_eff (ctx : MetadataContext) (options : ApiItemMetadata)
    (diags : List Diag) :
    (applyMissingReleaseTagHeal ctx options diags).1.effectiveReleaseTag =
      (if options.effectiveReleaseTag = ReleaseTag.None then
        (if ctx.isExternal then ReleaseTag.Public
         else if ctx.entityFound && ctx.entityConsumable then ReleaseTag.Public
         else ReleaseTag.None)
       else options.effectiveReleaseTag) := by
  unfold applyMissingReleaseTagHeal
  by_cases hnone : options.effectiveReleaseTag = ReleaseTag.None <;>
    by_cases hext : ctx.isExternal = true <;>
      by_cases hfc : (ctx.entityFound && ctx.entityConsumable) = true <;>
        simp [hnone, hext, hfc]

theorem applyHeal_declared (ctx : MetadataContext) (options : ApiItemMetadata)
    (diags : List Diag) :
    (applyMissingReleaseTagHeal ctx options diags).1.declaredReleaseTag =
      options.declaredReleaseTag := by
  unfold applyMissingReleaseTagHeal
  repeat' split
  all_goals rfl

theorem applyHeal_mem_missing (ctx : MetadataContext) (options : ApiItemMetadata)
    (diags : List Diag) :
    (Diag.missingReleaseTag ∈ (applyMissingReleaseTagHeal ctx options diags).2 ↔
      (Diag.missingReleaseTag ∈ diags ∨
        (options.effectiveReleaseTag = ReleaseTag.None ∧ ctx.isExternal = false ∧
          (ctx.entityFound && ctx.entityConsumable) = true ∧
          ctx.rootLocalName ≠ "_default"))) := by
  unfold applyMissingReleaseTagHeal
  repeat' split
  all_goals simp_all

theorem applyHeal_mem_other (ctx : MetadataContext) (options : ApiItemMetadata)
    (diags : List Diag) {d : Diag} (hne : d ≠ Diag.missingReleaseTag) :
    (d ∈ (applyMissingReleaseTagHeal ctx options diags).2 ↔ d ∈ diags) := by
  unfold applyMissingReleaseTagHeal
  repeat' split
  all_goals simp_all

end ApiExtractor

namespace ApiExtractor

theorem calculateApiItemMetadata_declared (ctx : MetadataContext) (kind : DeclKind)
    (doc : Option ModifierTagSet) (pe : Option ReleaseTag) :
    (calculateApiItemMetadata ctx kind doc pe).1.declaredReleaseTag =
      (match doc with
       | Option.none => ReleaseTag.None
       | Option.some m => (computeDeclaredReleaseTag m).1) := by
  unfold calculateApiItemMetadata
  dsimp only
  rw [applyHeal_declared, applyParent_declared]
  rcases doc with _ | m
  · rfl
  · exact applyDocComment_declared ctx kind initialApiItemMetadata m

theorem calculateApiItemMetadata_eff (ctx : MetadataContext) (kind : DeclKind)
    (doc : Option ModifierTagSet) (pe : Option ReleaseTag) :
    (calculateApiItemMetadata ctx kind doc pe).1.effectiveReleaseTag =
      (if specEffectiveReleaseTag
          ((calculateApiItemMetadata ctx kind doc pe).1.declaredReleaseTag) pe =
          ReleaseTag.None then
        (if ctx.isExternal then ReleaseTag.Public
         else if ctx.entityFound && ctx.entityConsumable then ReleaseTag.Public
         else ReleaseTag.None)
       else specEffectiveReleaseTag
          ((calculateApiItemMetadata ctx kind doc pe).1.declaredReleaseTag) pe) := by
  conv_lhs => unfold calculateApiItemMetadata
  dsimp only
  rw [applyHeal_eff, applyParent_eff]
  have hdecl : (calculateApiItemMetadata ctx kind doc pe).1.declaredReleaseTag =
      (applyDocComment ctx kind initialApiItemMetadata doc).1.declaredReleaseTag := by
    unfold calculateApiItemMetadata
    dsimp only
    rw [applyHeal_declared, applyParent_declared]
  rw [hdecl]

/-- C4 (amended): the effective release tag follows the declared-else-parent
rule whenever that rule produces a tag, and in general equals that rule's
result healed to `Public` when it produces `None` for an external
declaration or one whose root entity is consumable; in particular a nested
method with no declared tag under a class declared `@public` resolves to
`Public`. -/
theorem effective_release_tag_inheritance :
    (∀ (ctx : MetadataContext) (kind : DeclKind) (doc : Option ModifierTagSet)
      (pe : Option ReleaseTag),
      specEffectiveReleaseTag
        ((calculateApiItemMetadata ctx kind doc pe).1.declaredReleaseTag) pe ≠
        ReleaseTag.None →
      (calculateApiItemMetadata ctx kind doc pe).1.effectiveReleaseTag =
        specEffectiveReleaseTag
          ((calculateApiItemMetadata ctx kind doc pe).1.declaredReleaseTag) pe) ∧
    (∀ (ctx : MetadataContext) (kind : DeclKind) (doc : Option ModifierTagSet)
      (pe : Option ReleaseTag),
      ctx.isExternal = false → (ctx.entityFound && ctx.entityConsumable) = false →
      (calculateApiItemMetadata ctx kind doc pe).1.effectiveReleaseTag =
        specEffectiveReleaseTag
          ((calculateApiItemMetadata ctx kind doc pe).1.declaredReleaseTag) pe) ∧
    (∀ ctx : MetadataContext,
      effectiveTagsOfTree ctx Option.none
        (.node .classDecl (Option.some ⟨true, false, false, false, false, false, false,
          false, false⟩) [.node .methodDecl Option.none []]) =
        [ReleaseTag.Public, ReleaseTag.Public]) := by
  refine ⟨?_, ?_, ?_⟩
  · intro ctx kind doc pe hne
    rw [calculateApiItemMetadata_eff, if_neg hne]
  · intro ctx kind doc pe hext hfc
    rw [calculateApiItemMetadata_eff]
    split
    · rename_i hnone
      rw [hnone, hext, hfc]
      rfl
    · rfl
  · intro ctx
    simp only [effectiveTagsOfTree, effectiveTagsOfForest, effectiveTagOf]
    rw [calculateApiItemMetadata_eff, calculateApiItemMetadata_declared]
    simp only [computeDeclaredReleaseTag]
    norm_num [specEffectiveReleaseTag]
    rw [calculateApiItemMetadata_eff, calculateApiItemMetadata_declared]
    simp [specEffectiveReleaseTag]

/-- Context of a non-external root declaration whose entity is in the graph
and consumable. -/
def consumableRootContext : MetadataContext := ⟨false, true, true, "Widget", false⟩

/-- C4 counterexample: for an untagged root declaration of a consumable
non-external symbol, the declared-else-parent-else-None rule yields `None`,
but the stored effective release tag is `Public` (the missing-release-tag
healing), so the claim's "otherwise (no parent) it equals None" fails. -/
theorem effective_release_tag_inheritance_counterexample :
    (calculateApiItemMetadata consumableRootContext DeclKind.classDecl Option.none
      Option.none).1.effectiveReleaseTag = ReleaseTag.Public ∧
    specEffectiveReleaseTag ((calculateApiItemMetadata consumableRootContext
      DeclKind.classDecl Option.none Option.none).1.declaredReleaseTag) Option.none =
      ReleaseTag.None ∧
    ReleaseTag.Public ≠ ReleaseTag.None := by decide

/-- Context of a declaration that the healing never touches. -/
def nonConsumableContext : MetadataContext := ⟨false, false, false, "Widget", false⟩

/-- Witness for the amended C4 at concrete inputs. -/
theorem effective_release_tag_inheritance_witness :
    (calculateApiItemMetadata consumableRootContext DeclKind.classDecl
      (Option.some ⟨true, false, false, false, false, false, false, false, false⟩)
      Option.none).1.effectiveReleaseTag =
      specEffectiveReleaseTag ((calculateApiItemMetadata consumableRootContext
        DeclKind.classDecl
        (Option.some ⟨true, false, false, false, false, false, false, false, false⟩)
        Option.none).1.declaredReleaseTag) Option.none ∧
    (calculateApiItemMetadata nonConsumableContext DeclKind.methodDecl Option.none
      (Option.some ReleaseTag.Beta)).1.effectiveReleaseTag =
      specEffectiveReleaseTag ((calculateApiItemMetadata nonConsumableContext
        DeclKind.methodDecl Option.none
        (Option.some ReleaseTag.Beta)).1.declaredReleaseTag)
        (Option.some ReleaseTag.Beta) :=
  ⟨effective_release_tag_inheritance.1 consumableRootContext DeclKind.classDecl
      (Option.some ⟨true, false, false, false, false, false, false, false, false⟩)
      Option.none (by decide),
   effective_release_tag_inheritance.2.1 nonConsumableContext DeclKind.methodDecl
      Option.none (Option.some ReleaseTag.Beta) (by decide) (by decide)⟩

end ApiExtractor

namespace ApiExtractor

/-- C6 (amended): when a doc comment defines more than one visibility
modifier, the declared tag is the first one seen in the fixed precedence
order Public, Beta, Alpha, Internal (not `None`), and the non-fatal
extra-release-tag diagnostic is reported exactly when the comment defines
more than one modifier and the declaration is not external; with no comment
the declared tag is `None`. -/
theorem declared_release_tag_first_seen :
    (∀ (p b a i e o sl v pa : Bool),
      (computeDeclaredReleaseTag ⟨p, b, a, i, e, o, sl, v, pa⟩).1 =
        (if p then ReleaseTag.Public else if b then ReleaseTag.Beta
         else if a then ReleaseTag.Alpha else if i then ReleaseTag.Internal
         else ReleaseTag.None) ∧
      ((computeDeclaredReleaseTag ⟨p, b, a, i, e, o, sl, v, pa⟩).2 = true ↔
        ((p && b) || (p && a) || (p && i) || (b && a) || (b && i) || (a && i)) = true)) ∧
    (∀ (ctx : MetadataContext) (kind : DeclKind) (m : ModifierTagSet)
      (pe : Option ReleaseTag),
      (Diag.extraReleaseTag ∈ (calculateApiItemMetadata ctx kind (Option.some m) pe).2 ↔
        ((computeDeclaredReleaseTag m).2 && !ctx.isExternal) = true)) ∧
    (∀ (ctx : MetadataContext) (kind : DeclKind) (pe : Option ReleaseTag),
      (calculateApiItemMetadata ctx kind Option.none pe).1.declaredReleaseTag =
        ReleaseTag.None) := by
  refine ⟨by decide, ?_, ?_⟩
  · intro ctx kind m pe
    unfold calculateApiItemMetadata
    dsimp only
    rw [applyHeal_mem_other ctx _ _ (by decide)]
    exact applyDocComment_mem_extra ctx kind initialApiItemMetadata m
  · intro ctx kind pe
    rw [calculateApiItemMetadata_declared]

/-- C6 counterexample: a doc comment with both `@public` and `@beta` yields
declared tag `Public`, not the `None` the claim says multiple visibility
modifiers default to. -/
theorem declared_release_tag_first_seen_counterexample :
    (calculateApiItemMetadata ⟨false, false, false, "x", false⟩ DeclKind.classDecl
      (Option.some ⟨true, true, false, false, false, false, false, false, false⟩)
      Option.none).1.declaredReleaseTag = ReleaseTag.Public ∧
    ReleaseTag.Public ≠ ReleaseTag.None ∧
    Diag.extraReleaseTag ∈ (calculateApiItemMetadata ⟨false, false, false, "x", false⟩
      DeclKind.classDecl
      (Option.some ⟨true, true, false, false, false, false, false, false, false⟩)
      Option.none).2 := by decide

/-- C7 (amended): a non-external declaration whose declared-else-parent rule
yields `None` while its root entity is in the graph and consumable has its
effective tag healed to `Public`, and the missing-release-tag diagnostic is
reported exactly when the root symbol is not the entry point default export
`_default`. -/
theorem missing_release_tag_healing (found cons pd : Bool) (name : String)
    (kind : DeclKind) (doc : Option ModifierTagSet) (pe : Option ReleaseTag)
    (hnone : specEffectiveReleaseTag
      ((calculateApiItemMetadata ⟨false, found, cons, name, pd⟩ kind doc pe).1.declaredReleaseTag)
      pe = ReleaseTag.None)
    (hfc : (found && cons) = true) :
    (calculateApiItemMetadata ⟨false, found, cons, name, pd⟩ kind doc
      pe).1.effectiveReleaseTag = ReleaseTag.Public ∧
    (Diag.missingReleaseTag ∈ (calculateApiItemMetadata ⟨false, found, cons, name, pd⟩
      kind doc pe).2 ↔ name ≠ "_default") := by
  constructor
  · rw [calculateApiItemMetadata_eff, if_pos hnone]
    show (if false = true then _ else _) = _
    rw [if_neg (by decide)]
    rw [show (MetadataContext.entityFound ⟨false, found, cons, name, pd⟩ &&
      MetadataContext.entityConsumable ⟨false, found, cons, name, pd⟩) = (found && cons)
      from rfl, hfc]
    rfl
  · unfold calculateApiItemMetadata
    dsimp only
    rw [applyHeal_mem_missing]
    have hnotmem := applyDocComment_missing_notMem ⟨false, found, cons, name, pd⟩ kind
      initialApiItemMetadata doc
    have heffeq : (applyParentEffectiveReleaseTag
        (applyDocComment ⟨false, found, cons, name, pd⟩ kind initialApiItemMetadata doc).1
        pe).effectiveReleaseTag = ReleaseTag.None := by
      rw [applyParent_eff]
      rw [← hnone]
      congr 1
      unfold calculateApiItemMetadata
      dsimp only
      rw [applyHeal_declared, applyParent_declared]
    constructor
    · intro hmem
      rcases hmem with hmem | hcond
      · exact absurd hmem hnotmem
      · exact hcond.2.2.2
    · intro hname
      exact Or.inr ⟨heffeq, rfl, hfc, hname⟩

/-- C7 counterexample: for the entry point default export (`_default` root
symbol), an untagged consumable declaration is healed to `Public` but the
missing-release-tag diagnostic the claim requires is not reported. -/
theorem missing_release_tag_healing_counterexample :
    (calculateApiItemMetadata ⟨false, true, true, "_default", false⟩ DeclKind.classDecl
      Option.none Option.none).1.effectiveReleaseTag = ReleaseTag.Public ∧
    specEffectiveReleaseTag ((calculateApiItemMetadata ⟨false, true, true, "_default",
      false⟩ DeclKind.classDecl Option.none Option.none).1.declaredReleaseTag)
      Option.none = ReleaseTag.None ∧
    Diag.missingReleaseTag ∉ (calculateApiItemMetadata ⟨false, true, true, "_default",
      false⟩ DeclKind.classDecl Option.none Option.none).2 := by decide

/-- Witness for the amended C7 at a concrete consumable declaration. -/
theorem missing_release_tag_healing_witness :
    (calculateApiItemMetadata ⟨false, true, true, "Widget", false⟩ DeclKind.classDecl
      Option.none Option.none).1.effectiveReleaseTag = ReleaseTag.Public ∧
    (Diag.missingReleaseTag ∈ (calculateApiItemMetadata ⟨false, true, true, "Widget",
      false⟩ DeclKind.classDecl Option.none Option.none).2 ↔ "Widget" ≠ "_default") :=
  missing_release_tag_healing true true false "Widget" DeclKind.classDecl Option.none
    Option.none (by decide) (by decide)

end ApiExtractor

namespace ApiExtractor

/-- Kind of the declaration at an index of a symbol's declaration list. -/
def declKindAt (decls : List SymDecl) (j : Nat) : Option DeclKind :=
  (decls[j]?).map SymDecl.kind

/-- Invariant of the ancillary-detection machinery: only setters are marked
ancillary, and only getters carry ancillary lists; the metadata list always
covers exactly the declaration list. -/
def AncillaryInv (decls : List SymDecl) (st : SymbolResolutionState) : Prop :=
  st.declarationMetadata.length = decls.length ∧
  ∀ j : Nat,
    ((declMetaOf st j).isAncillary = true → declKindAt decls j = Option.some DeclKind.setAccessor) ∧
    ((declMetaOf st j).ancillaryDeclarations ≠ [] →
      declKindAt decls j = Option.some DeclKind.getAccessor)

theorem declMetaOf_set_eq {st : SymbolResolutionState} {i : Nat}
    {v : InternalDeclarationMetadata} (hi : i < st.declarationMetadata.length) :
    declMetaOf { st with declarationMetadata := st.declarationMetadata.set i v } i = v := by
  unfold declMetaOf
  rw [List.getD_eq_getElem?_getD, List.getElem?_set]
  simp [hi]

theorem declMetaOf_set_ne {st : SymbolResolutionState} {i j : Nat}
    {v : InternalDeclarationMetadata} (hne : i ≠ j) :
    declMetaOf { st with declarationMetadata := st.declarationMetadata.set i v } j =
      declMetaOf st j := by
  unfold declMetaOf
  rw [List.getD_eq_getElem?_getD, List.getElem?_set, if_neg hne,
    ← List.getD_eq_getElem?_getD]

theorem declMetaOf_set_set {st : SymbolResolutionState} {i1 i2 j : Nat}
    {v1 v2 : InternalDeclarationMetadata}
    (h1 : i1 < st.declarationMetadata.length) (h2 : i2 < st.declarationMetadata.length) :
    declMetaOf { st with declarationMetadata :=
        (st.declarationMetadata.set i1 v1).set i2 v2 } j =
      if i2 = j then v2 else if i1 = j then v1 else declMetaOf st j := by
  unfold declMetaOf
  rw [List.getD_eq_getElem?_getD, List.getElem?_set, List.getElem?_set]
  by_cases hj2 : i2 = j
  · simp [hj2, List.length_set, hj2 ▸ h2]
  · by_cases hj1 : i1 = j
    · simp [hj2, hj1, hj1 ▸ h1]
    · simp [hj2, hj1, List.getD_eq_getElem?_getD]

theorem addAncillaryDeclaration_inv {decls : List SymDecl}
    {st st' : SymbolResolutionState} {m a : Nat}
    (hm : declKindAt decls m = Option.some DeclKind.getAccessor)
    (ha : declKindAt decls a = Option.some DeclKind.setAccessor)
    (hinv : AncillaryInv decls st)
    (h : addAncillaryDeclaration st m a = .ok st') : AncillaryInv decls st' := by
  have hma : m ≠ a := by
    intro hc
    rw [hc, ha] at hm
    cases hm
  have ham : a < st.declarationMetadata.length := by
    by_contra hge
    rw [Nat.not_lt] at hge
    have hlen : decls.length ≤ a := hinv.1 ▸ hge
    unfold declKindAt at ha
    rw [List.getElem?_eq_none hlen] at ha
    cases ha
  unfold addAncillaryDeclaration at h
  dsimp only at h
  by_cases h1 : a ∈ (declMetaOf st m).ancillaryDeclarations
  · rw [if_pos h1] at h
    injection h with h
    subst h
    exact hinv
  · rw [if_neg h1] at h
    by_cases h2 : (declMetaOf st m).isAncillary = true
    · rw [if_pos h2] at h
      cases h
    · rw [if_neg h2] at h
      by_cases h3 : (declMetaOf st a).isAncillary = true
      · rw [if_pos h3] at h
        cases h
      · rw [if_neg h3] at h
        by_cases h4 : ((st.apiItemMetadata.getD m Option.none).isSome ||
            (st.apiItemMetadata.getD a Option.none).isSome) = true
        · rw [if_pos h4] at h
          cases h
        · rw [if_neg h4] at h
          injection h with h
          subst h
          have hmm : m < st.declarationMetadata.length := by
            by_contra hge
            rw [Nat.not_lt] at hge
            have hlen : decls.length ≤ m := hinv.1 ▸ hge
            unfold declKindAt at hm
            rw [List.getElem?_eq_none hlen] at hm
            cases hm
          refine ⟨by rw [List.length_set, List.length_set]; exact hinv.1, ?_⟩
          intro j
          rw [declMetaOf_set_set ham hmm]
          by_cases hj : m = j
          · rw [if_pos hj]
            constructor
            · intro hanc
              exact absurd hanc h2
            · intro _
              rw [← hj]
              exact hm
          · rw [if_neg hj]
            by_cases hj2 : a = j
            · rw [if_pos hj2]
              constructor
              · intro _
                rw [← hj2]
                exact ha
              · intro hne
                rw [← hj2]
                exact (hinv.2 a).2 hne
            · rw [if_neg hj2]
              exact hinv.2 j

theorem linkSetterToGetters_inv {decls : List SymDecl} {setterIdx : Nat}
    (hset : declKindAt decls setterIdx = Option.some DeclKind.setAccessor) :
    ∀ (l : List (Nat × SymDecl)) (st st' : SymbolResolutionState) (fg fg' : Bool),
    (∀ p ∈ l, declKindAt decls p.1 = Option.some p.2.kind) →
    AncillaryInv decls st →
    linkSetterToGetters setterIdx l st fg = .ok (st', fg') →
    AncillaryInv decls st' := by
  intro l
  induction l with
  | nil =>
    intro st st' fg fg' _ hinv h
    unfold linkSetterToGetters at h
    injection h with h
    injection h with h1 h2
    rw [← h1]
    exact hinv
  | cons p rest ih =>
    intro st st' fg fg' halign hinv h
    obtain ⟨j, d⟩ := p
    unfold linkSetterToGetters at h
    by_cases hk : d.kind = DeclKind.getAccessor
    · rw [if_pos hk] at h
      simp only [bind, Except.bind] at h
      cases haad : addAncillaryDeclaration st j setterIdx with
      | error e =>
        rw [haad] at h
        cases h
      | ok st1 =>
        rw [haad] at h
        dsimp only at h
        have hmk : declKindAt decls j = Option.some DeclKind.getAccessor := by
          have := halign (j, d) (List.mem_cons_self _ _)
          rw [hk] at this
          exact this
        exact ih st1 st' true fg'
          (fun q hq => halign q (List.mem_cons_of_mem _ hq))
          (addAncillaryDeclaration_inv hmk hset hinv haad) h
    · rw [if_neg hk] at h
      exact ih st st' fg fg' (fun q hq => halign q (List.mem_cons_of_mem _ hq)) hinv h

theorem detectAncillaryDeclarations_inv {decls : List SymDecl}
    {allDecls : List (Nat × SymDecl)}
    (hall : ∀ p ∈ allDecls, declKindAt decls p.1 = Option.some p.2.kind) :
    ∀ (l : List (Nat × SymDecl)) (st st' : SymbolResolutionState),
    (∀ p ∈ l, declKindAt decls p.1 = Option.some p.2.kind) →
    AncillaryInv decls st →
    detectAncillaryDeclarations allDecls l st = .ok st' →
    AncillaryInv decls st' := by
  intro l
  induction l with
  | nil =>
    intro st st' _ hinv h
    unfold detectAncillaryDeclarations at h
    injection h with h
    rw [← h]
    exact hinv
  | cons p rest ih =>
    intro st st' halign hinv h
    obtain ⟨i, d⟩ := p
    unfold detectAncillaryDeclarations at h
    by_cases hk : d.kind = DeclKind.setAccessor
    · rw [if_pos hk] at h
      simp only [bind, Except.bind] at h
      cases hlink : linkSetterToGetters i allDecls st false with
      | error e =>
        rw [hlink] at h
        cases h
      | ok pr =>
        rw [hlink] at h
        dsimp only at h
        obtain ⟨st1, fg⟩ := pr
        have hik : declKindAt decls i = Option.some DeclKind.setAccessor := by
          have := halign (i, d) (List.mem_cons_self _ _)
          rw [hk] at this
          exact this
        have hinv1 : AncillaryInv decls st1 :=
          linkSetterToGetters_inv hik allDecls st st1 false fg hall hinv hlink
        have hinv2 : AncillaryInv decls
            (if fg = true then st1 else { st1 with diags := st1.diags ++ [Diag.missingGetter] }) := by
          by_cases hfg : fg = true
          · rw [if_pos hfg]
            exact hinv1
          · rw [if_neg hfg]
            exact ⟨hinv1.1, hinv1.2⟩
        exact ih _ st' (fun q hq => halign q (List.mem_cons_of_mem _ hq)) hinv2 h
    · rw [if_neg hk] at h
      exact ih st st' (fun q hq => halign q (List.mem_cons_of_mem _ hq)) hinv h

theorem calculateApiItemMetadataFor_declMeta (ctx : MetadataContext)
    (pe : Option ReleaseTag) (st : SymbolResolutionState) (i : Nat) (d : SymDecl) :
    (calculateApiItemMetadataFor ctx pe st i d).declarationMetadata =
      st.declarationMetadata := by
  unfold calculateApiItemMetadataFor
  dsimp only
  split
  · split
    · rfl
    · rfl
  · rfl

theorem calculateApiItemMetadataAll_declMeta (ctx : MetadataContext)
    (pe : Option ReleaseTag) :
    ∀ (l : List (Nat × SymDecl)) (st : SymbolResolutionState),
    (calculateApiItemMetadataAll ctx pe l st).declarationMetadata =
      st.declarationMetadata := by
  intro l
  induction l with
  | nil =>
    intro st
    rfl
  | cons p rest ih =>
    intro st
    obtain ⟨i, d⟩ := p
    unfold calculateApiItemMetadataAll
    rw [ih, calculateApiItemMetadataFor_declMeta]

theorem declMetaOf_initial (decls : List SymDecl) (j : Nat) :
    declMetaOf
      { declarationMetadata := decls.map (fun _ => ⟨false, []⟩)
        apiItemMetadata := decls.map (fun _ => Option.none)
        nextObjectId := 0
        diags := [] } j = ⟨false, []⟩ := by
  unfold declMetaOf
  rw [List.getD_eq_getElem?_getD]
  cases hg : (decls.map (fun _ => (⟨false, []⟩ : InternalDeclarationMetadata)))[j]? with
  | none => rfl
  | some x =>
    rw [List.getElem?_map] at hg
    cases hl : decls[j]? with
    | none =>
      rw [hl] at hg
      cases hg
    | some y =>
      rw [hl] at hg
      injection hg with hg
      rw [← hg]
      rfl

theorem enum_align (decls : List SymDecl) :
    ∀ p ∈ decls.enum, declKindAt decls p.1 = Option.some p.2.kind := by
  intro p hp
  rw [List.mem_enum_iff_getElem?] at hp
  unfold declKindAt
  rw [hp]
  rfl

theorem resolveSymbolDeclarations_inv {ctx : MetadataContext}
    {pe : Option ReleaseTag} {decls : List SymDecl}
    {st : SymbolResolutionState} {maxTag : ReleaseTag}
    (h : resolveSymbolDeclarations ctx pe decls = .ok (st, maxTag)) :
    AncillaryInv decls st := by
  unfold resolveSymbolDeclarations at h
  simp only [bind, Except.bind] at h
  cases hdet : detectAncillaryDeclarations decls.enum decls.enum
      { declarationMetadata := decls.map (fun _ => ⟨false, []⟩)
        apiItemMetadata := decls.map (fun _ => Option.none)
        nextObjectId := 0
        diags := [] } with
  | error e =>
    rw [hdet] at h
    cases h
  | ok st1 =>
    rw [hdet] at h
    dsimp only at h
    injection h with h
    have hst : st = calculateApiItemMetadataAll ctx pe decls.enum st1 :=
      ((Prod.mk.injEq _ _ _ _ ▸ h).1).symm
    have hinv0 : AncillaryInv decls
        { declarationMetadata := decls.map (fun _ => ⟨false, []⟩)
          apiItemMetadata := decls.map (fun _ => Option.none)
          nextObjectId := 0
          diags := [] } := by
      refine ⟨by rw [List.length_map], ?_⟩
      intro j
      rw [declMetaOf_initial]
      exact ⟨fun hc => absurd hc (by decide), fun hc => absurd rfl hc⟩
    have hinv1 : AncillaryInv decls st1 :=
      detectAncillaryDeclarations_inv (enum_align decls) decls.enum _ st1
        (enum_align decls) hinv0 hdet
    rw [hst]
    refine ⟨?_, ?_⟩
    · rw [calculateApiItemMetadataAll_declMeta]
      exact hinv1.1
    · intro j
      have hd : declMetaOf (calculateApiItemMetadataAll ctx pe decls.enum st1) j =
          declMetaOf st1 j := by
        unfold declMetaOf
        rw [calculateApiItemMetadataAll_declMeta]
      rw [hd]
      exact hinv1.2 j

/-- C5: (1) invariant - after a successful symbol resolution, no declaration
both is ancillary and carries a non-empty list of ancillary declarations;
(2) for a symbol with a getter declaration and a setter declaration, the
setter ends up ancillary to the getter, `getNonAncillaryDeclarations`
returns only the getter, and the setter's `ApiItemMetadata` entry is the very
object (same allocation id) stored for the getter - shared, never separately
constructed. -/
theorem ancillary_declaration_sharing :
    (∀ (ctx : MetadataContext) (pe : Option ReleaseTag) (decls : List SymDecl)
        (st : SymbolResolutionState) (maxTag : ReleaseTag),
      resolveSymbolDeclarations ctx pe decls = .ok (st, maxTag) →
      ∀ i : Nat, ¬((declMetaOf st i).isAncillary = true ∧
        (declMetaOf st i).ancillaryDeclarations ≠ [])) ∧
    (∀ (ctx : MetadataContext) (pe : Option ReleaseTag) (dg ds : Option ModifierTagSet),
      ∃ (st : SymbolResolutionState) (maxTag : ReleaseTag),
        resolveSymbolDeclarations ctx pe
          [⟨DeclKind.getAccessor, dg⟩, ⟨DeclKind.setAccessor, ds⟩] = .ok (st, maxTag) ∧
        (declMetaOf st 1).isAncillary = true ∧
        (declMetaOf st 0).ancillaryDeclarations = [1] ∧
        getNonAncillaryDeclarations st
          [⟨DeclKind.getAccessor, dg⟩, ⟨DeclKind.setAccessor, ds⟩] = [0] ∧
        st.apiItemMetadata.getD 1 Option.none = st.apiItemMetadata.getD 0 Option.none ∧
        (st.apiItemMetadata.getD 0 Option.none).isSome = true) := by
  constructor
  · intro ctx pe decls st maxTag h i hboth
    have hinv := resolveSymbolDeclarations_inv h
    have h1 := (hinv.2 i).1 hboth.1
    have h2 := (hinv.2 i).2 hboth.2
    rw [h1] at h2
    cases h2
  · intro ctx pe dg ds
    cases ds with
    | none => exact ⟨_, _, rfl, rfl, rfl, rfl, rfl, rfl⟩
    | some t => exact ⟨_, _, rfl, rfl, rfl, rfl, rfl, rfl⟩

/-- Context used by the C5 witness. -/
def accessorCtx : MetadataContext := ⟨false, true, true, "Widget", false⟩

/-- Getter/setter declaration pair used by the C5 witness. -/
def accessorDecls : List SymDecl :=
  [⟨DeclKind.getAccessor, Option.none⟩, ⟨DeclKind.setAccessor, Option.none⟩]

/-- The state produced by resolving `accessorDecls`. -/
def accessorState : SymbolResolutionState :=
  match resolveSymbolDeclarations accessorCtx Option.none accessorDecls with
  | .ok (st, _) => st
  | .error _ => ⟨[], [], 0, []⟩

/-- The max effective release tag produced by resolving `accessorDecls`. -/
def accessorMaxTag : ReleaseTag :=
  match resolveSymbolDeclarations accessorCtx Option.none accessorDecls with
  | .ok (_, t) => t
  | .error _ => ReleaseTag.None

theorem ancillary_declaration_sharing_witness :
    resolveSymbolDeclarations accessorCtx Option.none accessorDecls =
      .ok (accessorState, accessorMaxTag) ∧
    ¬((declMetaOf accessorState 1).isAncillary = true ∧
      (declMetaOf accessorState 1).ancillaryDeclarations ≠ []) :=
  ⟨by decide,
    ancillary_declaration_sharing.1 accessorCtx Option.none accessorDecls
      accessorState accessorMaxTag (by decide) 1⟩

end ApiExtractor

namespace ApiExtractor

mutual
theorem subtree_trans : ∀ (d n : GenDecl), n ∈ d.subtree → ∀ x ∈ n.subtree, x ∈ d.subtree
  | .node k p t i c, n, hn, x, hx => by
    simp only [GenDecl.subtree] at hn ⊢
    cases hn with
    | head =>
      simpa [GenDecl.subtree] using hx
    | tail _ h =>
      exact List.mem_cons_of_mem _ (subtreeOfForest_trans c n h x hx)

theorem subtreeOfForest_trans :
    ∀ (ds : List GenDecl) (n : GenDecl), n ∈ GenDecl.subtreeOfForest ds →
    ∀ x ∈ n.subtree, x ∈ GenDecl.subtreeOfForest ds
  | [], n, hn, x, hx => by
    simp [GenDecl.subtreeOfForest] at hn
  | d :: ds, n, hn, x, hx => by
    simp only [GenDecl.subtreeOfForest] at hn ⊢
    rcases List.mem_append.mp hn with h | h
    · exact List.mem_append_left _ (subtree_trans d n h x hx)
    · exact List.mem_append_right _ (subtreeOfForest_trans ds n h x hx)
end

mutual
theorem mem_processDeclaration :
    ∀ (d : GenDecl) (m : Nat), m ∈ processDeclaration d →
      m ∈ d.subtree.map GenDecl.declId
  | .node k p t i c, m, h => by
    unfold processDeclaration at h
    simp only [GenDecl.subtree, List.map_cons]
    by_cases hp : p = true
    · rw [if_pos hp] at h
      cases h
    · rw [if_neg hp] at h
      by_cases ht : (t = ReleaseTag.Internal || t = ReleaseTag.Alpha) = true
      · rw [if_pos ht] at h
        cases h
      · rw [if_neg ht] at h
        by_cases hc : DeclKind.processesChildren k = true
        · rw [if_pos hc] at h
          rcases List.mem_cons.mp h with heq | h2
          · rw [heq]
            exact List.mem_cons_self _ _
          · exact List.mem_cons_of_mem _ (mem_processChildDeclarations c m h2)
        · rw [if_neg hc] at h
          by_cases hh : DeclKind.isHandledByGenerator k = true
          · rw [if_pos hh] at h
            rcases List.mem_cons.mp h with heq | h2
            · rw [heq]
              exact List.mem_cons_self _ _
            · cases h2
          · rw [if_neg hh] at h
            cases h

theorem mem_processChildDeclarations :
    ∀ (ds : List GenDecl) (m : Nat), m ∈ processChildDeclarations ds →
      m ∈ (GenDecl.subtreeOfForest ds).map GenDecl.declId
  | [], m, h => by
    simp [processChildDeclarations] at h
  | d :: ds, m, h => by
    simp only [processChildDeclarations] at h
    simp only [GenDecl.subtreeOfForest, List.map_append]
    rcases List.mem_append.mp h with h2 | h2
    · exact List.mem_append_left _ (mem_processDeclaration d m h2)
    · exact List.mem_append_right _ (mem_processChildDeclarations ds m h2)
end

theorem processDeclaration_eq_nil_of_trimmed :
    ∀ d : GenDecl, d.isTrimmed = true → processDeclaration d = []
  | .node k p t i c, h => by
    simp only [GenDecl.isTrimmed] at h
    unfold processDeclaration
    by_cases hp : p = true
    · rw [if_pos hp]
    · rw [if_neg hp]
      have hp' : p = false := Bool.eq_false_iff.mpr hp
      rw [hp'] at h
      simp only [Bool.false_or, Bool.or_eq_true, decide_eq_true_eq] at h
      have ht : (t = ReleaseTag.Internal || t = ReleaseTag.Alpha) = true := by
        rcases h with h | h <;> simp [h]
      rw [if_pos ht]

mutual
theorem trimmed_omitted :
    ∀ (d : GenDecl), (d.subtree.map GenDecl.declId).Nodup →
    ∀ (n : GenDecl), n ∈ d.subtree → n.isTrimmed = true →
    ∀ (x : GenDecl), x ∈ n.subtree → x.declId ∉ processDeclaration d
  | .node k p t i c, hnd, n, hn, htrim, x, hx => by
    intro hmem
    by_cases hdt : (GenDecl.node k p t i c).isTrimmed = true
    · rw [processDeclaration_eq_nil_of_trimmed _ hdt] at hmem
      cases hmem
    · have hnf : n ∈ GenDecl.subtreeOfForest c := by
        simp only [GenDecl.subtree] at hn
        cases hn with
        | head => exact absurd htrim hdt
        | tail _ h2 => exact h2
      have hxf : x ∈ GenDecl.subtreeOfForest c := subtreeOfForest_trans c n hnf x hx
      simp only [GenDecl.subtree, List.map_cons] at hnd
      have hinotin := (List.nodup_cons.mp hnd).1
      have hndc := (List.nodup_cons.mp hnd).2
      have hflags : (p = false ∧ ¬ t = ReleaseTag.Internal) ∧ ¬ t = ReleaseTag.Alpha := by
        simpa [GenDecl.isTrimmed, not_or] using hdt
      have hpneg : ¬ p = true := by simp [hflags.1.1]
      have ht2 : ¬ ((t = ReleaseTag.Internal || t = ReleaseTag.Alpha) = true) := by
        simp [hflags.1.2, hflags.2]
      unfold processDeclaration at hmem
      rw [if_neg hpneg, if_neg ht2] at hmem
      have hxm : x.declId ∈ (GenDecl.subtreeOfForest c).map GenDecl.declId :=
        List.mem_map_of_mem _ hxf
      by_cases hc : DeclKind.processesChildren k = true
      · rw [if_pos hc] at hmem
        rcases List.mem_cons.mp hmem with heq | h2
        · rw [heq] at hxm
          exact hinotin hxm
        · exact trimmed_omitted_forest c hndc n hnf htrim x hx h2
      · rw [if_neg hc] at hmem
        by_cases hh : DeclKind.isHandledByGenerator k = true
        · rw [if_pos hh] at hmem
          rcases List.mem_cons.mp hmem with heq | h2
          · rw [heq] at hxm
            exact hinotin hxm
          · cases h2
        · rw [if_neg hh] at hmem
          cases hmem

theorem trimmed_omitted_forest :
    ∀ (ds : List GenDecl), ((GenDecl.subtreeOfForest ds).map GenDecl.declId).Nodup →
    ∀ (n : GenDecl), n ∈ GenDecl.subtreeOfForest ds → n.isTrimmed = true →
    ∀ (x : GenDecl), x ∈ n.subtree → x.declId ∉ processChildDeclarations ds
  | [], _, n, hn, _, x, _ => by
    simp [GenDecl.subtreeOfForest] at hn
  | d :: ds, hnd, n, hn, htrim, x, hx => by
    intro hmem
    simp only [GenDecl.subtreeOfForest, List.map_append] at hnd
    simp only [GenDecl.subtreeOfForest] at hn
    simp only [processChildDeclarations] at hmem
    have hnd1 := (List.nodup_append.mp hnd).1
    have hnd2 := (List.nodup_append.mp hnd).2.1
    have hdisj := List.disjoint_of_nodup_append hnd
    rcases List.mem_append.mp hn with h | h
    · have hxd : x ∈ d.subtree := subtree_trans d n h x hx
      rcases List.mem_append.mp hmem with hm | hm
      · exact trimmed_omitted d hnd1 n h htrim x hx hm
      · exact hdisj (List.mem_map_of_mem _ hxd) (mem_processChildDeclarations ds _ hm)
    · have hxf : x ∈ GenDecl.subtreeOfForest ds := subtreeOfForest_trans ds n h x hx
      rcases List.mem_append.mp hmem with hm | hm
      · exact hdisj (mem_processDeclaration d _ hm) (List.mem_map_of_mem _ hxf)
      · exact trimmed_omitted_forest ds hnd2 n h htrim x hx hm
end

theorem flatMap_nodup_block_eq {α β : Type _} {l : List α} {g : α → List β} {a : β}
    (hnd : (l.flatMap g).Nodup) :
    ∀ {e e' : α}, e ∈ l → e' ∈ l → a ∈ g e → a ∈ g e' → e = e' := by
  induction l with
  | nil =>
    intro e e' he
    cases he
  | cons b l ih =>
    intro e e' he he' ha ha'
    rw [List.flatMap_cons] at hnd
    have hdisj := List.disjoint_of_nodup_append hnd
    have hnd2 := (List.nodup_append.mp hnd).2.1
    cases he with
    | head =>
      cases he' with
      | head => rfl
      | tail _ h' =>
        exact (hdisj ha (List.mem_flatMap.mpr ⟨e', h', ha'⟩)).elim
    | tail _ h =>
      cases he' with
      | head =>
        exact (hdisj ha' (List.mem_flatMap.mpr ⟨e, h, ha⟩)).elim
      | tail _ h' =>
        exact ih hnd2 h h' ha ha'

theorem flatMap_block_sublist {α β : Type _} (g : α → List β) :
    ∀ {l : List α} {e : α}, e ∈ l → (g e).Sublist (l.flatMap g) := by
  intro l
  induction l with
  | nil =>
    intro e he
    cases he
  | cons b l ih =>
    intro e he
    rw [List.flatMap_cons]
    cases he with
    | head => exact List.sublist_append_left _ _
    | tail _ h => exact (ih h).trans (List.sublist_append_right _ _)

theorem mem_subtreeOfForest_of_mem {d : GenDecl} :
    ∀ {ds : List GenDecl}, d ∈ ds → ∀ {y : GenDecl}, y ∈ d.subtree →
      y ∈ GenDecl.subtreeOfForest ds := by
  intro ds
  induction ds with
  | nil =>
    intro h
    cases h
  | cons b ds ih =>
    intro hd y hy
    simp only [GenDecl.subtreeOfForest]
    cases hd with
    | head => exact List.mem_append_left _ hy
    | tail _ h => exact List.mem_append_right _ (ih h hy)

/-- C10: (1) when the model builder walks the finished graph, a declaration
carrying the private modifier, or whose effective release tag is internal or
alpha, is omitted from the built model together with its whole subtree
(stated under globally distinct declaration ids); (2) a top-level entity with
no export names is processed by `buildApiPackage` only when the
`includeForgottenExports` option is enabled. -/
theorem trimming_and_forgotten_exports :
    (∀ (w : GenWorld) (e : GenEntity) (d n x : GenDecl),
      (w.entities.flatMap
        (fun ent => (GenDecl.subtreeOfForest ent.declarations).map GenDecl.declId)).Nodup →
      e ∈ w.entities → d ∈ e.declarations →
      n ∈ d.subtree → n.isTrimmed = true → x ∈ n.subtree →
      x.declId ∉ buildApiPackage w) ∧
    (∀ (w : GenWorld) (e : GenEntity),
      e ∈ processedEntities w → e.exportNames = [] →
      w.includeForgottenExports = true) := by
  constructor
  · intro w e d n x hnd he hd hn htrim hx hmem
    unfold buildApiPackage at hmem
    rcases List.mem_flatMap.mp hmem with ⟨e', he'p, hpc⟩
    have he'w : e' ∈ w.entities := List.mem_of_mem_filter he'p
    have hnf : n ∈ GenDecl.subtreeOfForest e.declarations := mem_subtreeOfForest_of_mem hd hn
    have hxf : x ∈ GenDecl.subtreeOfForest e.declarations :=
      subtreeOfForest_trans _ n hnf x hx
    have ha : x.declId ∈ (GenDecl.subtreeOfForest e.declarations).map GenDecl.declId :=
      List.mem_map_of_mem _ hxf
    have ha' : x.declId ∈ (GenDecl.subtreeOfForest e'.declarations).map GenDecl.declId :=
      mem_processChildDeclarations _ _ hpc
    have hee : e = e' := flatMap_nodup_block_eq hnd he he'w ha ha'
    subst hee
    have hsub := flatMap_block_sublist
      (fun ent => (GenDecl.subtreeOfForest ent.declarations).map GenDecl.declId) he
    have hbn : ((GenDecl.subtreeOfForest e.declarations).map GenDecl.declId).Nodup :=
      hnd.sublist hsub
    exact trimmed_omitted_forest e.declarations hbn n hnf htrim x hx hpc
  · intro w e he hempty
    have hp := List.of_mem_filter he
    simpa [GenEntity.exported, hempty] using hp

/-- A public child declaration living under a trimmed node (C10 witness). -/
def genChild : GenDecl := .node DeclKind.classDecl false ReleaseTag.Public 3 []

/-- An internal (trimmed) node with one child (C10 witness). -/
def genTrimmedNode : GenDecl := .node DeclKind.classDecl false ReleaseTag.Internal 2 [genChild]

/-- A public root declaration containing the trimmed node (C10 witness). -/
def genRoot : GenDecl := .node DeclKind.classDecl false ReleaseTag.Public 1 [genTrimmedNode]

/-- A top-level entity with no export names (C10 witness). -/
def genEntityW : GenEntity := ⟨[], [genRoot]⟩

/-- A generator world with `includeForgottenExports` enabled (C10 witness). -/
def genWorldW : GenWorld := ⟨[genEntityW], true⟩

theorem trimming_and_forgotten_exports_witness :
    GenDecl.declId genChild ∉ buildApiPackage genWorldW ∧
    genWorldW.includeForgottenExports = true :=
  ⟨trimming_and_forgotten_exports.1 genWorldW genEntityW genRoot genTrimmedNode genChild
      (by decide) (List.mem_cons_self _ _) (List.mem_cons_self _ _)
      (List.mem_cons_of_mem _ (List.mem_cons_self _ _)) rfl
      (List.mem_cons_of_mem _ (List.mem_cons_self _ _)),
    trimming_and_forgotten_exports.2 genWorldW genEntityW (List.mem_cons_self _ _) rfl⟩

end ApiExtractor
